import Mathlib

/-!
# Verification of `rmg/structure.py` (Structure: adjacency-list codec,
atom-type inference, resonance enumeration)

This file shallowly embeds the `Structure` class of `src/source/rmg/structure.py`
and proves/refutes the frozen claims about it.

Conventions of the embedding:

* Python strings are `List Char`; Python string methods (`splitlines`, `split`,
  `strip`, `partition`, `upper`, `int(...)`) are modelled by executable
  functions below, faithful to CPython semantics on the character sets that
  actually occur (`'\n'` is the line separator; `' '`/`'\t'` is whitespace).
* The classes `chem.Atom`, `chem.Bond`, the `chem.atomTypes` /
  `chem.electronStates` / `chem.bondTypes` registries and the `graph.Graph`
  substrate are not part of the provided sources; they are modelled from the
  spec (sections 2, 3, 4.1 and 9) as noted on each definition.
* Python object references to atoms/bonds are modelled as positional indices
  ("handles") into the owning `Structure`'s atom/bond lists, following spec
  section 9 ("model as an arena of Atoms and Bonds indexed by stable handles").
* In-place mutation is modelled by explicit state passing; Python exceptions
  are modelled with `Except`.  All exceptions raised inside the parser's
  `try:` block are indistinguishable to the caller, so they are collapsed to
  `Except Unit`.
-/

namespace RMG

/-- Modelled from the spec (section 3): `BondType` is "a discrete bond
order/class (single, double, triple, aromatic/benzene), identified by a short
code and a numeric order (1, 2, 3, 1.5)".  Immutable, shared registry. -/
inductive BondType where
  | S | D | T | B
deriving DecidableEq

/-- The registry code of a bond type (`'S'`, `'D'`, `'T'`, `'B'`). -/
def BondType.labelOf : BondType → List Char
  | .S => ['S']
  | .D => ['D']
  | .T => ['T']
  | .B => ['B']

/-- Twice the numeric order of a bond type (doubled so that the half-integer
benzene order 1.5 stays in `Nat`): 1, 2, 3, 1.5 become 2, 4, 6, 3. -/
def BondType.order2 : BondType → Nat
  | .S => 2
  | .D => 4
  | .T => 6
  | .B => 3

/-- Modelled from the spec (section 3): `ElectronState` is "a discrete
free-electron configuration (radical order plus spin descriptor ...),
identified by a short code".  The codes are the ones the source uses
(`fromOBMol` in structure.py writes `'0'`, `'1'`, `'2S'`, `'2T'`). -/
inductive EState where
  | s0 | s1 | s2 | s2S | s2T | s3 | s4
deriving DecidableEq

/-- The registry code of an electron state. -/
def EState.labelOf : EState → List Char
  | .s0 => ['0']
  | .s1 => ['1']
  | .s2 => ['2']
  | .s2S => ['2', 'S']
  | .s2T => ['2', 'T']
  | .s3 => ['3']
  | .s4 => ['4']

/-- The radical order of an electron state. -/
def EState.orderOf : EState → Nat
  | .s0 => 0
  | .s1 => 1
  | .s2 => 2
  | .s2S => 2
  | .s2T => 2
  | .s3 => 3
  | .s4 => 4

/-- The canonical electron state of a given radical order (used by the
free-electron increment/decrement operations, which the spec section 4.4
describes as acting on the free-electron count). -/
def canonicalEState : Nat → EState
  | 0 => .s0
  | 1 => .s1
  | 2 => .s2
  | 3 => .s3
  | _ => .s4

/-- Modelled from the spec (sections 3 and 4.3): the concrete "atom type"
labels distinguishing local bonding roles.  The label set is the one
`updateAtomTypes` in structure.py manipulates (`'C'`, `'Ct'`, `'Cs'`,
`'Cdd'`, `'CO'`, `'Cds'`, `'Cd'`, `'Cb'`, `'Cbf'`, `'O'`, `'Os'`, `'Od'`),
plus hydrogen and the generic/wildcard types `'R'` and `'R!H'`. -/
inductive AtomType where
  | H | C | Ct | Cs | Cdd | CO | Cds | Cd | Cb | Cbf | O | Os | Od | R | RnH
deriving DecidableEq

/-- The registry label of an atom type. -/
def AtomType.labelOf : AtomType → List Char
  | .H => ['H']
  | .C => ['C']
  | .Ct => ['C', 't']
  | .Cs => ['C', 's']
  | .Cdd => ['C', 'd', 'd']
  | .CO => ['C', 'O']
  | .Cds => ['C', 'd', 's']
  | .Cd => ['C', 'd']
  | .Cb => ['C', 'b']
  | .Cbf => ['C', 'b', 'f']
  | .O => ['O']
  | .Os => ['O', 's']
  | .Od => ['O', 'd']
  | .R => ['R']
  | .RnH => ['R', '!', 'H']

/-- The element symbol of an atom type (`atomType.element.symbol` in the
source).  The generic types `R`/`R!H` are only ever consulted for their
labels (the source skips them before touching `.element`), so their element
symbol is taken to be their own label. -/
def AtomType.elementSymbol : AtomType → List Char
  | .H => ['H']
  | .C | .Ct | .Cs | .Cdd | .CO | .Cds | .Cd | .Cb | .Cbf => ['C']
  | .O | .Os | .Od => ['O']
  | .R => ['R']
  | .RnH => ['R', '!', 'H']

/-- All atom types (the `chem.atomTypes` registry's value set). -/
def allAtomTypes : List AtomType :=
  [.H, .C, .Ct, .Cs, .Cdd, .CO, .Cds, .Cd, .Cb, .Cbf, .O, .Os, .Od, .R, .RnH]

/-- All electron states (the `chem.electronStates` registry's value set). -/
def allEStates : List EState := [.s0, .s1, .s2, .s2S, .s2T, .s3, .s4]

/-- All bond types (the `chem.bondTypes` registry's value set). -/
def allBondTypes : List BondType := [.S, .D, .T, .B]

/-- Modelled from the spec (sections 2 and 9): registry lookup of an atom
type by its symbolic label; `none` models a Python `KeyError`. -/
def atomTypeOfLabel (s : List Char) : Option AtomType :=
  allAtomTypes.find? (fun t => t.labelOf = s)

/-- Registry lookup of an electron state by label. -/
def eStateOfLabel (s : List Char) : Option EState :=
  allEStates.find? (fun e => e.labelOf = s)

/-- Registry lookup of a bond type by label. -/
def bondTypeOfLabel (s : List Char) : Option BondType :=
  allBondTypes.find? (fun t => t.labelOf = s)

/-- Modelled from the spec (sections 3 and 9): an `Atom` holds "one or more
candidate Element-or-functional-group-type labels (ambiguity set ...), one or
more candidate ElectronStates, an optional center-label".  Following the
spec's section 9 note, the ambiguity sets are nonempty lists; a singleton
list is the "resolved" scalar case (the Python attribute then reads as a
scalar, a longer list reads as a Python `list`). -/
structure Atom where
  atomType : List AtomType
  electronState : List EState
  label : List Char
deriving DecidableEq

/-- Modelled from the spec (section 3): a `Bond` holds "exactly two Atom
references" and "one or more candidate BondTypes (ambiguity set)".  The two
atom references are positional handles into the owning structure's atom
list. -/
structure Bond where
  a1 : Nat
  a2 : Nat
  btype : List BondType
deriving DecidableEq

/-- The `Structure` class of structure.py: a graph of atoms (vertices) and
bonds (edges).  The `graph.Graph` substrate is modelled (spec sections 2, 4.1
and 9) as the insertion-ordered atom list plus the insertion-ordered edge
list keyed by the unordered endpoint pair. -/
structure Structure where
  atoms : List Atom
  bonds : List Bond
deriving DecidableEq

namespace Structure

/-- The unordered endpoint pair of a bond (the key under which the graph
substrate stores an edge). -/
def pairKey (b : Bond) : Nat × Nat := (min b.a1 b.a2, max b.a1 b.a2)

/-- `Structure.getBonds(atom)` (structure.py line 95, delegating to
`graph.getEdges`): the bonds involving atom `i`, as a mapping from the other
endpoint's handle to the bond, in insertion order. -/
def getBondsV (s : Structure) (i : Nat) : List (Nat × Bond) :=
  s.bonds.filterMap (fun b =>
    if b.a1 = i then some (b.a2, b)
    else if b.a2 = i then some (b.a1, b) else none)

/-- As `getBondsV`, but returning the bond's handle (index into
`s.bonds`) instead of its value; used where the source mutates the bond
through the reference it got from `getBonds`. -/
def getBondsI (s : Structure) (i : Nat) : List (Nat × Nat) :=
  (s.bonds.enum).filterMap (fun jb =>
    if jb.2.a1 = i then some (jb.2.a2, jb.1)
    else if jb.2.a2 = i then some (jb.2.a1, jb.1) else none)

/-- `Structure.addBond` (structure.py line 87, delegating to
`graph.addEdge` which stores the edge under the unordered endpoint pair;
re-adding an edge for an existing pair overwrites the stored edge). -/
def addBondS (s : Structure) (b : Bond) : Structure :=
  if s.bonds.any (fun b' => pairKey b' = pairKey b) then
    { s with bonds := s.bonds.map (fun b' => if pairKey b' = pairKey b then b else b') }
  else
    { s with bonds := s.bonds ++ [b] }

/-- `Structure.initialize(atoms, bonds)` (structure.py line 152): rebuild the
graph from the given atom and bond lists by adding each in turn. -/
def initFrom (atoms : List Atom) (bonds : List Bond) : Structure :=
  bonds.foldl addBondS { atoms := atoms, bonds := [] }

/-- `Structure.copy` (structure.py line 167): deep-clone every atom and bond;
cloned bonds reference the clones of their endpoints, found by `list.index`
on the atom list.  Under the handle representation a deep copy carries the
same handles, so the copy is value-identical. -/
def copy (s : Structure) : Structure :=
  { atoms := s.atoms.map (fun a => a), bonds := s.bonds.map (fun b => b) }

/-- `Structure.getLabeledAtom(label)` (structure.py line 744): the first atom
in `atoms()` iteration order whose label matches, if any. -/
def getLabeledAtom (s : Structure) (lbl : List Char) : Option Atom :=
  s.atoms.find? (fun a => a.label = lbl)

end Structure

/-! ## Resonance enumeration (structure.py lines 661-726)

The `chem.Atom`/`chem.Bond` operations used here are not in the provided
sources and are modelled from the spec:

* `atom.electronState.order` reads the radical order of a resolved electron
  state; on an ambiguity set the Python attribute access fails (spec section
  7, "Unresolved-model error"), modelled as `.error ()`.
* `increaseFreeElectron`/`decreaseFreeElectron` increment/decrement the
  free-electron count (spec section 4.4), moving to the canonical electron
  state of the adjacent order; leaving the registry's order range 0..4 is an
  error.
* `increaseOrder`/`decreaseOrder` move a resolved bond one order unit up or
  down; the result "must stay within the legal order domain {1,1.5,2,3};
  attempting to exceed or go below raises a domain error" (spec section 3).
* `canIncreaseOrder`/`canDecreaseOrder` test that the resolved bond is "not
  already at the domain maximum, 3" / "not already at the domain minimum, 1"
  (spec section 4.4).
-/

/-- `atom.electronState.order` on a resolved atom. -/
def Atom.eOrder (a : Atom) : Except Unit Nat :=
  match a.electronState with
  | [e] => .ok e.orderOf
  | _ => .error ()

/-- `atom.increaseFreeElectron()`: free-electron count up by one. -/
def Atom.incFE (a : Atom) : Except Unit Atom :=
  match a.electronState with
  | [e] =>
      if e.orderOf ≥ 4 then .error ()
      else .ok { a with electronState := [canonicalEState (e.orderOf + 1)] }
  | _ => .error ()

/-- `atom.decreaseFreeElectron()`: free-electron count down by one. -/
def Atom.decFE (a : Atom) : Except Unit Atom :=
  match a.electronState with
  | [e] =>
      if e.orderOf = 0 then .error ()
      else .ok { a with electronState := [canonicalEState (e.orderOf - 1)] }
  | _ => .error ()

/-- `bond.canIncreaseOrder()`: the resolved bond's order is not at the
domain maximum 3 (doubled: 6). -/
def Bond.canInc (b : Bond) : Except Unit Bool :=
  match b.btype with
  | [t] => .ok (decide (t.order2 ≠ 6))
  | _ => .error ()

/-- `bond.canDecreaseOrder()`: the resolved bond's order is not at the
domain minimum 1 (doubled: 2). -/
def Bond.canDec (b : Bond) : Except Unit Bool :=
  match b.btype with
  | [t] => .ok (decide (t.order2 ≠ 2))
  | _ => .error ()

/-- `bond.increaseOrder()`: one order unit up; the result must stay in the
domain {1, 1.5, 2, 3}. -/
def Bond.incOrder (b : Bond) : Except Unit Bond :=
  match b.btype with
  | [BondType.S] => .ok { b with btype := [BondType.D] }
  | [BondType.D] => .ok { b with btype := [BondType.T] }
  | _ => .error ()

/-- `bond.decreaseOrder()`: one order unit down; the result must stay in the
domain {1, 1.5, 2, 3}. -/
def Bond.decOrder (b : Bond) : Except Unit Bond :=
  match b.btype with
  | [BondType.T] => .ok { b with btype := [BondType.D] }
  | [BondType.D] => .ok { b with btype := [BondType.S] }
  | _ => .error ()

namespace Structure

/-- Read atom `i`'s electron order (`atom.electronState.order` through the
handle `i`). -/
def eOrderAt (s : Structure) (i : Nat) : Except Unit Nat :=
  match s.atoms.get? i with
  | some a => a.eOrder
  | none => .error ()

/-- Mutate atom `i` in place with the given operation. -/
def withAtom (s : Structure) (i : Nat) (f : Atom → Except Unit Atom) :
    Except Unit Structure :=
  match s.atoms.get? i with
  | some a => do
      let a' ← f a
      pure { s with atoms := s.atoms.set i a' }
  | none => .error ()

/-- Mutate bond `j` in place with the given operation. -/
def withBond (s : Structure) (j : Nat) (f : Bond → Except Unit Bond) :
    Except Unit Structure :=
  match s.bonds.get? j with
  | some b => do
      let b' ← f b
      pure { s with bonds := s.bonds.set j b' }
  | none => .error ()

/-- `Structure.getRadicalCount` (structure.py line 661): the sum over all
atoms of the electron-state order. -/
def getRadicalCount (s : Structure) : Except Unit Nat := do
  let os ← s.atoms.mapM Atom.eOrder
  pure (os.foldl (· + ·) 0)

/-- A delocalization path: the handles of `(atom1, atom2, atom3)` and of
`(bond12, bond23)`. -/
structure Path where
  i1 : Nat
  i2 : Nat
  i3 : Nat
  j12 : Nat
  j23 : Nat
deriving DecidableEq

/-- The body of the inner loop of `findAllDelocalizationPaths` (structure.py
lines 721-725): `y = (atom3, bond23)`; keep the path when `atom1 is not
atom3 and bond23.canDecreaseOrder()` (Python's short-circuit `and` is
preserved: on `atom1 is atom3` the bond is not consulted). -/
def innerStep (s : Structure) (i1 i2 j12 : Nat) (acc2 : List Path)
    (y : Nat × Nat) : Except Unit (List Path) := do
  let (i3, j23) := y
  if i1 = i3 then pure acc2
  else do
    let b23 ← match s.bonds.get? j23 with
      | some b => pure b
      | none => Except.error ()
    let cd ← b23.canDec
    if cd then pure (acc2 ++ [⟨i1, i2, i3, j12, j23⟩]) else pure acc2

/-- The body of the outer loop of `findAllDelocalizationPaths` (structure.py
lines 718-725): `x = (atom2, bond12)`; when `bond12.canIncreaseOrder()`,
run the inner loop over `atom2`'s bonds. -/
def outerStep (s : Structure) (i1 : Nat) (acc : List Path) (x : Nat × Nat) :
    Except Unit (List Path) := do
  let (i2, j12) := x
  let b12 ← match s.bonds.get? j12 with
    | some b => pure b
    | none => Except.error ()
  let ci ← b12.canInc
  if ci then (s.getBondsI i2).foldlM (innerStep s i1 i2 j12) acc
  else pure acc

/-- `Structure.findAllDelocalizationPaths(atom1)` (structure.py line 706).
Returns `[]` if `atom1.electronState.order <= 0`; otherwise, for every
neighbor `atom2` whose bond to `atom1` can gain an order, and every neighbor
`atom3 ≠ atom1` of `atom2` whose bond to `atom2` can lose an order, emits
the path. -/
def findAllDelocalizationPaths (s : Structure) (i1 : Nat) :
    Except Unit (List Path) := do
  let o ← s.eOrderAt i1
  if o ≤ 0 then pure []
  else (s.getBondsI i1).foldlM (outerStep s i1) []

/-- One iteration of the inner loop of `getAdjacentResonanceIsomers`
(structure.py lines 682-702): shift the electronic configuration along the
path, deep-copy the shifted structure, then restore, returning the copy and
the restored state. -/
def processPath (st : Structure) (p : Path) :
    Except Unit (Structure × Structure) := do
  let st1 ← st.withAtom p.i1 Atom.decFE
  let st2 ← st1.withAtom p.i3 Atom.incFE
  let st3 ← st2.withBond p.j12 Bond.incOrder
  let st4 ← st3.withBond p.j23 Bond.decOrder
  let isomer := st4.copy
  let st5 ← st4.withAtom p.i1 Atom.incFE
  let st6 ← st5.withAtom p.i3 Atom.decFE
  let st7 ← st6.withBond p.j12 Bond.decOrder
  let st8 ← st7.withBond p.j23 Bond.incOrder
  pure (isomer, st8)

/-- `Structure.getAdjacentResonanceIsomers` (structure.py line 670): if the
structure has radicals, iterate every atom, find its delocalization paths in
the current state, and for each path run the shift/copy/restore sequence.
The result is the isomer list together with the structure's final state. -/
def getAdjacentResonanceIsomers (s : Structure) :
    Except Unit (List Structure × Structure) := do
  let rc ← s.getRadicalCount
  if rc > 0 then
    (List.range s.atoms.length).foldlM (fun acc i => do
      let (isomers, st) := acc
      let paths ← st.findAllDelocalizationPaths i
      paths.foldlM (fun acc2 p => do
        let (isomers2, st2) := acc2
        let (isomer, st') ← st2.processPath p
        pure (isomers2 ++ [isomer], st')) (isomers, st)) ([], s)
  else
    pure ([], s)

end Structure

/-! ## Atom-type inference (structure.py lines 593-659)

`chem.Atom.isCarbon`/`isOxygen` and `chem.Bond.isSingle`/`isDouble`/
`isTriple`/`isBenzene` are modelled from the spec (sections 3 and 4.3): a
resolved atom is carbon/oxygen according to its type's element; a resolved
bond belongs to exactly the class of its bond type.  Per spec section 3,
"inference/validation only operates meaningfully on resolved atoms", so an
ambiguity set is in no class. -/

/-- `atom.isCarbon()` on the embedding. -/
def Atom.isCarbon (a : Atom) : Bool :=
  match a.atomType with
  | [t] => t.elementSymbol = ['C']
  | _ => false

/-- `atom.isOxygen()` on the embedding. -/
def Atom.isOxygen (a : Atom) : Bool :=
  match a.atomType with
  | [t] => t.elementSymbol = ['O']
  | _ => false

/-- `bond.isSingle()` on the embedding. -/
def Bond.isSingle (b : Bond) : Bool := b.btype = [BondType.S]

/-- `bond.isDouble()` on the embedding. -/
def Bond.isDouble (b : Bond) : Bool := b.btype = [BondType.D]

/-- `bond.isTriple()` on the embedding. -/
def Bond.isTriple (b : Bond) : Bool := b.btype = [BondType.T]

/-- `bond.isBenzene()` on the embedding. -/
def Bond.isBenzene (b : Bond) : Bool := b.btype = [BondType.B]

namespace Structure

/-- The bond-class counting of `updateAtomTypes` (structure.py lines
610-617): count the incident single/double/triple/benzene bonds of atom `i`
and detect a carbonyl (this carbon doubly bonded to an oxygen). -/
def bondCounts (s : Structure) (i : Nat) (a : Atom) :
    Nat × Nat × Nat × Nat × Bool :=
  (s.getBondsV i).foldl
    (fun acc x =>
      let (single, double, triple, benzene, carbonyl) := acc
      let (k, b12) := x
      let single := if b12.isSingle then single + 1 else single
      let double := if (!b12.isSingle) && b12.isDouble then double + 1 else double
      let triple := if (!b12.isSingle) && (!b12.isDouble) && b12.isTriple then triple + 1 else triple
      let benzene := if (!b12.isSingle) && (!b12.isDouble) && (!b12.isTriple) && b12.isBenzene then benzene + 1 else benzene
      let carbonyl := carbonyl ||
        (a.isCarbon && (match s.atoms.get? k with
          | some a2 => a2.isOxygen
          | none => false) && b12.isDouble)
      (single, double, triple, benzene, carbonyl))
    (0, 0, 0, 0, false)

/-- The suggested-atom-type cascade of `updateAtomTypes` (structure.py lines
619-632), starting from the resolved type `t` of atom `i`.  Evaluated
top-to-bottom, first match wins; if nothing matches the suggestion stays the
bare element symbol. -/
def suggestedAtomType (s : Structure) (i : Nat) (t : AtomType) : List Char :=
  match s.atoms.get? i with
  | none => t.elementSymbol
  | some a =>
    let (single, double, triple, benzene, carbonyl) := s.bondCounts i a
    let sym := t.elementSymbol
    if sym = ['C'] then
      if triple = 1 then ['C', 't']
      else if single = 3 ∨ single = 4 then ['C', 's']
      else if double = 2 then ['C', 'd', 'd']
      else if carbonyl then ['C', 'O']
      else if double = 1 ∧ (single = 1 ∨ single = 2) then ['C', 'd', 's']
      else if double = 1 then ['C', 'd']
      else if benzene = 1 ∨ benzene = 2 then ['C', 'b']
      else if benzene = 3 then ['C', 'b', 'f']
      else sym
    else if sym = ['O'] then
      if single = 1 ∨ single = 2 then ['O', 's']
      else if double = 1 then ['O', 'd']
      else sym
    else sym

/-- Set atom `i`'s type to the registry type of the given label (the
`atom1.atomType = chem.atomTypes[atomType]` assignment); the labels that
reach this point always resolve, so an unresolvable label leaves the
structure unchanged. -/
def setAtomTypeAt (s : Structure) (i : Nat) (lbl : List Char) : Structure :=
  match atomTypeOfLabel lbl with
  | some t =>
      match s.atoms.get? i with
      | some a => { s with atoms := s.atoms.set i { a with atomType := [t] } }
      | none => s
  | none => s

end Structure

/-- The reconciliation cascade of `updateAtomTypes` (structure.py lines
634-659), evaluated top-to-bottom on the current resolved type `t` and the
suggested label `sug`: `true` iff one of the two "make change" branches is
reached (the final `else` only logs a warning and makes no change). -/
def reconciles (t : AtomType) (sug : List Char) : Bool :=
  -- Do nothing if suggested and specified atom types are identical
  if t.labelOf = sug then false
  -- Do nothing if suggested atom type is element (or is 'Cd')
  else if sug = t.elementSymbol ∨ sug = ['C', 'd'] then false
  -- Do nothing if specified is 'Cds' or 'Cdd' and suggested is 'Cd'
  else if (t.labelOf = ['C', 'd', 's'] ∨ t.labelOf = ['C', 'd', 'd']) ∧ sug = ['C', 'd'] then false
  -- Do nothing if specified is 'Cbf' and suggested is 'Cb'
  else if t.labelOf = ['C', 'b', 'f'] ∧ sug = ['C', 'b'] then false
  -- Do nothing if specified is 'Cdd' and suggested is 'CO'
  else if t.labelOf = ['C', 'd', 'd'] ∧ sug = ['C', 'O'] then false
  -- Make change if specified atom type is element
  else if t.labelOf = t.elementSymbol then true
  -- Make change if specified is 'Cd' and suggested is 'Cds'/'Cdd'/'CO'
  else if t.labelOf = ['C', 'd'] ∧ (sug = ['C', 'd', 's'] ∨ sug = ['C', 'd', 'd'] ∨ sug = ['C', 'O']) then true
  -- Else print warning (non-fatal, no change)
  else false

namespace Structure

/-- The body of `updateAtomTypes`' per-atom loop (structure.py lines
602-659) for atom `i`: skip ambiguity sets and generic types, compute the
suggested type, and adopt it when the reconciliation cascade says so. -/
def updateOne (s : Structure) (i : Nat) : Structure :=
  match s.atoms.get? i with
  | none => s
  | some a =>
    match a.atomType with
    | [t] =>
      if t.labelOf = ['R'] ∨ t.labelOf = ['R', '!', 'H'] then s
      else if reconciles t (s.suggestedAtomType i t) then
        s.setAtomTypeAt i (s.suggestedAtomType i t)
      else s
    | _ => s

/-- `Structure.updateAtomTypes` (structure.py line 593): run the per-atom
reconciliation over every atom in iteration order. -/
def updateAtomTypes (s : Structure) : Structure :=
  (List.range s.atoms.length).foldl updateOne s

end Structure

/-! ## Python string primitives used by the adjacency-list codec

These model the CPython behaviour of the string methods the codec calls.
The newline convention is `'\n'` and the whitespace characters are the ones
occurring in adjacency lists (space and tab). -/

/-- The opening-brace character. -/
def obr : Char := '\x7b'

/-- The closing-brace character. -/
def cbr : Char := '\x7d'

/-- A whitespace character for `str.split()`. -/
def isWS (c : Char) : Bool := c = ' ' || c = '\t'

/-- `str.splitlines()`: split at `'\n'`, no entry for a trailing newline. -/
def pySplitlines : List Char → List (List Char)
  | [] => []
  | c :: rest =>
    if c = '\n' then [] :: pySplitlines rest
    else
      match pySplitlines rest with
      | [] => [[c]]
      | l :: ls => (c :: l) :: ls

/-- Helper for `pySplit`: `cur` is the reversed current token. -/
def pySplitAux (cur : List Char) : List Char → List (List Char)
  | [] => if cur = [] then [] else [cur.reverse]
  | c :: rest =>
    if isWS c then
      if cur = [] then pySplitAux [] rest else cur.reverse :: pySplitAux [] rest
    else pySplitAux (c :: cur) rest

/-- `str.split()` (no argument): split at runs of whitespace, no empty
tokens. -/
def pySplit (s : List Char) : List (List Char) := pySplitAux [] s

/-- `str.strip(ch)`: remove leading and trailing occurrences of `ch`. -/
def pyStripChar (ch : Char) (s : List Char) : List Char :=
  ((s.dropWhile (· = ch)).reverse.dropWhile (· = ch)).reverse

/-- The slice `s[1:-1]`. -/
def pyInner (s : List Char) : List Char := (s.drop 1).dropLast

/-- `str.split(',')`: split at every comma, keeping empty pieces. -/
def splitOnComma : List Char → List (List Char)
  | [] => [[]]
  | c :: rest =>
    if c = ',' then [] :: splitOnComma rest
    else
      match splitOnComma rest with
      | [] => [[c]]
      | l :: ls => (c :: l) :: ls

/-- `str.partition(',')`: the part before the first comma, whether a comma
was found, and the part after it (empty when not found). -/
def partComma : List Char → List Char × Bool × List Char
  | [] => ([], false, [])
  | c :: rest =>
    if c = ',' then ([], true, rest)
    else
      let (p, f, q) := partComma rest
      (c :: p, f, q)

/-- The numeric value of a nonempty all-digit token. -/
def parseDigits (s : List Char) : Option Nat :=
  if s = [] then none
  else if s.all (fun c => decide ('0' ≤ c ∧ c ≤ '9')) then
    some (s.foldl (fun n c => 10 * n + (c.toNat - 48)) 0)
  else none

/-- `int(s)` on a whitespace-free token: an optional sign followed by
digits; anything else raises `ValueError` (modelled as `none`). -/
def parseIntPy (s : List Char) : Option Int :=
  match s with
  | '-' :: rest => (parseDigits rest).map (fun n => -(n : Int))
  | '+' :: rest => (parseDigits rest).map (fun n => (n : Int))
  | _ => (parseDigits s).map (fun n => (n : Int))

/-- The decimal digit character of `d < 10`. -/
def digChar (d : Nat) : Char := Char.ofNat (48 + d)

/-- Base-10 digits, least significant first, with explicit fuel so that
`str(n)` evaluates by kernel reduction; `fuel = n` always suffices. -/
def natDigits : Nat → Nat → List Nat
  | 0, _ => []
  | fuel + 1, n => if n = 0 then [] else n % 10 :: natDigits fuel (n / 10)

/-- `str(n)` for a natural number (used for the 1-based ids the serializer
emits, which are always positive). -/
def natToChars (n : Nat) : List Char := ((natDigits n n).map digChar).reverse

/-- Python dictionary lookup on an association list (keys unique). -/
def dget {α : Type} (d : List (Int × α)) (k : Int) : Option α :=
  (d.find? (fun kv => kv.1 = k)).map (·.2)

/-- Python dictionary assignment: overwrite in place, or append a new
binding. -/
def dset {α : Type} (d : List (Int × α)) (k : Int) (v : α) : List (Int × α) :=
  if d.any (fun kv => kv.1 = k) then
    d.map (fun kv => if kv.1 = k then (k, v) else kv)
  else d ++ [(k, v)]

/-! ## The adjacency-list parser (structure.py lines 217-310) -/

/-- The exceptions `fromAdjacencyList` can raise: the intended
`InvalidAdjacencyListException(label)` — and the `NameError` the
`except`-handler itself raises when the first statement of the `try:` block
(`label = lines[0]`) failed, leaving `label` unassigned. -/
inductive PyErr where
  | invalid (label : List Char)
  | unboundLocal
deriving DecidableEq

/-- Lift a registry/parse `Option` into the `try:` block, where every
exception is equivalent. -/
def optE {α : Type} : Option α → Except Unit α
  | some a => .ok a
  | none => .error ()

/-- The parser's accumulated state: the `atoms`, `bonds`, `atomdict` and
`bonddict` local variables of `fromAdjacencyList`.  `atomdict` maps an id to
the handle of its atom; `bonddict` maps an id to its per-neighbour
bond-type-label dictionary (the raw label lists, as the source stores and
compares them). -/
structure ParseSt where
  atoms : List Atom
  bonds : List Bond
  atomdict : List (Int × Nat)
  bonddict : List (Int × List (Int × List (List Char)))
deriving DecidableEq

/-- One bond descriptor (structure.py lines 275-293): strip stray commas,
split `datum[1:-1]` at its first comma into the neighbour id and the
bond-type token, materialize a bond if the neighbour id is already in
`atomdict`, and record the raw type-label list in the per-atom dictionary. -/
def parseBondDatum (ad : List (Int × Nat)) (selfIdx : Nat)
    (acc : List Bond × List (Int × List (List Char))) (datum : List Char) :
    Except Unit (List Bond × List (Int × List (List Char))) := do
  let (bs, inn) := acc
  let dt := pyStripChar ',' datum
  let core := pyInner dt
  let (pre, _found, post) := partComma core
  let aid2 ← optE (parseIntPy pre)
  let btypeLs ← match post with
    | [] => Except.error ()
    | c :: _ => pure (if c = obr then splitOnComma (pyInner post) else [post])
  let bs' ← match dget ad aid2 with
    | some idx2 => do
        let bts ← optE (btypeLs.mapM bondTypeOfLabel)
        pure (bs ++ [Bond.mk selfIdx idx2 bts])
    | none => pure bs
  pure (bs', dset inn aid2 btypeLs)

/-- One (non-blank) atom line of the adjacency list (structure.py lines
230-293): id with optional trailing period, optional `*`-prefixed
center-label, type token, electron-state token (upper-cased), then the bond
descriptors. -/
def processLine (st : ParseSt) (line : List Char) : Except Unit ParseSt := do
  let data := pySplit line
  match data with
  | [] => pure st
  | d0 :: drest => do
    let aid ← optE (parseIntPy (pyStripChar '.' d0))
    let (center, rest2) ← match drest with
      | [] => Except.error ()
      | d1 :: dr =>
        match d1 with
        | [] => Except.error ()
        | c :: _ =>
            pure (if c = '*' then (d1, dr) else (([] : List Char), d1 :: dr))
    let (elTok, rest3) ← match rest2 with
      | [] => Except.error ()
      | t :: r => pure (t, r)
    let elementsLs ← match elTok with
      | [] => Except.error ()
      | c :: _ => pure (if c = obr then splitOnComma (pyInner elTok) else [elTok])
    let (esTok, bondToks) ← match rest3 with
      | [] => Except.error ()
      | t :: r => pure (t, r)
    let esU := esTok.map Char.toUpper
    let esLs ← match esU with
      | [] => Except.error ()
      | c :: _ => pure (if c = obr then splitOnComma (pyInner esU) else [esU])
    let types ← optE (elementsLs.mapM atomTypeOfLabel)
    let states ← optE (esLs.mapM eStateOfLabel)
    let atom : Atom := ⟨types, states, center⟩
    let newIdx := st.atoms.length
    let ad := dset st.atomdict aid newIdx
    let (bondsNew, inner) ← bondToks.foldlM (parseBondDatum ad newIdx)
      (st.bonds, ([] : List (Int × List (List Char))))
    pure ⟨st.atoms ++ [atom], bondsNew, ad, dset st.bonddict aid inner⟩

/-- The mirror-consistency check (structure.py lines 298-306): every
recorded `(a, b)` entry must have a `(b, a)` entry with the identical
bond-type-label list. -/
def bddOK (bdd : List (Int × List (Int × List (List Char)))) : Bool :=
  bdd.all (fun entry =>
    entry.2.all (fun e2 =>
      match dget bdd e2.1 with
      | none => false
      | some inner2 =>
        match dget inner2 entry.1 with
        | none => false
        | some t2 => decide (e2.2 = t2)))

/-- `Structure.fromAdjacencyList` (structure.py lines 217-310).  The first
line is the label; each further line is parsed inside a `try:` whose handler
raises `InvalidAdjacencyListException(label)` — so when the input has no
first line at all, the handler's reference to `label` itself fails
(`.unboundLocal`).  After the loop the mirror check runs, and only then is
`initialize` called on the fresh collections. -/
def fromAdjacencyList (adjlist : List Char) : Except PyErr Structure :=
  match pySplitlines adjlist with
  | [] => .error .unboundLocal
  | label :: rest =>
    match rest.foldlM processLine (ParseSt.mk [] [] [] []) with
    | .error _ => .error (.invalid label)
    | .ok st =>
      if bddOK st.bonddict then .ok (Structure.initFrom st.atoms st.bonds)
      else .error (.invalid label)

/-- `fromAdjacencyList` as the method call `self.fromAdjacencyList(adjlist)`:
the source touches `self` only in its very last statement
(`self.initialize(atoms, bonds)`), so a raised exception leaves the
structure exactly as it was; the pair returns the structure's state after
the call together with the exception, if any. -/
def fromAdjacencyListOn (self : Structure) (adjlist : List Char) :
    Structure × Option PyErr :=
  match fromAdjacencyList adjlist with
  | .ok s' => (s', none)
  | .error e => (self, some e)

/-! ## The adjacency-list serializer (structure.py lines 382-440) -/

/-- `'a' + ',b' + ',c'`-style joining of the labels of an ambiguity set
(structure.py lines 406-409 et al.). -/
def commaJoin (ls : List (List Char)) : List Char :=
  match ls with
  | [] => []
  | l :: rest => l ++ rest.flatMap (fun x => ',' :: x)

namespace Structure

/-- The atom-type token: scalar label plus space, or `{a,b} `. -/
def typeTok (a : Atom) : List Char :=
  match a.atomType with
  | [t] => t.labelOf ++ [' ']
  | ts => obr :: (commaJoin (ts.map AtomType.labelOf) ++ [cbr, ' '])

/-- The electron-state token: scalar label plus space, or `{a,b}` — with no
trailing space (structure.py line 418 appends only `'}'`). -/
def stateTok (a : Atom) : List Char :=
  match a.electronState with
  | [e] => e.labelOf ++ [' ']
  | es => obr :: (commaJoin (es.map EState.labelOf) ++ [cbr])

/-- The bond-type part of a bond descriptor. -/
def btTok (b : Bond) : List Char :=
  match b.btype with
  | [t] => t.labelOf
  | ts => obr :: (commaJoin (ts.map BondType.labelOf) ++ [cbr])

/-- All bond descriptors of atom `i`, `{otherId,type} ` each, in `getBonds`
iteration order. -/
def bondsTok (s : Structure) (i : Nat) : List Char :=
  (s.getBondsV i).flatMap (fun kb =>
    obr :: (natToChars (kb.1 + 1) ++ [','] ++ btTok kb.2 ++ [cbr, ' ']))

/-- One atom line of the serialization (without its final newline). -/
def atomLine (s : Structure) (i : Nat) (a : Atom) : List Char :=
  natToChars (i + 1) ++ [' ']
    ++ (if a.label = [] then [] else a.label ++ [' '])
    ++ typeTok a ++ stateTok a ++ bondsTok s i

/-- `Structure.toAdjacencyList(label)` (structure.py line 382): the label
line (omitted when the label is empty), then one line per atom with 1-based
sequential ids. -/
def toAdjacencyList (lbl : List Char) (s : Structure) : List Char :=
  (if lbl = [] then [] else lbl ++ ['\n'])
    ++ (s.atoms.enum.map (fun ia => atomLine s ia.1 ia.2 ++ ['\n'])).flatten

end Structure

/-! ## General helper lemmas -/

/-- A `find?` hit is a member whose key matches. -/
theorem dget_mem {α : Type} {d : List (Int × α)} {k : Int} {v : α}
    (h : dget d k = some v) : (k, v) ∈ d := by
  unfold dget at h
  cases hf : d.find? (fun kv => kv.1 = k) with
  | none => rw [hf] at h; exact absurd h (by simp)
  | some kv =>
      rw [hf] at h
      have hm := List.mem_of_find?_eq_some hf
      have hp := List.find?_some hf
      simp only [decide_eq_true_eq] at hp
      simp only [Option.map_some', Option.some.injEq] at h
      have : kv = (k, v) := by
        cases kv
        simp_all
      rwa [this] at hm

/-- A member on which the predicate fails refutes `List.all`. -/
theorem all_eq_false_of_mem {α : Type} {l : List α} {p : α → Bool} {x : α}
    (hx : x ∈ l) (hpx : p x = false) : l.all p = false := by
  cases hall : l.all p with
  | false => rfl
  | true => exact absurd (List.all_eq_true.mp hall x hx) (by simp [hpx])

/-- The first hit of `find?`: it satisfies the predicate, occurs in the
list, and every earlier entry fails the predicate. -/
theorem find?_first {α : Type} (p : α → Bool) :
    ∀ (l : List α) (a : α), l.find? p = some a →
      p a = true ∧ ∃ (i : Nat) (h : i < l.length), l.get ⟨i, h⟩ = a ∧
        ∀ (j : Nat) (hj : j < i), p (l.get ⟨j, Nat.lt_trans hj h⟩) = false
  | [], a, h => by simp [List.find?] at h
  | x :: xs, a, h => by
      rw [List.find?] at h
      cases hpx : p x with
      | true =>
          rw [hpx] at h
          injection h with h
          subst h
          exact ⟨hpx, 0, by simp, rfl, fun j hj => absurd hj (by omega)⟩
      | false =>
          rw [hpx] at h
          obtain ⟨hpa, i, hi, hget, hfirst⟩ := find?_first p xs a h
          refine ⟨hpa, i + 1, by simpa using Nat.succ_lt_succ hi, hget, ?_⟩
          intro j hj
          match j with
          | 0 => exact hpx
          | j + 1 => exact hfirst j (by omega)

/-! ## Claim theorems -/

/-- C9: a structure whose total radical count (the sum over all atoms of
the electron-state order) is zero makes `getAdjacentResonanceIsomers`
return an empty isomer list (and leave the structure untouched). -/
theorem claim_C9 (s : Structure) (h : s.getRadicalCount = .ok 0) :
    s.getAdjacentResonanceIsomers = .ok ([], s) := by
  unfold Structure.getAdjacentResonanceIsomers
  rw [h]
  rfl

/-- Radical-free ethane-like example for the C9 witness. -/
def exC9 : Structure :=
  ⟨[⟨[.Cs], [.s0], []⟩, ⟨[.Cs], [.s0], []⟩], [⟨0, 1, [.S]⟩]⟩

theorem claim_C9_witness :
    exC9.getRadicalCount = .ok 0 ∧
    exC9.getAdjacentResonanceIsomers = .ok ([], exC9) :=
  ⟨rfl, claim_C9 exC9 rfl⟩

/-- C10: `getLabeledAtom(label)` returns `None` exactly when no atom
carries the label, and otherwise the first atom in iteration order whose
label matches (first match wins on duplicates). -/
theorem claim_C10 (s : Structure) (lbl : List Char) :
    (s.getLabeledAtom lbl = none ↔ ∀ a ∈ s.atoms, a.label ≠ lbl) ∧
    (∀ a, s.getLabeledAtom lbl = some a →
      a.label = lbl ∧ ∃ (i : Nat) (h : i < s.atoms.length),
        s.atoms.get ⟨i, h⟩ = a ∧
        ∀ (j : Nat) (hj : j < i),
          (s.atoms.get ⟨j, Nat.lt_trans hj h⟩).label ≠ lbl) := by
  constructor
  · unfold Structure.getLabeledAtom
    rw [List.find?_eq_none]
    simp
  · intro a h
    unfold Structure.getLabeledAtom at h
    obtain ⟨hpa, i, hi, hget, hfirst⟩ :=
      find?_first (fun a => decide (a.label = lbl)) s.atoms a h
    refine ⟨by simpa using hpa, i, hi, hget, ?_⟩
    intro j hj
    simpa using hfirst j hj

/-- Two same-labelled atoms for the C10 witness. -/
def exC10 : Structure :=
  ⟨[⟨[.C], [.s0], ['*', '1']⟩, ⟨[.O], [.s0], ['*', '1']⟩], []⟩

theorem claim_C10_witness :
    exC10.getLabeledAtom ['*', '1'] = some ⟨[.C], [.s0], ['*', '1']⟩ ∧
    (⟨[.C], [.s0], ['*', '1']⟩ : Atom).label = ['*', '1'] :=
  ⟨rfl, ((claim_C10 exC10 ['*', '1']).2 ⟨[.C], [.s0], ['*', '1']⟩ rfl).1⟩

/-- C6: parsing is atomic — whenever `fromAdjacencyList` fails, the
structure it was invoked on is unchanged (the source constructs atoms and
bonds into fresh local collections and touches `self` only in the final
`initialize` call, after all parsing and mirror validation). -/
theorem claim_C6 (s : Structure) (inp : List Char) (e : PyErr)
    (h : (fromAdjacencyListOn s inp).2 = some e) :
    (fromAdjacencyListOn s inp).1 = s := by
  unfold fromAdjacencyListOn at h ⊢
  cases hfa : fromAdjacencyList inp with
  | ok s' => rw [hfa] at h; exact absurd h (by simp)
  | error e' => rfl

/-- A one-atom structure and a malformed input for the C6 witness. -/
def exC6 : Structure := ⟨[⟨[.C], [.s0], []⟩], []⟩

/-- A malformed adjacency list (the atom line has no type/state tokens). -/
def exC6bad : List Char := ['L', '\n', 'x', '\n']

theorem claim_C6_witness :
    (fromAdjacencyListOn exC6 exC6bad).2 = some (.invalid ['L']) ∧
    (fromAdjacencyListOn exC6 exC6bad).1 = exC6 :=
  ⟨rfl, claim_C6 exC6 exC6bad (.invalid ['L']) rfl⟩

/-- C7 (the code-bug evaluation): on the empty input, `lines[0]` raises
inside the `try:` block before `label` is assigned, so the handler's
`raise InvalidAdjacencyListException(label)` itself fails with an unbound
local `label` — an error that is not the label-carrying
`InvalidAdjacencyListException` escapes the parser. -/
theorem claim_C7 :
    fromAdjacencyList [] = .error .unboundLocal ∧
    (∀ lbl : List Char, (PyErr.unboundLocal : PyErr) ≠ .invalid lbl) := by
  exact ⟨rfl, fun lbl h => PyErr.noConfusion h⟩

/-- Reduction of `fromAdjacencyList` once the line split is known. -/
theorem fromAdjacencyList_cons (inp label : List Char)
    (rest : List (List Char)) (hsplit : pySplitlines inp = label :: rest) :
    fromAdjacencyList inp =
      match rest.foldlM processLine (ParseSt.mk [] [] [] []) with
      | .error _ => .error (.invalid label)
      | .ok st =>
          if bddOK st.bonddict then .ok (Structure.initFrom st.atoms st.bonds)
          else .error (.invalid label) := by
  unfold fromAdjacencyList
  rw [hsplit]

/-- C5: any recorded bond entry `(a, b)` whose mirror `(b, a)` is missing,
or carries a different bond-type set, makes `fromAdjacencyList` fail with
the label-carrying invalid-adjacency-list error. -/
theorem claim_C5 (inp label : List Char) (rest : List (List Char))
    (st : ParseSt) (a b : Int) (ia : List (Int × List (List Char)))
    (t : List (List Char))
    (hsplit : pySplitlines inp = label :: rest)
    (hphase : rest.foldlM processLine (ParseSt.mk [] [] [] []) = .ok st)
    (hrec : dget st.bonddict a = some ia) (hab : dget ia b = some t)
    (hbad : dget st.bonddict b = none ∨
      (∃ ib, dget st.bonddict b = some ib ∧ dget ib a = none) ∨
      (∃ ib t2, dget st.bonddict b = some ib ∧ dget ib a = some t2 ∧
        (t : Multiset (List Char)) ≠ (t2 : Multiset (List Char)))) :
    fromAdjacencyList inp = .error (.invalid label) := by
  have hfail : bddOK st.bonddict = false := by
    apply all_eq_false_of_mem (dget_mem hrec)
    apply all_eq_false_of_mem (dget_mem hab)
    rcases hbad with hnone | ⟨ib, hib, hnone⟩ | ⟨ib, t2, hib, ht2, hne⟩
    · simp only [hnone]
    · simp only [hib, hnone]
    · simp only [hib, ht2]
      have : t ≠ t2 := fun he => hne (by rw [he])
      simpa using this
  rw [fromAdjacencyList_cons inp label rest hsplit, hphase]
  simp [hfail]

/-- The input for the C5 witness: atom 1 records a bond to atom 2, but
atom 2's line records no bonds at all. -/
def exC5 : List Char :=
  ['L', '\n', '1', ' ', 'C', ' ', '0', ' ', '\x7b', '2', ',', 'S', '\x7d',
   '\n', '2', ' ', 'C', ' ', '0', '\n']

/-- The parser state reached by the two atom lines of `exC5`. -/
def exC5st : ParseSt :=
  ⟨[⟨[.C], [.s0], []⟩, ⟨[.C], [.s0], []⟩], [],
   [(1, 0), (2, 1)], [(1, [(2, [['S']])]), (2, [])]⟩

theorem claim_C5_witness :
    fromAdjacencyList exC5 = .error (.invalid ['L']) :=
  claim_C5 exC5 ['L']
    [['1', ' ', 'C', ' ', '0', ' ', '\x7b', '2', ',', 'S', '\x7d'],
     ['2', ' ', 'C', ' ', '0']]
    exC5st 1 2 [(2, [['S']])] [['S']]
    rfl rfl rfl rfl
    (Or.inr (Or.inl ⟨[], rfl, rfl⟩))

/-! ### Machinery for the atom-type inference claims -/

/-- The resolved type of an atom, when its candidate set is a singleton. -/
def resolvedType (a : Atom) : Option AtomType :=
  match a.atomType with
  | [t] => some t
  | _ => none

/-- The element view of an atom: the element symbol of its resolved type,
when resolved.  Everything `updateAtomTypes` reads from a *neighbouring*
atom factors through this view. -/
def elemViewA (a : Atom) : Option (List Char) :=
  (resolvedType a).map AtomType.elementSymbol

theorem labelOf_inj : ∀ t u : AtomType, t.labelOf = u.labelOf → t = u := by
  intro t u
  cases t <;> cases u <;> simp [AtomType.labelOf]

theorem labelOf_of_lookup {l : List Char} {t : AtomType}
    (h : atomTypeOfLabel l = some t) : t.labelOf = l := by
  have := List.find?_some h
  simpa using this

theorem isCarbon_eq_elemView (a : Atom) :
    a.isCarbon = decide (elemViewA a = some ['C']) := by
  rcases hat : a.atomType with _ | ⟨t, _ | ⟨u, r⟩⟩ <;>
    simp [Atom.isCarbon, elemViewA, resolvedType, hat]

theorem isOxygen_eq_elemView (a : Atom) :
    a.isOxygen = decide (elemViewA a = some ['O']) := by
  rcases hat : a.atomType with _ | ⟨t, _ | ⟨u, r⟩⟩ <;>
    simp [Atom.isOxygen, elemViewA, resolvedType, hat]

/-- The suggested type depends on the structure only through the bond list
and the element views of the atoms. -/
theorem suggestedAtomType_congr {s s' : Structure} (hb : s.bonds = s'.bonds)
    (hv : ∀ j, (s.atoms.get? j).map elemViewA = (s'.atoms.get? j).map elemViewA)
    (i : Nat) (t : AtomType) :
    s.suggestedAtomType i t = s'.suggestedAtomType i t := by
  have hvi := hv i
  unfold Structure.suggestedAtomType
  cases hg : s.atoms.get? i with
  | none =>
      rw [hg] at hvi
      have : s'.atoms.get? i = none := Option.map_eq_none'.mp hvi.symm
      rw [this]
  | some a =>
      cases hg' : s'.atoms.get? i with
      | none => rw [hg, hg'] at hvi; simp at hvi
      | some a' =>
          rw [hg, hg'] at hvi
          simp only [Option.map_some', Option.some.injEq] at hvi
          have hcounts : s.bondCounts i a = s'.bondCounts i a' := by
            unfold Structure.bondCounts
            have hgb : s.getBondsV i = s'.getBondsV i := by
              unfold Structure.getBondsV; rw [hb]
            rw [hgb]
            congr 1
            funext acc x
            obtain ⟨sg, db, tp, bz, cb⟩ := acc
            obtain ⟨k, b12⟩ := x
            simp only []
            have hcarb : a.isCarbon = a'.isCarbon := by
              rw [isCarbon_eq_elemView, isCarbon_eq_elemView, hvi]
            have hoxy : (match s.atoms.get? k with
                | some a2 => a2.isOxygen
                | none => false) =
                (match s'.atoms.get? k with
                | some a2 => a2.isOxygen
                | none => false) := by
              have hvk := hv k
              cases hk : s.atoms.get? k with
              | none =>
                  rw [hk] at hvk
                  have h2 : s'.atoms.get? k = none := Option.map_eq_none'.mp hvk.symm
                  rw [h2]
              | some a2 =>
                  cases hk' : s'.atoms.get? k with
                  | none => rw [hk, hk'] at hvk; simp at hvk
                  | some a2' =>
                      rw [hk, hk'] at hvk
                      simp only [Option.map_some', Option.some.injEq] at hvk
                      simp only []
                      rw [isOxygen_eq_elemView, isOxygen_eq_elemView, hvk]
            rw [hcarb, hoxy]
          simp only []
          rw [hcounts]

/-- The suggested type reads its starting type only through the element
symbol. -/
theorem suggestedAtomType_elem_congr {s : Structure} {i : Nat}
    {t u : AtomType} (h : t.elementSymbol = u.elementSymbol) :
    s.suggestedAtomType i t = s.suggestedAtomType i u := by
  unfold Structure.suggestedAtomType
  rw [h]

/-- The possible outputs of the suggestion cascade. -/
theorem suggested_mem (s : Structure) (i : Nat) (t : AtomType) :
    s.suggestedAtomType i t = t.elementSymbol ∨
    (s.suggestedAtomType i t ∈
      ([['C', 't'], ['C', 's'], ['C', 'd', 'd'], ['C', 'O'], ['C', 'd', 's'],
        ['C', 'd'], ['C', 'b'], ['C', 'b', 'f']] : List (List Char)) ∧
      t.elementSymbol = ['C']) ∨
    (s.suggestedAtomType i t ∈ ([['O', 's'], ['O', 'd']] : List (List Char)) ∧
      t.elementSymbol = ['O']) := by
  unfold Structure.suggestedAtomType
  cases hg : s.atoms.get? i with
  | none => left; rfl
  | some a =>
      rcases hbc : s.bondCounts i a with ⟨sg, db, tp, bz, cb⟩
      simp only [hbc]
      by_cases hC : t.elementSymbol = ['C']
      · rw [if_pos hC]
        split_ifs <;> simp [hC]
      · rw [if_neg hC]
        by_cases hO : t.elementSymbol = ['O']
        · rw [if_pos hO]
          split_ifs <;> simp [hO]
        · rw [if_neg hO]; left; rfl

/-- A suggestion that is not the bare element symbol resolves in the
registry to a non-generic type of the same element, labelled by the
suggestion. -/
theorem sug_resolves (s : Structure) (i : Nat) (t : AtomType)
    (hne : s.suggestedAtomType i t ≠ t.elementSymbol) :
    ∃ t', atomTypeOfLabel (s.suggestedAtomType i t) = some t' ∧
      t'.elementSymbol = t.elementSymbol ∧
      t'.labelOf = s.suggestedAtomType i t ∧
      t'.labelOf ≠ ['R'] ∧ t'.labelOf ≠ ['R', '!', 'H'] := by
  rcases suggested_mem s i t with h | ⟨hm, hC⟩ | ⟨hm, hO⟩
  · exact absurd h hne
  · simp only [List.mem_cons, List.not_mem_nil, or_false] at hm
    rcases hm with h | h | h | h | h | h | h | h <;>
      rw [h] <;> rw [hC] <;>
      first
      | exact ⟨.Ct, by decide, by decide, by decide, by decide, by decide⟩
      | exact ⟨.Cs, by decide, by decide, by decide, by decide, by decide⟩
      | exact ⟨.Cdd, by decide, by decide, by decide, by decide, by decide⟩
      | exact ⟨.CO, by decide, by decide, by decide, by decide, by decide⟩
      | exact ⟨.Cds, by decide, by decide, by decide, by decide, by decide⟩
      | exact ⟨.Cd, by decide, by decide, by decide, by decide, by decide⟩
      | exact ⟨.Cb, by decide, by decide, by decide, by decide, by decide⟩
      | exact ⟨.Cbf, by decide, by decide, by decide, by decide, by decide⟩
  · simp only [List.mem_cons, List.not_mem_nil, or_false] at hm
    rcases hm with h | h <;> rw [h] <;> rw [hO] <;>
      first
      | exact ⟨.Os, by decide, by decide, by decide, by decide, by decide⟩
      | exact ⟨.Od, by decide, by decide, by decide, by decide, by decide⟩

/-- The two "make change" branches of the cascade imply the suggestion is
neither the current label, nor the bare element, nor `'Cd'`. -/
theorem reconciles_true_facts {t : AtomType} {sug : List Char}
    (h : reconciles t sug = true) :
    sug ≠ t.elementSymbol ∧ sug ≠ ['C', 'd'] ∧ t.labelOf ≠ sug := by
  unfold reconciles at h
  split_ifs at h with h1 h2 h3 h4 h5 h6 h7
  · exact ⟨fun he => h2 (Or.inl he), fun he => h2 (Or.inr he), h1⟩
  · exact ⟨fun he => h2 (Or.inl he), fun he => h2 (Or.inr he), h1⟩

/-- A suggestion equal to the current label is never adopted. -/
theorem reconciles_self {t : AtomType} {sug : List Char}
    (h : t.labelOf = sug) : reconciles t sug = false := by
  unfold reconciles
  rw [if_pos h]

/-- A bare-element current type adopts any suggestion other than the
element symbol and `'Cd'`. -/
theorem reconciles_bare (t : AtomType) (sug : List Char)
    (hbare : t.labelOf = t.elementSymbol) (h1 : sug ≠ t.elementSymbol)
    (h2 : sug ≠ ['C', 'd']) : reconciles t sug = true := by
  have hbp : ∀ u : AtomType, u.elementSymbol ≠ ['C', 'b', 'f'] ∧
      u.elementSymbol ≠ ['C', 'd', 'd'] := by
    intro u; cases u <;> exact ⟨by decide, by decide⟩
  unfold reconciles
  rw [if_neg (show ¬t.labelOf = sug by rw [hbare]; exact fun h => h1 h.symm)]
  rw [if_neg (show ¬(sug = t.elementSymbol ∨ sug = ['C', 'd']) by tauto)]
  rw [if_neg (fun hc => h2 hc.2)]
  rw [if_neg (show ¬(t.labelOf = ['C', 'b', 'f'] ∧ sug = ['C', 'b']) from
    fun hc => (hbp t).1 (hbare ▸ hc.1))]
  rw [if_neg (show ¬(t.labelOf = ['C', 'd', 'd'] ∧ sug = ['C', 'O']) from
    fun hc => (hbp t).2 (hbare ▸ hc.1))]
  rw [if_pos hbare]

/-- Case analysis on one `updateAtomTypes` step: either nothing changes, or
the resolved, non-generic atom adopts the (resolving, element-preserving)
suggestion. -/
theorem updateOne_cases (s : Structure) (i : Nat) :
    s.updateOne i = s ∨
    ∃ a t t', s.atoms.get? i = some a ∧ a.atomType = [t] ∧
      ¬(t.labelOf = ['R'] ∨ t.labelOf = ['R', '!', 'H']) ∧
      reconciles t (s.suggestedAtomType i t) = true ∧
      atomTypeOfLabel (s.suggestedAtomType i t) = some t' ∧
      t'.labelOf = s.suggestedAtomType i t ∧
      t'.elementSymbol = t.elementSymbol ∧
      s.updateOne i =
        { s with atoms := s.atoms.set i { a with atomType := [t'] } } := by
  unfold Structure.updateOne
  cases hg : s.atoms.get? i with
  | none => left; rfl
  | some a =>
      rcases hat : a.atomType with _ | ⟨t, rest⟩
      · left; simp only [hat]
      · rcases rest with _ | ⟨u, r⟩
        · simp only [hat]
          by_cases hgen : t.labelOf = ['R'] ∨ t.labelOf = ['R', '!', 'H']
          · left; rw [if_pos hgen]
          · rw [if_neg hgen]
            cases hrec : reconciles t (s.suggestedAtomType i t) with
            | false => left; rw [if_neg (by simp [hrec])]
            | true =>
                right
                have h1 := (reconciles_true_facts hrec).1
                obtain ⟨t', hlook, helem, hlbl, _, _⟩ := sug_resolves s i t h1
                refine ⟨a, t, t', rfl, hat, hgen, hrec, hlook, hlbl, helem, ?_⟩
                rw [if_pos rfl]
                unfold Structure.setAtomTypeAt
                simp only [hlook, hg]
        · left; simp only [hat]

theorem updateOne_bonds (s : Structure) (i : Nat) :
    (s.updateOne i).bonds = s.bonds := by
  rcases updateOne_cases s i with heq | ⟨a, t, t', _, _, _, _, _, _, _, heq⟩ <;>
    rw [heq]

theorem updateOne_length (s : Structure) (i : Nat) :
    (s.updateOne i).atoms.length = s.atoms.length := by
  rcases updateOne_cases s i with heq | ⟨a, t, t', _, _, _, _, _, _, _, heq⟩ <;>
    rw [heq]
  simp [List.length_set]

theorem updateOne_get_ne (s : Structure) (i j : Nat) (hne : j ≠ i) :
    (s.updateOne i).atoms.get? j = s.atoms.get? j := by
  rcases updateOne_cases s i with heq | ⟨a, t, t', _, _, _, _, _, _, _, heq⟩ <;>
    rw [heq]
  exact List.get?_set_ne _ _ (fun h => hne h.symm)

/-- One step preserves every atom's element view. -/
theorem updateOne_elemView (s : Structure) (i j : Nat) :
    ((s.updateOne i).atoms.get? j).map elemViewA =
      (s.atoms.get? j).map elemViewA := by
  rcases updateOne_cases s i with heq | ⟨a, t, t', hg, hat, _, _, _, _, helem, heq⟩
  · rw [heq]
  · rw [heq]
    by_cases hji : j = i
    · subst hji
      show ((s.atoms.set j _).get? j).map elemViewA = _
      rw [List.get?_set_eq, hg]
      simp only [Option.map_some']
      unfold elemViewA resolvedType
      rw [hat]
      simp [helem]
    · show ((s.atoms.set i _).get? j).map elemViewA = _
      rw [List.get?_set_ne _ _ (fun h => hji h.symm)]

theorem foldl_updateOne_bonds (s : Structure) (l : List Nat) :
    (l.foldl Structure.updateOne s).bonds = s.bonds := by
  induction l generalizing s with
  | nil => rfl
  | cons x xs ih => rw [List.foldl_cons, ih, updateOne_bonds]

theorem foldl_updateOne_length (s : Structure) (l : List Nat) :
    (l.foldl Structure.updateOne s).atoms.length = s.atoms.length := by
  induction l generalizing s with
  | nil => rfl
  | cons x xs ih => rw [List.foldl_cons, ih, updateOne_length]

theorem foldl_updateOne_elemView (s : Structure) (l : List Nat) (j : Nat) :
    ((l.foldl Structure.updateOne s).atoms.get? j).map elemViewA =
      (s.atoms.get? j).map elemViewA := by
  induction l generalizing s with
  | nil => rfl
  | cons x xs ih => rw [List.foldl_cons, ih, updateOne_elemView]

theorem foldl_get_not_mem (s : Structure) (l : List Nat) (i : Nat)
    (h : i ∉ l) : (l.foldl Structure.updateOne s).atoms.get? i =
      s.atoms.get? i := by
  induction l generalizing s with
  | nil => rfl
  | cons x xs ih =>
      rw [List.foldl_cons, ih _ (fun hm => h (List.mem_cons_of_mem x hm)),
        updateOne_get_ne _ _ _ (fun he => h (by rw [he]; exact List.mem_cons_self x xs))]

/-- A step on an atom whose reconciliation makes no change (or which is
generic) is the identity. -/
theorem updateOne_noop_of (s2 : Structure) (i : Nat) (a2 : Atom)
    (t2 : AtomType) (h1 : s2.atoms.get? i = some a2) (h2 : a2.atomType = [t2])
    (h3 : reconciles t2 (s2.suggestedAtomType i t2) = false ∨
      (t2.labelOf = ['R'] ∨ t2.labelOf = ['R', '!', 'H'])) :
    s2.updateOne i = s2 := by
  unfold Structure.updateOne
  simp only [h1, h2]
  by_cases hgen : t2.labelOf = ['R'] ∨ t2.labelOf = ['R', '!', 'H']
  · rw [if_pos hgen]
  · rcases h3 with h3 | h3
    · rw [if_neg hgen, if_neg (by simp [h3])]
    · exact absurd h3 hgen

/-- A step on a resolved, non-generic atom whose reconciliation adopts the
suggestion genuinely changes the structure. -/
theorem updateOne_ne_of_change (s : Structure) (i : Nat) (a : Atom)
    (t : AtomType) (hg : s.atoms.get? i = some a) (hat : a.atomType = [t])
    (hgen : ¬(t.labelOf = ['R'] ∨ t.labelOf = ['R', '!', 'H']))
    (hrec : reconciles t (s.suggestedAtomType i t) = true) :
    s.updateOne i ≠ s := by
  have hfacts := reconciles_true_facts hrec
  obtain ⟨t', hlook, helem, hlbl, _, _⟩ := sug_resolves s i t hfacts.1
  unfold Structure.updateOne
  simp only [hg, hat]
  rw [if_neg hgen, if_pos hrec]
  unfold Structure.setAtomTypeAt
  simp only [hlook, hg]
  intro hcontra
  have hatoms : s.atoms.set i { a with atomType := [t'] } = s.atoms :=
    congrArg Structure.atoms hcontra
  have hgi : (s.atoms.set i { a with atomType := [t'] }).get? i =
      s.atoms.get? i := by rw [hatoms]
  rw [List.get?_set_eq, hg] at hgi
  have hsome : some { a with atomType := [t'] } = some a := hgi
  injection hsome with hai
  have : t' = t := by
    have := congrArg Atom.atomType hai
    simp only [hat] at this
    injection this
  rw [this] at hlbl
  exact hfacts.2.2 hlbl

/-- Stability of an atom's no-change status under element-view-preserving
changes elsewhere in the structure. -/
theorem stable_preserved (s s2 : Structure) (i : Nat)
    (hstab : s.updateOne i = s)
    (hb : s2.bonds = s.bonds)
    (hv : ∀ j, (s2.atoms.get? j).map elemViewA = (s.atoms.get? j).map elemViewA)
    (hgi : s2.atoms.get? i = s.atoms.get? i) :
    s2.updateOne i = s2 := by
  rcases updateOne_cases s2 i with heq | ⟨a2, t2, t2', hg2, hat2, hgen2, hrec2, _, _, _, _⟩
  · exact heq
  · exfalso
    have hgs : s.atoms.get? i = some a2 := by rw [← hgi]; exact hg2
    have hsug : s.suggestedAtomType i t2 = s2.suggestedAtomType i t2 :=
      suggestedAtomType_congr hb.symm (fun j => (hv j).symm) i t2
    exact updateOne_ne_of_change s i a2 t2 hgs hat2 hgen2
      (by rw [hsug]; exact hrec2) hstab

/-- Updating an atom makes it stable: the very next step on the same atom
changes nothing. -/
theorem stable_of_updated (s : Structure) (i : Nat) :
    (s.updateOne i).updateOne i = s.updateOne i := by
  rcases updateOne_cases s i with heq | ⟨a, t, t', hg, hat, hgen, hrec, hlook, hlbl, helem, heq⟩
  · rw [heq]; exact heq
  · obtain ⟨t2, hlook2, _, _, hR2, hRn2⟩ :=
      sug_resolves s i t (reconciles_true_facts hrec).1
    rw [hlook] at hlook2
    injection hlook2 with ht2
    have hg' : (s.updateOne i).atoms.get? i = some { a with atomType := [t'] } := by
      rw [heq]
      show (s.atoms.set i _).get? i = _
      rw [List.get?_set_eq, hg]
      rfl
    have hsug : (s.updateOne i).suggestedAtomType i t' = s.suggestedAtomType i t := by
      have h1 : (s.updateOne i).suggestedAtomType i t' = s.suggestedAtomType i t' :=
        suggestedAtomType_congr (updateOne_bonds s i)
          (fun j => updateOne_elemView s i j) i t'
      rw [h1]
      exact suggestedAtomType_elem_congr helem
    apply updateOne_noop_of (s.updateOne i) i { a with atomType := [t'] } t' hg' rfl
    left
    rw [hsug]
    exact reconciles_self hlbl

/-- After a whole pass, every atom visited by the pass is stable. -/
theorem all_stable_after (s : Structure) (l : List Nat) :
    ∀ j ∈ l, ((l.foldl Structure.updateOne s).updateOne j) =
      l.foldl Structure.updateOne s := by
  induction l using List.reverseRecOn with
  | nil => intro j hj; simp at hj
  | append_singleton xs x ih =>
      intro j hj
      rw [List.foldl_append]
      simp only [List.foldl_cons, List.foldl_nil]
      rcases List.mem_append.mp hj with hjx | hjx
      · by_cases hje : j = x
        · subst hje
          exact stable_of_updated _ j
        · exact stable_preserved (xs.foldl Structure.updateOne s) _ j (ih j hjx)
            (updateOne_bonds _ x) (fun k => updateOne_elemView _ x k)
            (updateOne_get_ne _ x j hje)
      · have hje : j = x := by simpa using hjx
        subst hje
        exact stable_of_updated _ j

/-- A fold over stable atoms is the identity. -/
theorem foldl_stable (s : Structure) :
    ∀ (l : List Nat), (∀ j ∈ l, s.updateOne j = s) →
      l.foldl Structure.updateOne s = s
  | [], _ => rfl
  | x :: xs, h => by
      rw [List.foldl_cons, h x (List.mem_cons_self x xs)]
      exact foldl_stable s xs (fun j hj => h j (List.mem_cons_of_mem x hj))

/-- C8: `updateAtomTypes` is idempotent — running it a second time on the
unchanged graph changes nothing. -/
theorem claim_C8 (s : Structure) :
    s.updateAtomTypes.updateAtomTypes = s.updateAtomTypes := by
  unfold Structure.updateAtomTypes
  rw [foldl_updateOne_length s (List.range s.atoms.length)]
  exact foldl_stable _ _ (fun j hj => all_stable_after s (List.range s.atoms.length) j hj)

/-- Decompose `range n` around a position `i < n`. -/
theorem range_split (i n : Nat) (h : i < n) :
    List.range n = List.range i ++ i ::
      ((List.range (n - i - 1)).map (fun k => i + 1 + k)) := by
  have hn : n = (i + 1) + (n - i - 1) := by omega
  calc List.range n = List.range ((i + 1) + (n - i - 1)) := by rw [← hn]
    _ = List.range (i + 1) ++ (List.range (n - i - 1)).map (fun k => (i + 1) + k) :=
        List.range_add (i + 1) (n - i - 1)
    _ = (List.range i ++ [i]) ++ (List.range (n - i - 1)).map (fun k => i + 1 + k) := by
        rw [List.range_succ]
    _ = List.range i ++ i :: ((List.range (n - i - 1)).map (fun k => i + 1 + k)) := by
        simp

/-- C4 (amended): in `updateAtomTypes`, a resolved, non-generic atom whose
current type is its bare element symbol and whose suggestion differs from
the element symbol *and is not `'Cd'`* adopts the suggestion. -/
theorem claim_C4 (s : Structure) (i : Nat) (a : Atom) (t t' : AtomType)
    (hg : s.atoms.get? i = some a) (hat : a.atomType = [t])
    (hgen : t.labelOf ≠ ['R'] ∧ t.labelOf ≠ ['R', '!', 'H'])
    (hbare : t.labelOf = t.elementSymbol)
    (hne : s.suggestedAtomType i t ≠ t.elementSymbol)
    (hnCd : s.suggestedAtomType i t ≠ ['C', 'd'])
    (hlook : atomTypeOfLabel (s.suggestedAtomType i t) = some t') :
    ((s.updateAtomTypes).atoms.get? i).map Atom.atomType = some [t'] := by
  have hlt : i < s.atoms.length := by
    rcases List.get?_eq_some.mp hg with ⟨hlt, -⟩
    exact hlt
  unfold Structure.updateAtomTypes
  rw [range_split i s.atoms.length hlt, List.foldl_append, List.foldl_cons]
  set smid := (List.range i).foldl Structure.updateOne s with hsmid
  have hmid_get : smid.atoms.get? i = some a := by
    rw [hsmid, foldl_get_not_mem s _ i (by simp), hg]
  have hmid_sug : smid.suggestedAtomType i t = s.suggestedAtomType i t :=
    suggestedAtomType_congr (foldl_updateOne_bonds s _)
      (fun j => foldl_updateOne_elemView s _ j) i t
  have hstep : smid.updateOne i =
      { smid with atoms := smid.atoms.set i { a with atomType := [t'] } } := by
    unfold Structure.updateOne
    simp only [hmid_get, hat]
    rw [if_neg (by tauto), if_pos (by
      rw [hmid_sug]
      exact reconciles_bare t _ hbare hne hnCd)]
    unfold Structure.setAtomTypeAt
    simp only [hmid_sug, hlook, hmid_get]
  rw [hstep]
  rw [foldl_get_not_mem _ _ i (by
    intro hmem
    rcases List.mem_map.mp hmem with ⟨k, -, hk⟩
    omega)]
  show ((smid.atoms.set i _).get? i).map Atom.atomType = _
  rw [List.get?_set_eq, hmid_get]
  rfl

/-- A bare-element carbon with one double and one single bond (suggestion
`'Cds'`) for the C4 witness. -/
def exC4b : Structure :=
  ⟨[⟨[.C], [.s0], []⟩, ⟨[.C], [.s0], []⟩, ⟨[.C], [.s0], []⟩],
   [⟨0, 1, [.D]⟩, ⟨0, 2, [.S]⟩]⟩

theorem claim_C4_witness :
    ((exC4b.updateAtomTypes).atoms.get? 0).map Atom.atomType = some [.Cds] :=
  claim_C4 exC4b 0 ⟨[.C], [.s0], []⟩ .C .Cds rfl rfl
    (by exact ⟨by decide, by decide⟩) rfl (by decide) (by decide) rfl

/-! ### Machinery for the delocalization-path claim -/

/-- A bond joins atoms `i` and `k` (as an unordered pair of handles). -/
def bIncident (b : Bond) (i k : Nat) : Prop :=
  (b.a1 = i ∧ b.a2 = k) ∨ (b.a2 = i ∧ b.a1 = k)

instance (b : Bond) (i k : Nat) : Decidable (bIncident b i k) := by
  unfold bIncident; exact inferInstance

/-- `getBonds` membership: the entries of `getBondsI s i` are exactly the
(handle-of-neighbour, handle-of-bond) pairs of the bonds incident to `i`. -/
theorem mem_getBondsI {s : Structure} {i k j : Nat} :
    (k, j) ∈ s.getBondsI i ↔
      ∃ b, s.bonds.get? j = some b ∧ bIncident b i k := by
  unfold Structure.getBondsI
  rw [List.mem_filterMap]
  constructor
  · rintro ⟨⟨j', b⟩, hmem, hf⟩
    have hb : s.bonds.get? j' = some b := by
      have := List.mk_mem_enum_iff_getElem?.mp hmem
      rwa [List.get?_eq_getElem?]
    simp only [] at hf
    split_ifs at hf with h1 h2
    · injection hf with hf'
      injection hf' with hk hj
      subst hj
      exact ⟨b, hb, Or.inl ⟨h1, hk⟩⟩
    · injection hf with hf'
      injection hf' with hk hj
      subst hj
      exact ⟨b, hb, Or.inr ⟨h2, hk⟩⟩
  · rintro ⟨b, hb, hinc⟩
    refine ⟨(j, b), ?_, ?_⟩
    · rw [List.mk_mem_enum_iff_getElem?, ← List.get?_eq_getElem?]
      exact hb
    · simp only []
      rcases hinc with ⟨h1, h2⟩ | ⟨h1, h2⟩
      · rw [if_pos h1, h2]
      · by_cases h3 : b.a1 = i
        · rw [if_pos h3]
          have : b.a2 = k := by rw [h1, ← h3, h2]
          rw [this]
        · rw [if_neg h3, if_pos h1, h2]

/-- `bind` computation on an `ok` value. -/
theorem ok_bind {α β : Type} (a : α) (f : α → Except Unit β) :
    (Except.ok a >>= f) = f a := rfl

/-- `canIncreaseOrder` on a resolved bond. -/
theorem canInc_resolved {b : Bond} {t : BondType} (ht : b.btype = [t]) :
    b.canInc = .ok (decide (t.order2 ≠ 6)) := by
  unfold Bond.canInc
  rw [ht]

/-- Membership characterization of the inner loop of
`findAllDelocalizationPaths` over a list of candidate `(atom3, bond23)`
entries. -/
theorem inner_fold_char (s : Structure) (i1 i2 j12 : Nat)
    (hres : ∀ b ∈ s.bonds, ∃ t, b.btype = [t]) :
    ∀ (l : List (Nat × Nat)) (acc : List Structure.Path),
      (∀ y ∈ l, ∃ b, s.bonds.get? y.2 = some b) →
      ∃ r, l.foldlM (Structure.innerStep s i1 i2 j12) acc = .ok r ∧
        ∀ p, p ∈ r ↔ (p ∈ acc ∨ ∃ i3 j23, (i3, j23) ∈ l ∧
          p = ⟨i1, i2, i3, j12, j23⟩ ∧ i1 ≠ i3 ∧
          ∃ b23 t23, s.bonds.get? j23 = some b23 ∧ b23.btype = [t23] ∧
            t23.order2 ≠ 2)
  | [], acc, _ => ⟨acc, rfl, by simp⟩
  | (i3, j23) :: l, acc, hl => by
      obtain ⟨b, hb⟩ := hl (i3, j23) (List.mem_cons_self _ _)
      obtain ⟨t, ht⟩ := hres b (List.get?_mem hb)
      have htail := fun y hy => hl y (List.mem_cons_of_mem _ hy)
      have hb' : s.bonds.get? j23 = some b := hb
      by_cases h13 : i1 = i3
      · have hstep : Structure.innerStep s i1 i2 j12 acc (i3, j23) = .ok acc := by
          unfold Structure.innerStep
          simp only []
          rw [if_pos h13]
          rfl
        obtain ⟨r, hr, hchar⟩ := inner_fold_char s i1 i2 j12 hres l acc htail
        refine ⟨r, by rw [List.foldlM_cons, hstep]; exact hr, ?_⟩
        intro p
        rw [hchar]
        constructor
        · rintro (hp | ⟨i3', j23', hmem, rest⟩)
          · exact Or.inl hp
          · exact Or.inr ⟨i3', j23', List.mem_cons_of_mem _ hmem, rest⟩
        · rintro (hp | ⟨i3', j23', hmem, hpe, hne, rest⟩)
          · exact Or.inl hp
          · rcases List.mem_cons.mp hmem with heq | hmem'
            · injection heq with e1 e2
              exact absurd (by rw [e1]; exact h13) hne
            · exact Or.inr ⟨i3', j23', hmem', hpe, hne, rest⟩
      · by_cases hcd : t.order2 ≠ 2
        · have hstep : Structure.innerStep s i1 i2 j12 acc (i3, j23) =
              .ok (acc ++ [⟨i1, i2, i3, j12, j23⟩]) := by
            unfold Structure.innerStep
            simp only []
            rw [if_neg h13, hb']
            simp [Bond.canDec, ht, hcd]
            rfl
          obtain ⟨r, hr, hchar⟩ := inner_fold_char s i1 i2 j12 hres l
            (acc ++ [⟨i1, i2, i3, j12, j23⟩]) htail
          refine ⟨r, by rw [List.foldlM_cons, hstep]; exact hr, ?_⟩
          intro p
          rw [hchar]
          constructor
          · rintro (hp | ⟨i3', j23', hmem, rest⟩)
            · rcases List.mem_append.mp hp with hp | hp
              · exact Or.inl hp
              · have hpe : p = ⟨i1, i2, i3, j12, j23⟩ := by simpa using hp
                exact Or.inr ⟨i3, j23, List.mem_cons_self _ _, hpe, h13,
                  b, t, hb, ht, hcd⟩
            · exact Or.inr ⟨i3', j23', List.mem_cons_of_mem _ hmem, rest⟩
          · rintro (hp | ⟨i3', j23', hmem, hpe, hne, rest⟩)
            · exact Or.inl (List.mem_append.mpr (Or.inl hp))
            · rcases List.mem_cons.mp hmem with heq | hmem'
              · injection heq with e1 e2
                subst e1; subst e2
                exact Or.inl (List.mem_append.mpr (Or.inr (by simp [hpe])))
              · exact Or.inr ⟨i3', j23', hmem', hpe, hne, rest⟩
        · have hstep : Structure.innerStep s i1 i2 j12 acc (i3, j23) = .ok acc := by
            have h2 : t.order2 = 2 := not_not.mp hcd
            unfold Structure.innerStep
            simp only []
            rw [if_neg h13, hb']
            simp [Bond.canDec, ht, h2]
            rfl
          obtain ⟨r, hr, hchar⟩ := inner_fold_char s i1 i2 j12 hres l acc htail
          refine ⟨r, by rw [List.foldlM_cons, hstep]; exact hr, ?_⟩
          intro p
          rw [hchar]
          constructor
          · rintro (hp | ⟨i3', j23', hmem, rest⟩)
            · exact Or.inl hp
            · exact Or.inr ⟨i3', j23', List.mem_cons_of_mem _ hmem, rest⟩
          · rintro (hp | ⟨i3', j23', hmem, hpe, hne, ⟨b23, t23, hb23, ht23, ho23⟩⟩)
            · exact Or.inl hp
            · rcases List.mem_cons.mp hmem with heq | hmem'
              · exfalso
                injection heq with e1 e2
                subst e1; subst e2
                rw [hb] at hb23
                injection hb23 with hbb
                subst hbb
                rw [ht] at ht23
                injection ht23 with htt
                subst htt
                exact hcd ho23
              · exact Or.inr ⟨i3', j23', hmem', hpe, hne, b23, t23, hb23, ht23, ho23⟩

/-- Membership characterization of the outer loop of
`findAllDelocalizationPaths`. -/
theorem outer_fold_char (s : Structure) (i1 : Nat)
    (hres : ∀ b ∈ s.bonds, ∃ t, b.btype = [t]) :
    ∀ (l : List (Nat × Nat)) (acc : List Structure.Path),
      (∀ x ∈ l, ∃ b, s.bonds.get? x.2 = some b) →
      ∃ r, l.foldlM (Structure.outerStep s i1) acc = .ok r ∧
        ∀ p, p ∈ r ↔ (p ∈ acc ∨ ∃ i2 j12, (i2, j12) ∈ l ∧
          (∃ b12 t12, s.bonds.get? j12 = some b12 ∧ b12.btype = [t12] ∧
            t12.order2 ≠ 6) ∧
          ∃ i3 j23, (i3, j23) ∈ s.getBondsI i2 ∧
          p = ⟨i1, i2, i3, j12, j23⟩ ∧ i1 ≠ i3 ∧
          ∃ b23 t23, s.bonds.get? j23 = some b23 ∧ b23.btype = [t23] ∧
            t23.order2 ≠ 2)
  | [], acc, _ => ⟨acc, rfl, by simp⟩
  | (i2, j12) :: l, acc, hl => by
      obtain ⟨b, hb⟩ := hl (i2, j12) (List.mem_cons_self _ _)
      obtain ⟨t, ht⟩ := hres b (List.get?_mem hb)
      have htail := fun y hy => hl y (List.mem_cons_of_mem _ hy)
      have hbj : s.bonds.get? j12 = some b := hb
      have hinner_pre : ∀ y ∈ s.getBondsI i2, ∃ b', s.bonds.get? y.2 = some b' := by
        rintro ⟨k, j⟩ hy
        obtain ⟨b', hb', -⟩ := mem_getBondsI.mp hy
        exact ⟨b', hb'⟩
      by_cases hci : t.order2 ≠ 6
      · obtain ⟨r1, hr1, hchar1⟩ := inner_fold_char s i1 i2 j12 hres
          (s.getBondsI i2) acc hinner_pre
        have hstep : Structure.outerStep s i1 acc (i2, j12) = .ok r1 := by
          unfold Structure.outerStep
          simp only []
          rw [hbj]
          simp only []
          rw [show (pure b : Except Unit Bond) = Except.ok b from rfl, ok_bind,
            canInc_resolved ht, ok_bind]
          rw [if_pos (by simpa using hci)]
          exact hr1
        obtain ⟨r, hr, hchar⟩ := outer_fold_char s i1 hres l r1 htail
        refine ⟨r, by rw [List.foldlM_cons, hstep]; exact hr, ?_⟩
        intro p
        rw [hchar]
        constructor
        · rintro (hp | ⟨i2', j12', hmem, rest⟩)
          · rcases (hchar1 p).mp hp with hp' | ⟨i3, j23, hy, hpe, hne, hrest⟩
            · exact Or.inl hp'
            · exact Or.inr ⟨i2, j12, List.mem_cons_self _ _, ⟨b, t, hb, ht, hci⟩,
                i3, j23, hy, hpe, hne, hrest⟩
          · exact Or.inr ⟨i2', j12', List.mem_cons_of_mem _ hmem, rest⟩
        · rintro (hp | ⟨i2', j12', hmem, hb12, i3, j23, hy, hpe, hne, hrest⟩)
          · exact Or.inl ((hchar1 p).mpr (Or.inl hp))
          · rcases List.mem_cons.mp hmem with heq | hmem'
            · injection heq with e1 e2
              subst e1; subst e2
              exact Or.inl ((hchar1 p).mpr (Or.inr ⟨i3, j23, hy, hpe, hne, hrest⟩))
            · exact Or.inr ⟨i2', j12', hmem', hb12, i3, j23, hy, hpe, hne, hrest⟩
      · have hstep : Structure.outerStep s i1 acc (i2, j12) = .ok acc := by
          have h6 : t.order2 = 6 := not_not.mp hci
          unfold Structure.outerStep
          simp only []
          rw [hbj]
          simp [Bond.canInc, ht, h6]
          rfl
        obtain ⟨r, hr, hchar⟩ := outer_fold_char s i1 hres l acc htail
        refine ⟨r, by rw [List.foldlM_cons, hstep]; exact hr, ?_⟩
        intro p
        rw [hchar]
        constructor
        · rintro (hp | ⟨i2', j12', hmem, rest⟩)
          · exact Or.inl hp
          · exact Or.inr ⟨i2', j12', List.mem_cons_of_mem _ hmem, rest⟩
        · rintro (hp | ⟨i2', j12', hmem, ⟨b12, t12, hb12, ht12, ho12⟩, rest⟩)
          · exact Or.inl hp
          · rcases List.mem_cons.mp hmem with heq | hmem'
            · exfalso
              injection heq with e1 e2
              subst e1; subst e2
              rw [hb] at hb12
              injection hb12 with hbb
              subst hbb
              rw [ht] at ht12
              injection ht12 with htt
              subst htt
              exact hci ho12
            · exact Or.inr ⟨i2', j12', hmem', ⟨b12, t12, hb12, ht12, ho12⟩, rest⟩

/-- C3: `findAllDelocalizationPaths(atom1)` returns the empty list when
`atom1`'s radical order is zero, and otherwise contains exactly the paths
`(atom1, atom2, atom3, bond12, bond23)` where `bond12` joins `atom1` to a
neighbour `atom2` and is not at the maximum order 3, and `bond23` joins
`atom2` to a neighbour `atom3 ≠ atom1` and is not at the minimum order 1.
(Hypotheses: `atom1` exists and is resolved; every bond is resolved.) -/
theorem claim_C3 (s : Structure) (i1 : Nat) (a1 : Atom) (e : EState)
    (hg : s.atoms.get? i1 = some a1) (hes : a1.electronState = [e])
    (hres : ∀ b ∈ s.bonds, ∃ t, b.btype = [t]) :
    ∃ ps, s.findAllDelocalizationPaths i1 = .ok ps ∧
      (e.orderOf = 0 → ps = []) ∧
      (0 < e.orderOf → ∀ p : Structure.Path, p ∈ ps ↔
        (p.i1 = i1 ∧ p.i3 ≠ i1 ∧
         (∃ b12 t12, s.bonds.get? p.j12 = some b12 ∧ bIncident b12 i1 p.i2 ∧
           b12.btype = [t12] ∧ t12.order2 ≠ 6) ∧
         (∃ b23 t23, s.bonds.get? p.j23 = some b23 ∧
           bIncident b23 p.i2 p.i3 ∧ b23.btype = [t23] ∧ t23.order2 ≠ 2))) := by
  have horder : s.eOrderAt i1 = .ok e.orderOf := by
    unfold Structure.eOrderAt Atom.eOrder
    rw [hg]
    simp only []
    rw [hes]
  by_cases hzero : e.orderOf = 0
  · refine ⟨[], ?_, fun _ => rfl, fun hpos => absurd hzero (by omega)⟩
    unfold Structure.findAllDelocalizationPaths
    rw [horder]
    rw [ok_bind]
    simp [hzero]
    rfl
  · have houter_pre : ∀ x ∈ s.getBondsI i1, ∃ b, s.bonds.get? x.2 = some b := by
      rintro ⟨k, j⟩ hy
      obtain ⟨b', hb', -⟩ := mem_getBondsI.mp hy
      exact ⟨b', hb'⟩
    obtain ⟨r, hr, hchar⟩ := outer_fold_char s i1 hres (s.getBondsI i1) [] houter_pre
    refine ⟨r, ?_, fun h0 => absurd h0 hzero, fun _ p => ?_⟩
    · unfold Structure.findAllDelocalizationPaths
      rw [horder]
      have : ¬(e.orderOf ≤ 0) := by omega
      simp only [bind, Except.bind, this, if_false]
      exact hr
    · rw [hchar p]
      simp only [List.not_mem_nil, false_or]
      constructor
      · rintro ⟨i2, j12, hm12, ⟨b12, t12, hb12, ht12, ho12⟩, i3, j23, hm23,
          hpe, hne, b23, t23, hb23, ht23, ho23⟩
        obtain ⟨b12', hb12', hinc12⟩ := mem_getBondsI.mp hm12
        rw [hb12] at hb12'
        injection hb12' with hbb
        subst hbb
        obtain ⟨b23', hb23', hinc23⟩ := mem_getBondsI.mp hm23
        rw [hb23] at hb23'
        injection hb23' with hbb'
        subst hbb'
        subst hpe
        exact ⟨rfl, fun h => hne h.symm, ⟨b12, t12, hb12, hinc12, ht12, ho12⟩,
          ⟨b23, t23, hb23, hinc23, ht23, ho23⟩⟩
      · rintro ⟨hp1, hp3, ⟨b12, t12, hb12, hinc12, ht12, ho12⟩,
          ⟨b23, t23, hb23, hinc23, ht23, ho23⟩⟩
        refine ⟨p.i2, p.j12, mem_getBondsI.mpr ⟨b12, hb12, hinc12⟩,
          ⟨b12, t12, hb12, ht12, ho12⟩, p.i3, p.j23,
          mem_getBondsI.mpr ⟨b23, hb23, hinc23⟩, ?_, fun h => hp3 h.symm,
          b23, t23, hb23, ht23, ho23⟩
        cases p
        simp only [] at hp1
        rw [hp1]

/-- The allyl-radical example for the C3 witness. -/
def exC3 : Structure :=
  ⟨[⟨[.Cd], [.s0], []⟩, ⟨[.Cd], [.s0], []⟩, ⟨[.Cs], [.s1], []⟩],
   [⟨0, 1, [.D]⟩, ⟨1, 2, [.S]⟩]⟩

theorem claim_C3_witness :
    ∃ ps, exC3.findAllDelocalizationPaths 2 = .ok ps ∧
      (0 < EState.s1.orderOf → ∀ p : Structure.Path, p ∈ ps ↔
        (p.i1 = 2 ∧ p.i3 ≠ 2 ∧
         (∃ b12 t12, exC3.bonds.get? p.j12 = some b12 ∧
           bIncident b12 2 p.i2 ∧ b12.btype = [t12] ∧ t12.order2 ≠ 6) ∧
         (∃ b23 t23, exC3.bonds.get? p.j23 = some b23 ∧
           bIncident b23 p.i2 p.i3 ∧ b23.btype = [t23] ∧ t23.order2 ≠ 2))) := by
  obtain ⟨ps, h1, -, h3⟩ := claim_C3 exC3 2 ⟨[.Cs], [.s1], []⟩ .s1 rfl rfl
    (by
      intro b hb
      simp [exC3] at hb
      rcases hb with h | h <;> subst h <;> exact ⟨_, rfl⟩)
  exact ⟨ps, h1, h3⟩

/-! ### Machinery for the resonance-restoration claim -/

/-- `bind` on an error value. -/
theorem err_bind {α β : Type} (e : Unit) (f : α → Except Unit β) :
    (Except.error e >>= f : Except Unit β) = Except.error e := rfl

/-- Success of a bind splits into successes of both stages. -/
theorem bind_ok_iff {α β : Type} {x : Except Unit α} {f : α → Except Unit β}
    {v : β} : (x >>= f) = .ok v ↔ ∃ a, x = .ok a ∧ f a = .ok v := by
  cases x with
  | ok a =>
      rw [ok_bind]
      constructor
      · intro h; exact ⟨a, rfl, h⟩
      · rintro ⟨a', h1, h2⟩
        injection h1 with h1
        rw [h1]; exact h2
  | error e =>
      rw [err_bind]
      simp

/-- The view of an atom that the resonance-restoration claim talks about:
its free-electron (radical) counts plus the untouched type and label. -/
def atomShadow (a : Atom) : List Nat × List AtomType × List Char :=
  (a.electronState.map EState.orderOf, a.atomType, a.label)

/-- Electron orders never exceed the registry maximum 4. -/
theorem orderOf_le4 (e : EState) : e.orderOf ≤ 4 := by cases e <;> decide

/-- `canonicalEState` realizes the requested order (in range). -/
theorem canonical_orderOf {n : Nat} (h : n ≤ 4) :
    (canonicalEState n).orderOf = n := by
  interval_cases n <;> rfl

theorem withAtom_ok {s : Structure} {i : Nat} {f : Atom → Except Unit Atom}
    {s' : Structure} (h : s.withAtom i f = .ok s') :
    ∃ a a', s.atoms.get? i = some a ∧ f a = .ok a' ∧
      s' = { s with atoms := s.atoms.set i a' } := by
  unfold Structure.withAtom at h
  cases hg : s.atoms.get? i with
  | none => rw [hg] at h; exact absurd h (by simp)
  | some a =>
      rw [hg] at h
      simp only [] at h
      cases hf : f a with
      | error e => rw [hf, err_bind] at h; exact absurd h (by simp)
      | ok a' =>
          rw [hf, ok_bind] at h
          injection h with h
          exact ⟨a, a', rfl, hf, h.symm⟩

theorem withBond_ok {s : Structure} {j : Nat} {f : Bond → Except Unit Bond}
    {s' : Structure} (h : s.withBond j f = .ok s') :
    ∃ b b', s.bonds.get? j = some b ∧ f b = .ok b' ∧
      s' = { s with bonds := s.bonds.set j b' } := by
  unfold Structure.withBond at h
  cases hg : s.bonds.get? j with
  | none => rw [hg] at h; exact absurd h (by simp)
  | some b =>
      rw [hg] at h
      simp only [] at h
      cases hf : f b with
      | error e => rw [hf, err_bind] at h; exact absurd h (by simp)
      | ok b' =>
          rw [hf, ok_bind] at h
          injection h with h
          exact ⟨b, b', rfl, hf, h.symm⟩

theorem decFE_ok {a a' : Atom} (h : a.decFE = .ok a') :
    ∃ e, a.electronState = [e] ∧ 1 ≤ e.orderOf ∧
      a' = { a with electronState := [canonicalEState (e.orderOf - 1)] } := by
  unfold Atom.decFE at h
  rcases hes : a.electronState with _ | ⟨e, _ | ⟨e2, r⟩⟩ <;> rw [hes] at h <;> (try simp only [] at h)
  · exact absurd h (by simp)
  · split_ifs at h with h0
    injection h with h
    exact ⟨e, rfl, by omega, h.symm⟩
  · exact absurd h (by simp)

theorem incFE_ok {a a' : Atom} (h : a.incFE = .ok a') :
    ∃ e, a.electronState = [e] ∧ e.orderOf ≤ 3 ∧
      a' = { a with electronState := [canonicalEState (e.orderOf + 1)] } := by
  unfold Atom.incFE at h
  rcases hes : a.electronState with _ | ⟨e, _ | ⟨e2, r⟩⟩ <;> rw [hes] at h <;> (try simp only [] at h)
  · exact absurd h (by simp)
  · split_ifs at h with h0
    injection h with h
    exact ⟨e, rfl, by omega, h.symm⟩
  · exact absurd h (by simp)

theorem incOrder_ok {b b' : Bond} (h : b.incOrder = .ok b') :
    (b.btype = [BondType.S] ∧ b' = { b with btype := [BondType.D] }) ∨
    (b.btype = [BondType.D] ∧ b' = { b with btype := [BondType.T] }) := by
  unfold Bond.incOrder at h
  rcases hbt : b.btype with _ | ⟨t, _ | ⟨t2, r⟩⟩ <;> rw [hbt] at h <;> (try simp only [] at h)
  · exact absurd h (by simp)
  · cases t <;> simp only [] at h
    · injection h with h; exact Or.inl ⟨rfl, h.symm⟩
    · injection h with h; exact Or.inr ⟨rfl, h.symm⟩
    · exact absurd h (by simp)
    · exact absurd h (by simp)
  · exact absurd h (by simp)

theorem decOrder_ok {b b' : Bond} (h : b.decOrder = .ok b') :
    (b.btype = [BondType.T] ∧ b' = { b with btype := [BondType.D] }) ∨
    (b.btype = [BondType.D] ∧ b' = { b with btype := [BondType.S] }) := by
  unfold Bond.decOrder at h
  rcases hbt : b.btype with _ | ⟨t, _ | ⟨t2, r⟩⟩ <;> rw [hbt] at h <;> (try simp only [] at h)
  · exact absurd h (by simp)
  · cases t <;> simp only [] at h
    · exact absurd h (by simp)
    · injection h with h; exact Or.inr ⟨rfl, h.symm⟩
    · injection h with h; exact Or.inl ⟨rfl, h.symm⟩
    · exact absurd h (by simp)
  · exact absurd h (by simp)

/-- Decreasing after increasing restores the bond exactly. -/
theorem dec_of_inc {b b' : Bond} (h : b.incOrder = .ok b') :
    b'.decOrder = .ok b := by
  obtain ⟨a1, a2, bt⟩ := b
  rcases incOrder_ok h with ⟨h1, h2⟩ | ⟨h1, h2⟩ <;>
    (have h1' : bt = _ := h1; subst h1'; subst h2; rfl)

/-- Increasing after decreasing restores the bond exactly. -/
theorem inc_of_dec {b b' : Bond} (h : b.decOrder = .ok b') :
    b'.incOrder = .ok b := by
  obtain ⟨a1, a2, bt⟩ := b
  rcases decOrder_ok h with ⟨h1, h2⟩ | ⟨h1, h2⟩ <;>
    (have h1' : bt = _ := h1; subst h1'; subst h2; rfl)

/-- The bond list is restored exactly by the
increase/decrease-then-decrease/increase sequence of one path iteration. -/
theorem bonds_restore (B0 : List Bond) (j12 j23 : Nat)
    (b12v y3 b23v y4 b7v y7 b8v y8 : Bond)
    (hgb12 : B0.get? j12 = some b12v) (hinc3 : b12v.incOrder = .ok y3)
    (hgb23 : (B0.set j12 y3).get? j23 = some b23v)
    (hdec4 : b23v.decOrder = .ok y4)
    (hgb7 : ((B0.set j12 y3).set j23 y4).get? j12 = some b7v)
    (hdec7 : b7v.decOrder = .ok y7)
    (hgb8 : (((B0.set j12 y3).set j23 y4).set j12 y7).get? j23 = some b8v)
    (hinc8 : b8v.incOrder = .ok y8) :
    (((B0.set j12 y3).set j23 y4).set j12 y7).set j23 y8 = B0 := by
  have hlt12 : j12 < B0.length := by
    rcases List.get?_eq_some.mp hgb12 with ⟨hlt, -⟩; exact hlt
  apply List.ext_get?
  intro k
  by_cases h1223 : j12 = j23
  · -- one shared bond handle
    subst h1223
    by_cases hk : k = j12
    · subst hk
      rw [List.get?_set_eq_of_lt _ (by simp [hlt12]), hgb12]
      have e1 : y3 = b23v := by
        rw [List.get?_set_eq_of_lt _ (by simp [hlt12])] at hgb23
        injection hgb23
      have e2 : y4 = b7v := by
        rw [List.get?_set_eq_of_lt _ (by simp [hlt12])] at hgb7
        injection hgb7
      have e3 : y7 = b8v := by
        rw [List.get?_set_eq_of_lt _ (by simp [hlt12])] at hgb8
        injection hgb8
      have h4 : y4 = b12v := by
        have hd := dec_of_inc hinc3
        rw [← e1] at hdec4
        rw [hd] at hdec4
        injection hdec4 with h4
        exact h4.symm
      have hdec7' : b12v.decOrder = Except.ok y7 := by
        rw [← e2, h4] at hdec7
        exact hdec7
      have h8 : y8 = b12v := by
        have hi := inc_of_dec hdec7'
        rw [← e3] at hinc8
        rw [hi] at hinc8
        injection hinc8 with h8
        exact h8.symm
      rw [h8]
    · rw [List.get?_set_ne _ _ (fun he => hk he.symm),
        List.get?_set_ne _ _ (fun he => hk he.symm),
        List.get?_set_ne _ _ (fun he => hk he.symm),
        List.get?_set_ne _ _ (fun he => hk he.symm)]
  · -- distinct bond handles
    by_cases hk12 : k = j12
    · subst hk12
      rw [List.get?_set_ne _ _ (fun he => h1223 he.symm),
        List.get?_set_eq_of_lt _ (by simp [hlt12]), hgb12]
      have e2 : y3 = b7v := by
        rw [List.get?_set_ne _ _ (fun he => h1223 he.symm),
          List.get?_set_eq_of_lt _ (by simp [hlt12])] at hgb7
        injection hgb7
      have h7 : y7 = b12v := by
        have hd := dec_of_inc hinc3
        rw [← e2] at hdec7
        rw [hd] at hdec7
        injection hdec7 with h7
        exact h7.symm
      rw [h7]
    · by_cases hk23 : k = j23
      · subst hk23
        rw [List.get?_set_ne _ _ (fun he => hk12 he.symm)] at hgb23
        have hlt23 : k < B0.length := by
          rcases List.get?_eq_some.mp hgb23 with ⟨hlt, -⟩
          exact hlt
        rw [List.get?_set_eq_of_lt _ (by simp [hlt23]), hgb23]
        have e3 : y4 = b8v := by
          rw [List.get?_set_ne _ _ (fun he => hk12 he.symm),
            List.get?_set_eq_of_lt _ (by simp [hlt23])] at hgb8
          injection hgb8
        have h8 : y8 = b23v := by
          have hi := inc_of_dec hdec4
          rw [← e3] at hinc8
          rw [hi] at hinc8
          injection hinc8 with h8
          exact h8.symm
        rw [h8]
      · rw [List.get?_set_ne _ _ (fun he => hk23 he.symm),
          List.get?_set_ne _ _ (fun he => hk12 he.symm),
          List.get?_set_ne _ _ (fun he => hk23 he.symm),
          List.get?_set_ne _ _ (fun he => hk12 he.symm)]

/-- Decrement-then-increment restores the free-electron count, the type and
the label (only the spin descriptor may canonicalize). -/
theorem shadow_dec_inc {a b c : Atom} (h1 : a.decFE = .ok b)
    (h2 : b.incFE = .ok c) : atomShadow c = atomShadow a := by
  obtain ⟨e, hes, ho, hb⟩ := decFE_ok h1
  obtain ⟨e', hes', ho', hc⟩ := incFE_ok h2
  subst hb
  have he' : e' = canonicalEState (e.orderOf - 1) := by
    have h3 : [canonicalEState (e.orderOf - 1)] = [e'] := hes'
    injection h3 with h3
    exact h3.symm
  subst hc
  have h4 : e.orderOf ≤ 4 := orderOf_le4 e
  unfold atomShadow
  simp only [List.map]
  rw [hes, he']
  simp only [List.map]
  rw [show (canonicalEState (e.orderOf - 1)).orderOf = e.orderOf - 1 from
    canonical_orderOf (by omega)]
  rw [show e.orderOf - 1 + 1 = e.orderOf by omega]
  rw [show (canonicalEState e.orderOf).orderOf = e.orderOf from
    canonical_orderOf (by omega)]

/-- Increment-then-decrement restores the free-electron count, the type and
the label. -/
theorem shadow_inc_dec {a b c : Atom} (h1 : a.incFE = .ok b)
    (h2 : b.decFE = .ok c) : atomShadow c = atomShadow a := by
  obtain ⟨e, hes, ho, hb⟩ := incFE_ok h1
  obtain ⟨e', hes', ho', hc⟩ := decFE_ok h2
  subst hb
  have he' : e' = canonicalEState (e.orderOf + 1) := by
    have h3 : [canonicalEState (e.orderOf + 1)] = [e'] := hes'
    injection h3 with h3
    exact h3.symm
  subst hc
  have h4 : e.orderOf ≤ 4 := orderOf_le4 e
  unfold atomShadow
  simp only [List.map]
  rw [hes, he']
  simp only [List.map]
  rw [show (canonicalEState (e.orderOf + 1)).orderOf = e.orderOf + 1 from
    canonical_orderOf (by omega)]
  rw [show e.orderOf + 1 - 1 = e.orderOf by omega]
  rw [show (canonicalEState e.orderOf).orderOf = e.orderOf from
    canonical_orderOf (by omega)]

/-- The atom list's shadow (free-electron counts, types, labels) is
restored by the decrement/increment-then-increment/decrement sequence of
one path iteration. -/
theorem atoms_restore (A0 : List Atom) (i1 i3 : Nat)
    (a0 x1 a3v x3 a5v x5 a6v x6 : Atom)
    (hga0 : A0.get? i1 = some a0) (hop1 : a0.decFE = .ok x1)
    (hga3 : (A0.set i1 x1).get? i3 = some a3v) (hop3 : a3v.incFE = .ok x3)
    (hga5 : ((A0.set i1 x1).set i3 x3).get? i1 = some a5v)
    (hop5 : a5v.incFE = .ok x5)
    (hga6 : (((A0.set i1 x1).set i3 x3).set i1 x5).get? i3 = some a6v)
    (hop6 : a6v.decFE = .ok x6) :
    ∀ k, (((((A0.set i1 x1).set i3 x3).set i1 x5).set i3 x6).get? k).map
        atomShadow = (A0.get? k).map atomShadow := by
  have hlt1 : i1 < A0.length := by
    rcases List.get?_eq_some.mp hga0 with ⟨hlt, -⟩; exact hlt
  intro k
  by_cases h13 : i1 = i3
  · subst h13
    by_cases hk : k = i1
    · subst hk
      rw [List.get?_set_eq_of_lt _ (by simp [hlt1]), hga0]
      have e1 : x1 = a3v := by
        rw [List.get?_set_eq_of_lt _ (by simp [hlt1])] at hga3
        injection hga3
      have e2 : x3 = a5v := by
        rw [List.get?_set_eq_of_lt _ (by simp [hlt1])] at hga5
        injection hga5
      have e3 : x5 = a6v := by
        rw [List.get?_set_eq_of_lt _ (by simp [hlt1])] at hga6
        injection hga6
      have s1 : atomShadow x3 = atomShadow a0 :=
        shadow_dec_inc hop1 (by rw [e1]; exact hop3)
      have s2 : atomShadow x6 = atomShadow x3 :=
        shadow_inc_dec (by rw [e2]; exact hop5) (by rw [e3]; exact hop6)
      simp only [Option.map_some']
      rw [s2, s1]
    · rw [List.get?_set_ne _ _ (fun he => hk he.symm),
        List.get?_set_ne _ _ (fun he => hk he.symm),
        List.get?_set_ne _ _ (fun he => hk he.symm),
        List.get?_set_ne _ _ (fun he => hk he.symm)]
  · by_cases hk1 : k = i1
    · subst hk1
      rw [List.get?_set_ne _ _ (fun he => h13 he.symm),
        List.get?_set_eq_of_lt _ (by simp [hlt1]), hga0]
      have e2 : x1 = a5v := by
        rw [List.get?_set_ne _ _ (fun he => h13 he.symm),
          List.get?_set_eq_of_lt _ (by simp [hlt1])] at hga5
        injection hga5
      have s1 : atomShadow x5 = atomShadow a0 :=
        shadow_dec_inc hop1 (by rw [e2]; exact hop5)
      simp only [Option.map_some']
      rw [s1]
    · by_cases hk3 : k = i3
      · subst hk3
        rw [List.get?_set_ne _ _ (fun he => hk1 he.symm)] at hga3
        have hlt3 : k < A0.length := by
          rcases List.get?_eq_some.mp hga3 with ⟨hlt, -⟩; exact hlt
        rw [List.get?_set_eq_of_lt _ (by simp [hlt3]), hga3]
        have e3 : x3 = a6v := by
          rw [List.get?_set_ne _ _ (fun he => hk1 he.symm),
            List.get?_set_eq_of_lt _ (by simp [hlt3])] at hga6
          injection hga6
        have s1 : atomShadow x6 = atomShadow a3v :=
          shadow_inc_dec hop3 (by rw [e3]; exact hop6)
        simp only [Option.map_some']
        rw [s1]
      · rw [List.get?_set_ne _ _ (fun he => hk3 he.symm),
          List.get?_set_ne _ _ (fun he => hk1 he.symm),
          List.get?_set_ne _ _ (fun he => hk3 he.symm),
          List.get?_set_ne _ _ (fun he => hk1 he.symm)]

/-- The resonance-restoration relation: equal bond lists, equal atom
counts, and atom-wise equal shadows. -/
def shadowEq (s2 s1 : Structure) : Prop :=
  s2.bonds = s1.bonds ∧ s2.atoms.length = s1.atoms.length ∧
  ∀ i, (s2.atoms.get? i).map atomShadow = (s1.atoms.get? i).map atomShadow

theorem shadowEq_refl (s : Structure) : shadowEq s s := ⟨rfl, rfl, fun _ => rfl⟩

theorem shadowEq_trans {s3 s2 s1 : Structure} (h2 : shadowEq s3 s2)
    (h1 : shadowEq s2 s1) : shadowEq s3 s1 :=
  ⟨h2.1.trans h1.1, h2.2.1.trans h1.2.1, fun i => (h2.2.2 i).trans (h1.2.2 i)⟩

/-- One path iteration of `getAdjacentResonanceIsomers` restores the
structure's shadow exactly. -/
theorem processPath_shadow {st : Structure} {p : Structure.Path}
    {iso st' : Structure} (h : st.processPath p = .ok (iso, st')) :
    shadowEq st' st := by
  unfold Structure.processPath at h
  obtain ⟨st1, h1, h⟩ := bind_ok_iff.mp h
  obtain ⟨st2, h2, h⟩ := bind_ok_iff.mp h
  obtain ⟨st3, h3, h⟩ := bind_ok_iff.mp h
  obtain ⟨st4, h4, h⟩ := bind_ok_iff.mp h
  obtain ⟨st5, h5, h⟩ := bind_ok_iff.mp h
  obtain ⟨st6, h6, h⟩ := bind_ok_iff.mp h
  obtain ⟨st7, h7, h⟩ := bind_ok_iff.mp h
  obtain ⟨st8, h8, h⟩ := bind_ok_iff.mp h
  have hpair : (st4.copy, st8) = (iso, st') := by
    injection h with h
  have hst' : st' = st8 := by
    injection hpair with hp1 hp2
    exact hp2.symm
  subst hst'
  obtain ⟨a0, x1, hga0, hop1, hs1⟩ := withAtom_ok h1
  subst hs1
  obtain ⟨a3v, x3, hga3, hop3, hs2⟩ := withAtom_ok h2
  subst hs2
  obtain ⟨b12v, y3, hgb12, hopb3, hs3⟩ := withBond_ok h3
  subst hs3
  obtain ⟨b23v, y4, hgb23, hopb4, hs4⟩ := withBond_ok h4
  subst hs4
  obtain ⟨a5v, x5, hga5, hop5, hs5⟩ := withAtom_ok h5
  subst hs5
  obtain ⟨a6v, x6, hga6, hop6, hs6⟩ := withAtom_ok h6
  subst hs6
  obtain ⟨b7v, y7, hgb7, hopb7, hs7⟩ := withBond_ok h7
  subst hs7
  obtain ⟨b8v, y8, hgb8, hopb8, hs8⟩ := withBond_ok h8
  subst hs8
  refine ⟨?_, ?_, ?_⟩
  · exact bonds_restore st.bonds p.j12 p.j23 b12v y3 b23v y4 b7v y7 b8v y8
      hgb12 hopb3 hgb23 hopb4 hgb7 hopb7 hgb8 hopb8
  · simp [List.length_set]
  · exact atoms_restore st.atoms p.i1 p.i3 a0 x1 a3v x3 a5v x5 a6v x6
      hga0 hop1 hga3 hop3 hga5 hop5 hga6 hop6

/-- The isomer-collecting inner fold preserves the structure's shadow. -/
theorem paths_fold_shadow (ps : List Structure.Path) :
    ∀ (acc : List Structure × Structure) (out : List Structure × Structure),
      ps.foldlM (fun (acc2 : List Structure × Structure) (p : Structure.Path) => do
        let (isomers2, st2) := acc2
        let (isomer, st'') ← st2.processPath p
        pure (isomers2 ++ [isomer], st'')) acc = .ok out →
      shadowEq out.2 acc.2 := by
  induction ps with
  | nil =>
      intro acc out h
      rw [List.foldlM_nil] at h
      injection h with h
      rw [← h]
      exact shadowEq_refl _
  | cons p ps ih =>
      rintro ⟨isomers0, st0⟩ out h
      rw [List.foldlM_cons] at h
      obtain ⟨acc1, hstep, hrest⟩ := bind_ok_iff.mp h
      simp only [] at hstep
      obtain ⟨pr, hpp, hpure⟩ := bind_ok_iff.mp hstep
      obtain ⟨iso1, st1⟩ := pr
      injection hpure with hpure
      have hs1 : shadowEq st1 st0 := processPath_shadow hpp
      have hs2 := ih acc1 out hrest
      rw [← hpure] at hs2
      exact shadowEq_trans hs2 hs1

/-- The per-atom outer fold of `getAdjacentResonanceIsomers` preserves the
structure's shadow. -/
theorem atoms_fold_shadow (l : List Nat) :
    ∀ (acc : List Structure × Structure) (out : List Structure × Structure),
      l.foldlM (fun (acc : List Structure × Structure) (i : Nat) => do
        let (isomers, st) := acc
        let paths ← st.findAllDelocalizationPaths i
        paths.foldlM (fun (acc2 : List Structure × Structure) (p : Structure.Path) => do
          let (isomers2, st2) := acc2
          let (isomer, st'') ← st2.processPath p
          pure (isomers2 ++ [isomer], st'')) (isomers, st)) acc = .ok out →
      shadowEq out.2 acc.2 := by
  induction l with
  | nil =>
      intro acc out h
      rw [List.foldlM_nil] at h
      injection h with h
      rw [← h]
      exact shadowEq_refl _
  | cons i l ih =>
      rintro ⟨isomers0, st0⟩ out h
      rw [List.foldlM_cons] at h
      obtain ⟨acc1, hstep, hrest⟩ := bind_ok_iff.mp h
      simp only [] at hstep
      obtain ⟨paths, hfp, hfold⟩ := bind_ok_iff.mp hstep
      have hs1 : shadowEq acc1.2 st0 := paths_fold_shadow paths (isomers0, st0) acc1 hfold
      have hs2 := ih acc1 out hrest
      exact shadowEq_trans hs2 hs1

/-- C1: after `getAdjacentResonanceIsomers` returns, the input structure's
per-atom free-electron counts (with types and labels) and its entire bond
list are identical to their values before the call. -/
theorem claim_C1 (s : Structure) (isomers : List Structure) (s' : Structure)
    (h : s.getAdjacentResonanceIsomers = .ok (isomers, s')) :
    s'.bonds = s.bonds ∧ s'.atoms.length = s.atoms.length ∧
    ∀ i, (s'.atoms.get? i).map atomShadow = (s.atoms.get? i).map atomShadow := by
  unfold Structure.getAdjacentResonanceIsomers at h
  obtain ⟨rc, hrc, h⟩ := bind_ok_iff.mp h
  by_cases hpos : rc > 0
  · rw [if_pos hpos] at h
    have := atoms_fold_shadow (List.range s.atoms.length) ([], s) (isomers, s') h
    exact this
  · rw [if_neg hpos] at h
    injection h with h
    injection h with h1 h2
    rw [← h2]
    exact shadowEq_refl s

/-- The allyl radical (`C=C-C.`) for the C1 witness. -/
def exC1 : Structure :=
  ⟨[⟨[.Cd], [.s0], []⟩, ⟨[.Cd], [.s0], []⟩, ⟨[.Cs], [.s1], []⟩],
   [⟨0, 1, [.D]⟩, ⟨1, 2, [.S]⟩]⟩

/-- The single resonance isomer of `exC1` (`.C-C=C`). -/
def exC1isomer : Structure :=
  ⟨[⟨[.Cd], [.s1], []⟩, ⟨[.Cd], [.s0], []⟩, ⟨[.Cs], [.s0], []⟩],
   [⟨0, 1, [.S]⟩, ⟨1, 2, [.D]⟩]⟩

theorem claim_C1_witness :
    exC1.getAdjacentResonanceIsomers = .ok ([exC1isomer], exC1) ∧
    (exC1.bonds = exC1.bonds ∧ exC1.atoms.length = exC1.atoms.length ∧
      ∀ i, (exC1.atoms.get? i).map atomShadow =
        (exC1.atoms.get? i).map atomShadow) :=
  ⟨rfl, claim_C1 exC1 [exC1isomer] exC1 rfl⟩

/-- The structure for the C4 counterexample: a bare-element carbon with a
single incident double bond (so the cascade suggests `'Cd'`). -/
def exC4 : Structure :=
  ⟨[⟨[.C], [.s0], []⟩, ⟨[.C], [.s0], []⟩], [⟨0, 1, [.D]⟩]⟩

/-- C4 counterexample: atom 0 of `exC4` is resolved and non-generic, its
current type `'C'` is the bare element symbol, and its suggested type is
`'Cd'` (different from the element symbol) — yet `updateAtomTypes` leaves
the type at `'C'` instead of adopting `'Cd'`, because the source's line 638
(`elif atomType == atom1.atomType.element.symbol or atomType == 'Cd'`)
swallows every `'Cd'` suggestion. -/
theorem claim_C4_counterexample :
    exC4.atoms.get? 0 = some ⟨[.C], [.s0], []⟩ ∧
    AtomType.C.labelOf = AtomType.C.elementSymbol ∧
    exC4.suggestedAtomType 0 .C = ['C', 'd'] ∧
    (['C', 'd'] : List Char) ≠ AtomType.C.elementSymbol ∧
    ((exC4.updateAtomTypes).atoms.get? 0).map Atom.atomType = some [.C] := by
  refine ⟨rfl, rfl, rfl, by decide, rfl⟩

/-! ### Machinery for the round-trip claim: string-primitive lemmas -/

theorem pySplitlines_nil : pySplitlines [] = [] := rfl

/-- The non-newline step of `splitlines`. -/
theorem pySplitlines_cons_nnl (c : Char) (s : List Char) (hc : c ≠ '\n') :
    pySplitlines (c :: s) =
      match pySplitlines s with
      | [] => [[c]]
      | l :: ls => (c :: l) :: ls := by
  conv_lhs => unfold pySplitlines
  rw [if_neg hc]

/-- A newline-free prefix followed by a newline splits off as one line. -/
theorem pySplitlines_append (l rest : List Char) (h : '\n' ∉ l) :
    pySplitlines (l ++ '\n' :: rest) = l :: pySplitlines rest := by
  induction l with
  | nil => simp [pySplitlines]
  | cons c l ih =>
      have hc : c ≠ '\n' := fun he => h (he ▸ List.mem_cons_self c l)
      have hl : '\n' ∉ l := fun hm => h (List.mem_cons_of_mem c hm)
      rw [List.cons_append, pySplitlines_cons_nnl c _ hc, ih hl]

/-- Splitting a block of newline-terminated, newline-free bodies recovers
the bodies. -/
theorem pySplitlines_blocks (bodies : List (List Char))
    (h : ∀ b ∈ bodies, '\n' ∉ b) :
    pySplitlines ((bodies.map (fun b => b ++ ['\n'])).flatten) = bodies := by
  induction bodies with
  | nil => rfl
  | cons b bs ih =>
      rw [List.map_cons, List.flatten_cons, List.append_assoc]
      rw [show ['\n'] ++ (bs.map (fun b => b ++ ['\n'])).flatten =
        '\n' :: (bs.map (fun b => b ++ ['\n'])).flatten from rfl]
      rw [pySplitlines_append _ _ (h b (List.mem_cons_self b bs))]
      rw [ih (fun x hx => h x (List.mem_cons_of_mem b hx))]

/-- Every produced line is newline-free. -/
theorem pySplitlines_no_nl (s : List Char) :
    ∀ l ∈ pySplitlines s, '\n' ∉ l := by
  induction s with
  | nil => intro l hl; simp [pySplitlines] at hl
  | cons c s ih =>
      intro l hl
      unfold pySplitlines at hl
      by_cases hc : c = '\n'
      · rw [if_pos hc] at hl
        rcases List.mem_cons.mp hl with he | hm
        · subst he; simp
        · exact ih l hm
      · rw [if_neg hc] at hl
        cases hrec : pySplitlines s with
        | nil =>
            rw [hrec] at hl
            rcases List.mem_cons.mp hl with he | hm
            · subst he
              intro hm
              rcases List.mem_cons.mp hm with he' | hm'
              · exact hc he'.symm
              · simp at hm'
            · simp at hm
        | cons l0 ls =>
            rw [hrec] at hl
            rcases List.mem_cons.mp hl with he | hm
            · subst he
              intro hm
              rcases List.mem_cons.mp hm with he' | hm'
              · exact hc he'.symm
              · exact ih l0 (hrec ▸ List.mem_cons_self l0 ls) hm'
            · exact ih l (hrec ▸ List.mem_cons_of_mem l0 hm)

/-- One non-whitespace character is accumulated. -/
theorem pySplitAux_cons_nws (cur : List Char) (c : Char) (rest : List Char)
    (hc : isWS c = false) :
    pySplitAux cur (c :: rest) = pySplitAux (c :: cur) rest := by
  conv_lhs => unfold pySplitAux
  simp [hc]

/-- One whitespace character flushes the current token. -/
theorem pySplitAux_cons_ws (cur : List Char) (c : Char) (rest : List Char)
    (hc : isWS c = true) :
    pySplitAux cur (c :: rest) =
      if cur = [] then pySplitAux [] rest
      else cur.reverse :: pySplitAux [] rest := by
  conv_lhs => unfold pySplitAux
  simp [hc]

theorem pySplitAux_nil_arg (cur : List Char) :
    pySplitAux cur [] = if cur = [] then [] else [cur.reverse] := rfl

/-- Consuming a whitespace-free chunk just accumulates it. -/
theorem pySplitAux_chunk (t : List Char) (h : ∀ c ∈ t, isWS c = false) :
    ∀ (cur rest : List Char),
      pySplitAux cur (t ++ rest) = pySplitAux (t.reverse ++ cur) rest := by
  induction t with
  | nil => intro cur rest; simp
  | cons c t ih =>
      intro cur rest
      rw [List.cons_append,
        pySplitAux_cons_nws _ _ _ (h c (List.mem_cons_self c t)),
        ih (fun x hx => h x (List.mem_cons_of_mem c hx)) (c :: cur) rest]
      congr 1
      simp

/-- A nonempty whitespace-free token followed by a space is split off. -/
theorem pySplit_token (t rest : List Char) (h1 : t ≠ [])
    (h2 : ∀ c ∈ t, isWS c = false) :
    pySplit (t ++ ' ' :: rest) = t :: pySplit rest := by
  unfold pySplit
  rw [pySplitAux_chunk t h2 [] (' ' :: rest)]
  rw [pySplitAux_cons_ws (t.reverse ++ []) ' ' rest (by decide)]
  rw [if_neg (by simpa using h1)]
  simp

/-- A final nonempty whitespace-free token. -/
theorem pySplit_last (t : List Char) (h1 : t ≠ [])
    (h2 : ∀ c ∈ t, isWS c = false) : pySplit t = [t] := by
  have h3 := pySplitAux_chunk t h2 [] []
  rw [List.append_nil, List.append_nil] at h3
  unfold pySplit
  rw [h3, pySplitAux_nil_arg, if_neg (by simpa using h1)]
  simp

theorem pySplit_nil : pySplit [] = [] := rfl

/-- `strip(ch)` is the identity on a string sandwiched between two
non-`ch` characters. -/
theorem pyStripChar_sandwich (ch a z : Char) (mid : List Char) (ha : a ≠ ch)
    (hz : z ≠ ch) : pyStripChar ch (a :: (mid ++ [z])) = a :: (mid ++ [z]) := by
  unfold pyStripChar
  rw [List.dropWhile_cons, if_neg (by simpa using ha)]
  rw [show (a :: (mid ++ [z])).reverse = z :: (mid.reverse ++ [a]) by simp]
  rw [List.dropWhile_cons, if_neg (by simpa using hz)]
  simp

/-- `strip(ch)` is the identity on a `ch`-free string. -/
theorem pyStripChar_of_not_mem (ch : Char) (l : List Char) (h : ch ∉ l) :
    pyStripChar ch l = l := by
  have key : ∀ (m : List Char), ch ∉ m → m.dropWhile (· = ch) = m := by
    intro m hm
    cases m with
    | nil => rfl
    | cons c r =>
        rw [List.dropWhile_cons, if_neg (by
          simp only [decide_eq_true_eq]
          exact fun he => hm (he ▸ List.mem_cons_self c r))]
  unfold pyStripChar
  rw [key l h, key l.reverse (by simpa using h), List.reverse_reverse]

/-- `s[1:-1]` of a bracketed string. -/
theorem pyInner_wrap (a z : Char) (mid : List Char) :
    pyInner (a :: (mid ++ [z])) = mid := by
  unfold pyInner
  simp

/-- The non-comma step of `split(',')`. -/
theorem splitOnComma_cons_nc (c : Char) (s : List Char) (hc : c ≠ ',') :
    splitOnComma (c :: s) =
      match splitOnComma s with
      | [] => [[c]]
      | l :: ls => (c :: l) :: ls := by
  conv_lhs => unfold splitOnComma
  rw [if_neg hc]

/-- The comma step of `split(',')`. -/
theorem splitOnComma_cons_c (s : List Char) :
    splitOnComma (',' :: s) = [] :: splitOnComma s := by
  conv_lhs => unfold splitOnComma
  rw [if_pos rfl]

/-- `split(',')` never returns an empty piece list. -/
theorem splitOnComma_ne_nil (l : List Char) : splitOnComma l ≠ [] := by
  cases l with
  | nil => simp [splitOnComma]
  | cons c r =>
      unfold splitOnComma
      split_ifs
      · simp
      · cases h : splitOnComma r <;> simp

/-- `split(',')` inverts comma-joining of comma-free pieces. -/
theorem splitOnComma_commaJoin (ls : List (List Char)) (h0 : ls ≠ [])
    (h : ∀ l ∈ ls, (',' : Char) ∉ l) :
    splitOnComma (commaJoin ls) = ls := by
  have key : ∀ (l : List Char) (rest : List Char), (',' : Char) ∉ l →
      splitOnComma (l ++ rest) =
        match splitOnComma rest with
        | [] => [l]
        | r :: rs => (l ++ r) :: rs := by
    intro l
    induction l with
    | nil =>
        intro rest _
        cases hr : splitOnComma rest with
        | nil => exact absurd hr (splitOnComma_ne_nil rest)
        | cons r rs => simp [hr]
    | cons c l ih =>
        intro rest hnc
        have hc : c ≠ ',' := fun he => hnc (he ▸ List.mem_cons_self c l)
        rw [List.cons_append, splitOnComma_cons_nc c _ hc,
          ih rest (fun hm => hnc (List.mem_cons_of_mem c hm))]
        cases splitOnComma rest <;> simp
  induction ls with
  | nil => exact absurd rfl h0
  | cons l ls ih =>
      cases ls with
      | nil =>
          unfold commaJoin
          simp only [List.flatMap_nil, List.append_nil]
          rw [show (l : List Char) = l ++ [] by simp,
            key l [] (h l (List.mem_cons_self l []))]
          rfl
      | cons l2 ls2 =>
          unfold commaJoin
          simp only [List.flatMap_cons]
          rw [show l ++ (',' :: l2 ++ (ls2.flatMap (fun x => ',' :: x))) =
            l ++ (',' :: (l2 ++ ls2.flatMap (fun x => ',' :: x))) by simp]
          rw [key l _ (h l (List.mem_cons_self l _))]
          have ih2 := ih (by simp) (fun x hx => h x (List.mem_cons_of_mem l hx))
          unfold commaJoin at ih2
          simp only [List.flatMap_cons] at ih2
          rw [splitOnComma_cons_c]
          rw [show splitOnComma (l2 ++ ls2.flatMap (fun x => ',' :: x)) =
            l2 :: ls2 from ih2]
          simp

/-- `partition(',')` splits at the first comma after a comma-free part. -/
theorem partComma_first (pre post : List Char) (h : (',' : Char) ∉ pre) :
    partComma (pre ++ ',' :: post) = (pre, true, post) := by
  induction pre with
  | nil => simp [partComma]
  | cons c l ih =>
      have hc : c ≠ ',' := fun he => h (he ▸ List.mem_cons_self c l)
      rw [List.cons_append]
      show partComma (c :: (l ++ ',' :: post)) = _
      unfold partComma
      rw [if_neg hc, ih (fun hm => h (List.mem_cons_of_mem c hm))]

theorem natDigits_eq_digits : ∀ (fuel n : Nat), n ≤ fuel →
    natDigits fuel n = Nat.digits 10 n := by
  intro fuel
  induction fuel with
  | zero =>
      intro n hn
      have h0 : n = 0 := by omega
      subst h0
      rw [Nat.digits_zero]
      rfl
  | succ fuel ih =>
      intro n hn
      by_cases h0 : n = 0
      · subst h0
        rw [Nat.digits_zero]
        rfl
      · unfold natDigits
        rw [if_neg h0, Nat.digits_def' (by omega : (1 : Nat) < 10)
            (by omega : 0 < n),
          ih (n / 10) (by
            have := Nat.div_lt_self (by omega : 0 < n) (by omega : 1 < 10)
            omega)]

theorem natToChars_eq (n : Nat) :
    natToChars n = ((Nat.digits 10 n).map digChar).reverse := by
  unfold natToChars
  rw [natDigits_eq_digits n n (Nat.le_refl n)]

/-- Digit characters of a decimal rendering. -/
theorem natToChars_digits (n : Nat) :
    ∀ c ∈ natToChars n, '0' ≤ c ∧ c ≤ '9' := by
  intro c hc
  rw [natToChars_eq] at hc
  rw [List.mem_reverse, List.mem_map] at hc
  obtain ⟨d, hd, hdc⟩ := hc
  have hlt : d < 10 := Nat.digits_lt_base (by omega) hd
  subst hdc
  unfold digChar
  interval_cases d <;> exact ⟨by decide, by decide⟩

theorem natToChars_ne_nil (n : Nat) (h : 0 < n) : natToChars n ≠ [] := by
  rw [natToChars_eq]
  simp [Nat.digits_ne_nil_iff_ne_zero, Nat.pos_iff_ne_zero.mp h]

/-- Parsing inverts decimal rendering. -/
theorem parseIntPy_natToChars (n : Nat) (h : 0 < n) :
    parseIntPy (natToChars n) = some (n : Int) := by
  have hdig := natToChars_digits n
  have hne := natToChars_ne_nil n h
  have hpd : parseDigits (natToChars n) = some n := by
    unfold parseDigits
    rw [if_neg hne, if_pos (by
      rw [List.all_eq_true]
      intro c hc
      exact decide_eq_true (hdig c hc))]
    congr 1
    rw [natToChars_eq]
    have key : ∀ ds : List Nat, (∀ d ∈ ds, d < 10) →
        ((ds.map digChar).reverse.foldl (fun n c => 10 * n + (c.toNat - 48)) 0)
          = Nat.ofDigits 10 ds := by
      intro ds
      induction ds with
      | nil => intro _; simp [Nat.ofDigits]
      | cons d ds ih =>
          intro hds
          rw [List.map_cons, List.reverse_cons, List.foldl_append]
          rw [ih (fun x hx => hds x (List.mem_cons_of_mem d hx))]
          rw [Nat.ofDigits_cons]
          simp only [List.foldl_cons, List.foldl_nil]
          have hd : d < 10 := hds d (List.mem_cons_self d ds)
          have hdc : (digChar d).toNat - 48 = d := by
            unfold digChar
            interval_cases d <;> rfl
          rw [hdc]
          ring
    rw [key (Nat.digits 10 n) (fun d hd => Nat.digits_lt_base (by omega) hd)]
    exact Nat.ofDigits_digits 10 n
  obtain ⟨c, cs, hnc⟩ : ∃ c cs, natToChars n = c :: cs := by
    cases hnc : natToChars n with
    | nil => exact absurd hnc hne
    | cons c cs => exact ⟨c, cs, rfl⟩
  have hc09 : '0' ≤ c ∧ c ≤ '9' :=
    hdig c (by rw [hnc]; exact List.mem_cons_self c cs)
  rw [hnc] at hpd ⊢
  unfold parseIntPy
  split
  · rename_i rest heq
    injection heq with h1 h2
    rw [h1] at hc09
    exact absurd hc09.1 (by decide)
  · rename_i rest heq
    injection heq with h1 h2
    rw [h1] at hc09
    exact absurd hc09.1 (by decide)
  · rw [hpd]; rfl

/-! ### Registry and label character-class facts -/

theorem atomTypeOfLabel_labelOf (t : AtomType) :
    atomTypeOfLabel t.labelOf = some t := by cases t <;> rfl

theorem eStateOfLabel_labelOf (e : EState) :
    eStateOfLabel e.labelOf = some e := by cases e <;> rfl

theorem bondTypeOfLabel_labelOf (b : BondType) :
    bondTypeOfLabel b.labelOf = some b := by cases b <;> rfl

/-- A whitespace-free character list (`split()` keeps it intact). -/
def wsFree (l : List Char) : Prop := ∀ c ∈ l, isWS c = false

/-- A registry-label character: no whitespace, comma, brace or newline, so
the serialized token re-parses as the same single token. -/
def charOK (c : Char) : Prop :=
  isWS c = false ∧ c ≠ ',' ∧ c ≠ obr ∧ c ≠ cbr ∧ c ≠ '\n'

instance (c : Char) : Decidable (charOK c) := by unfold charOK; infer_instance

theorem atomType_label_facts (t : AtomType) :
    t.labelOf ≠ [] ∧ (∀ c ∈ t.labelOf, charOK c) ∧
      t.labelOf.head? ≠ some '*' ∧ t.labelOf.head? ≠ some obr := by
  cases t <;> exact ⟨by decide, by decide, by decide, by decide⟩

theorem estate_label_facts (e : EState) :
    e.labelOf ≠ [] ∧ (∀ c ∈ e.labelOf, charOK c ∧ c.toUpper = c) ∧
      e.labelOf.head? ≠ some '*' ∧ e.labelOf.head? ≠ some obr := by
  cases e <;> exact ⟨by decide, by decide, by decide, by decide⟩

theorem bondtype_label_facts (b : BondType) :
    b.labelOf ≠ [] ∧ (∀ c ∈ b.labelOf, charOK c) ∧
      b.labelOf.head? ≠ some obr := by
  cases b <;> exact ⟨by decide, by decide, by decide⟩

theorem digit_ne (c x : Char) (h0 : '0' ≤ c) (h9 : c ≤ '9')
    (hx : x < '0' ∨ '9' < x) : c ≠ x := by
  rintro rfl
  rcases hx with h | h
  · exact absurd h0 (not_le.mpr h)
  · exact absurd h9 (not_le.mpr h)

theorem digit_not_ws (c : Char) (h0 : '0' ≤ c) (h9 : c ≤ '9') :
    isWS c = false := by
  unfold isWS
  rw [decide_eq_false (digit_ne c ' ' h0 h9 (Or.inl (by decide))),
    decide_eq_false (digit_ne c '\t' h0 h9 (Or.inl (by decide)))]
  rfl

theorem digit_charOK (c : Char) (h0 : '0' ≤ c) (h9 : c ≤ '9') : charOK c :=
  ⟨digit_not_ws c h0 h9, digit_ne c ',' h0 h9 (Or.inl (by decide)),
    digit_ne c obr h0 h9 (Or.inr (by decide)),
    digit_ne c cbr h0 h9 (Or.inr (by decide)),
    digit_ne c '\n' h0 h9 (Or.inl (by decide))⟩

theorem natToChars_charOK (n : Nat) : ∀ c ∈ natToChars n, charOK c := by
  intro c hc
  obtain ⟨h0, h9⟩ := natToChars_digits n c hc
  exact digit_charOK c h0 h9

theorem natToChars_ne_star (n : Nat) : ∀ c ∈ natToChars n, c ≠ '*' := by
  intro c hc
  obtain ⟨h0, h9⟩ := natToChars_digits n c hc
  exact digit_ne c '*' h0 h9 (Or.inl (by decide))

theorem natToChars_no_dot (n : Nat) : '.' ∉ natToChars n := by
  intro hm
  obtain ⟨h0, _⟩ := natToChars_digits n '.' hm
  exact absurd h0 (by decide)

theorem natToChars_no_comma (n : Nat) : ',' ∉ natToChars n := by
  intro hm
  exact absurd rfl (natToChars_charOK n ',' hm).2.1

/-- Every character of a comma-join is a comma or a piece character. -/
theorem mem_commaJoin {c : Char} {ls : List (List Char)}
    (h : c ∈ commaJoin ls) : c = ',' ∨ ∃ l ∈ ls, c ∈ l := by
  match ls with
  | [] => simp [commaJoin] at h
  | l :: rest =>
      unfold commaJoin at h
      rw [List.mem_append] at h
      rcases h with h | h
      · exact Or.inr ⟨l, List.mem_cons_self l rest, h⟩
      · rw [List.mem_flatMap] at h
        obtain ⟨x, hx, hcx⟩ := h
        rcases List.mem_cons.mp hcx with he | hm
        · exact Or.inl he
        · exact Or.inr ⟨x, List.mem_cons_of_mem l hx, hm⟩

/-! ### The serialized tokens and their shapes -/

/-- The atom-type token body (`typeTok` without its trailing space). -/
def typeCore (a : Atom) : List Char :=
  match a.atomType with
  | [t] => t.labelOf
  | ts => obr :: (commaJoin (ts.map AtomType.labelOf) ++ [cbr])

/-- The electron-state token body; `stateTok` appends a space only in the
scalar case (the line-418 gap). -/
def stateCore (a : Atom) : List Char :=
  match a.electronState with
  | [e] => e.labelOf
  | es => obr :: (commaJoin (es.map EState.labelOf) ++ [cbr])

/-- One serialized bond descriptor without its trailing space. -/
def bondBlock (kb : Nat × Bond) : List Char :=
  obr :: (natToChars (kb.1 + 1) ++ [','] ++ Structure.btTok kb.2 ++ [cbr])

theorem typeTok_eq (a : Atom) : Structure.typeTok a = typeCore a ++ [' '] := by
  unfold Structure.typeTok typeCore
  rcases hT : a.atomType with _ | ⟨t1, _ | ⟨t2, ts⟩⟩ <;> simp

theorem typeCore_scalar {a : Atom} {t : AtomType} (h : a.atomType = [t]) :
    typeCore a = t.labelOf := by
  unfold typeCore
  rw [h]

theorem typeCore_list {a : Atom} {t1 t2 : AtomType} {ts : List AtomType}
    (h : a.atomType = t1 :: t2 :: ts) :
    typeCore a =
      obr :: (commaJoin ((t1 :: t2 :: ts).map AtomType.labelOf) ++ [cbr]) := by
  unfold typeCore
  rw [h]

theorem stateTok_scalar {a : Atom} {e : EState} (h : a.electronState = [e]) :
    Structure.stateTok a = stateCore a ++ [' '] := by
  unfold Structure.stateTok stateCore
  rw [h]

theorem stateTok_list (a : Atom) (h : ∀ e, a.electronState ≠ [e]) :
    Structure.stateTok a = stateCore a := by
  unfold Structure.stateTok stateCore
  rcases hT : a.electronState with _ | ⟨e1, _ | ⟨e2, es⟩⟩
  · rfl
  · exact absurd hT (h e1)
  · rfl

theorem stateCore_scalar {a : Atom} {e : EState} (h : a.electronState = [e]) :
    stateCore a = e.labelOf := by
  unfold stateCore
  rw [h]

theorem stateCore_list {a : Atom} {e1 e2 : EState} {es : List EState}
    (h : a.electronState = e1 :: e2 :: es) :
    stateCore a =
      obr :: (commaJoin ((e1 :: e2 :: es).map EState.labelOf) ++ [cbr]) := by
  unfold stateCore
  rw [h]

theorem btTok_scalar {b : Bond} {t : BondType} (h : b.btype = [t]) :
    Structure.btTok b = t.labelOf := by
  unfold Structure.btTok
  rw [h]

theorem btTok_list {b : Bond} {t1 t2 : BondType} {ts : List BondType}
    (h : b.btype = t1 :: t2 :: ts) :
    Structure.btTok b =
      obr :: (commaJoin ((t1 :: t2 :: ts).map BondType.labelOf) ++ [cbr]) := by
  unfold Structure.btTok
  rw [h]

theorem bondsTok_eq (s : Structure) (i : Nat) :
    Structure.bondsTok s i
      = ((s.getBondsV i).map (fun kb => bondBlock kb ++ [' '])).flatten := by
  unfold Structure.bondsTok
  generalize s.getBondsV i = l
  induction l with
  | nil => rfl
  | cons kb l ih =>
      rw [List.flatMap_cons, List.map_cons, List.flatten_cons, ih]
      congr 1
      unfold bondBlock
      simp

/-- A token suitable for one `split()` item of one line: nonempty,
whitespace-free and newline-free. -/
def lineTokOK (l : List Char) : Prop := l ≠ [] ∧ wsFree l ∧ '\n' ∉ l

theorem braceWrap_facts (L : List (List Char))
    (hL : ∀ l ∈ L, ∀ c ∈ l, charOK c) :
    ∀ c ∈ (obr :: (commaJoin L ++ [cbr]) : List Char),
      isWS c = false ∧ c ≠ '\n' := by
  intro c hc
  rcases List.mem_cons.mp hc with he | hm
  · subst he; exact ⟨by decide, by decide⟩
  · rw [List.mem_append] at hm
    rcases hm with hm | hm
    · rcases mem_commaJoin hm with he | ⟨l, hl, hcl⟩
      · subst he; exact ⟨by decide, by decide⟩
      · exact ⟨(hL l hl c hcl).1, (hL l hl c hcl).2.2.2.2⟩
    · have := List.mem_singleton.mp hm
      subst this; exact ⟨by decide, by decide⟩

theorem scalarTok_lineTokOK (l : List Char) (h1 : l ≠ [])
    (h2 : ∀ c ∈ l, charOK c) : lineTokOK l :=
  ⟨h1, fun c hc => (h2 c hc).1, fun hm => (h2 '\n' hm).2.2.2.2 rfl⟩

theorem braceWrap_lineTokOK (L : List (List Char))
    (hL : ∀ l ∈ L, ∀ c ∈ l, charOK c) :
    lineTokOK (obr :: (commaJoin L ++ [cbr])) := by
  refine ⟨by simp, fun c hc => (braceWrap_facts L hL c hc).1,
    fun hm => (braceWrap_facts L hL '\n' hm).2 rfl⟩

/-- `mapM` inverts `map` along a one-sided inverse. -/
theorem mapM_inv {α : Type} (f : List Char → Option α) (g : α → List Char)
    (hfg : ∀ x, f (g x) = some x) : ∀ l : List α, (l.map g).mapM f = some l := by
  intro l
  induction l with
  | nil => rfl
  | cons x l ih =>
      rw [List.map_cons, List.mapM_cons, hfg x, ih]
      rfl

/-- The atom-type token body re-parses into exactly the serialized
ambiguity set. -/
theorem typeCore_spec (a : Atom) (h : a.atomType ≠ []) :
    lineTokOK (typeCore a) ∧
    ∃ c rest, typeCore a = c :: rest ∧ c ≠ '*' ∧
      (if c = obr then splitOnComma (pyInner (typeCore a)) else [typeCore a])
        = a.atomType.map AtomType.labelOf := by
  rcases hT : a.atomType with _ | ⟨t1, _ | ⟨t2, ts⟩⟩
  · exact absurd hT h
  · obtain ⟨hne, hch, hstar, hobr⟩ := atomType_label_facts t1
    have hcore := typeCore_scalar hT
    obtain ⟨c, rest, hcr⟩ : ∃ c rest, t1.labelOf = c :: rest := by
      cases hx : t1.labelOf with
      | nil => exact absurd hx hne
      | cons c rest => exact ⟨c, rest, rfl⟩
    refine ⟨scalarTok_lineTokOK _ (hcore ▸ hne) (hcore ▸ hch), c, rest,
      by rw [hcore, hcr], ?_, ?_⟩
    · intro he; subst he; rw [hcr] at hstar; exact hstar rfl
    · have hcne : c ≠ obr := by
        intro he; subst he; rw [hcr] at hobr; exact hobr rfl
      rw [if_neg hcne, hcore]
      simp
  · have hcore := typeCore_list hT
    have hch : ∀ l ∈ (t1 :: t2 :: ts).map AtomType.labelOf, ∀ c ∈ l, charOK c := by
      intro l hl c hc
      rw [List.mem_map] at hl
      obtain ⟨t, _, rfl⟩ := hl
      exact (atomType_label_facts t).2.1 c hc
    refine ⟨hcore ▸ braceWrap_lineTokOK _ hch,
      obr, commaJoin ((t1 :: t2 :: ts).map AtomType.labelOf) ++ [cbr],
      hcore, by decide, ?_⟩
    rw [if_pos rfl, hcore, pyInner_wrap]
    exact splitOnComma_commaJoin _ (by simp)
      (fun l hl hcm => absurd rfl (hch l hl ',' hcm).2.1)

/-- The electron-state token body: fixed by `upper()`, and it re-parses into
exactly the serialized ambiguity set. -/
theorem stateCore_spec (a : Atom) (h : a.electronState ≠ []) :
    lineTokOK (stateCore a) ∧ (stateCore a).map Char.toUpper = stateCore a ∧
    ∃ c rest, stateCore a = c :: rest ∧ c ≠ '*' ∧
      (if c = obr then splitOnComma (pyInner (stateCore a)) else [stateCore a])
        = a.electronState.map EState.labelOf := by
  rcases hT : a.electronState with _ | ⟨e1, _ | ⟨e2, es⟩⟩
  · exact absurd hT h
  · obtain ⟨hne, hch, hstar, hobr⟩ := estate_label_facts e1
    have hcore := stateCore_scalar hT
    obtain ⟨c, rest, hcr⟩ : ∃ c rest, e1.labelOf = c :: rest := by
      cases hx : e1.labelOf with
      | nil => exact absurd hx hne
      | cons c rest => exact ⟨c, rest, rfl⟩
    have hup : (stateCore a).map Char.toUpper = stateCore a := by
      rw [hcore]
      rw [show e1.labelOf.map Char.toUpper = e1.labelOf.map id from
        List.map_congr_left (fun c hc => (hch c hc).2), List.map_id]
    refine ⟨scalarTok_lineTokOK _ (hcore ▸ hne)
        (fun c hc => (hch c (hcore ▸ hc)).1), hup, c, rest,
      by rw [hcore, hcr], ?_, ?_⟩
    · intro he; subst he; rw [hcr] at hstar; exact hstar rfl
    · have hcne : c ≠ obr := by
        intro he; subst he; rw [hcr] at hobr; exact hobr rfl
      rw [if_neg hcne, hcore]
      simp
  · have hcore := stateCore_list hT
    have hch : ∀ l ∈ (e1 :: e2 :: es).map EState.labelOf, ∀ c ∈ l, charOK c := by
      intro l hl c hc
      rw [List.mem_map] at hl
      obtain ⟨e, _, rfl⟩ := hl
      exact ((estate_label_facts e).2.1 c hc).1
    have hup : (stateCore a).map Char.toUpper = stateCore a := by
      rw [hcore]
      rw [show (obr :: (commaJoin ((e1 :: e2 :: es).map EState.labelOf) ++ [cbr])).map
            Char.toUpper
          = (obr :: (commaJoin ((e1 :: e2 :: es).map EState.labelOf) ++ [cbr])).map id
          from List.map_congr_left ?_, List.map_id]
      intro c hc
      rcases List.mem_cons.mp hc with he | hm
      · subst he; decide
      · rw [List.mem_append] at hm
        rcases hm with hm | hm
        · rcases mem_commaJoin hm with he | ⟨l, hl, hcl⟩
          · subst he; decide
          · rw [List.mem_map] at hl
            obtain ⟨e, _, rfl⟩ := hl
            exact ((estate_label_facts e).2.1 c hcl).2
        · have := List.mem_singleton.mp hm
          subst this; decide
    refine ⟨hcore ▸ braceWrap_lineTokOK _ hch, hup,
      obr, commaJoin ((e1 :: e2 :: es).map EState.labelOf) ++ [cbr],
      hcore, by decide, ?_⟩
    rw [if_pos rfl, hcore, pyInner_wrap]
    exact splitOnComma_commaJoin _ (by simp)
      (fun l hl hcm => absurd rfl ((hch l hl ',' hcm)).2.1)

/-- The bond-type token re-parses into exactly the serialized ambiguity
set. -/
theorem btTok_spec (b : Bond) (h : b.btype ≠ []) :
    lineTokOK (Structure.btTok b) ∧
    ∃ c rest, Structure.btTok b = c :: rest ∧
      (if c = obr then splitOnComma (pyInner (Structure.btTok b))
        else [Structure.btTok b])
        = b.btype.map BondType.labelOf := by
  rcases hT : b.btype with _ | ⟨t1, _ | ⟨t2, ts⟩⟩
  · exact absurd hT h
  · obtain ⟨hne, hch, hobr⟩ := bondtype_label_facts t1
    have hcore := btTok_scalar hT
    obtain ⟨c, rest, hcr⟩ : ∃ c rest, t1.labelOf = c :: rest := by
      cases hx : t1.labelOf with
      | nil => exact absurd hx hne
      | cons c rest => exact ⟨c, rest, rfl⟩
    refine ⟨scalarTok_lineTokOK _ (hcore ▸ hne) (hcore ▸ hch), c, rest,
      by rw [hcore, hcr], ?_⟩
    have hcne : c ≠ obr := by
      intro he; subst he; rw [hcr] at hobr; exact hobr rfl
    rw [if_neg hcne, hcore]
    simp
  · have hcore := btTok_list hT
    have hch : ∀ l ∈ (t1 :: t2 :: ts).map BondType.labelOf, ∀ c ∈ l, charOK c := by
      intro l hl c hc
      rw [List.mem_map] at hl
      obtain ⟨t, _, rfl⟩ := hl
      exact (bondtype_label_facts t).2.1 c hc
    refine ⟨hcore ▸ braceWrap_lineTokOK _ hch,
      obr, commaJoin ((t1 :: t2 :: ts).map BondType.labelOf) ++ [cbr],
      hcore, ?_⟩
    rw [if_pos rfl, hcore, pyInner_wrap]
    exact splitOnComma_commaJoin _ (by simp)
      (fun l hl hcm => absurd rfl (hch l hl ',' hcm).2.1)

/-! ### Dictionary lemmas -/

theorem map_or {α β : Type} (o1 o2 : Option α) (f : α → β) :
    (o1.or o2).map f = (o1.map f).or (o2.map f) := by cases o1 <;> rfl

/-- Lookup in the id-to-handle dictionary the parser accumulates over the
serialized 1-based ids. -/
theorem dget_rangeMap {α : Type} (g : Nat → α) (n k : Nat) :
    dget ((List.range n).map (fun m : Nat => ((m : Int) + 1, g m))) ((k : Int) + 1)
      = if k < n then some (g k) else none := by
  induction n with
  | zero => simp [dget]
  | succ n ih =>
      unfold dget at ih ⊢
      rw [List.range_succ, List.map_append, List.find?_append, map_or, ih]
      by_cases hk : k < n
      · rw [if_pos hk, if_pos (by omega)]
        rfl
      · rw [if_neg hk]
        by_cases hkn : k = n
        · subst hkn
          simp only [List.map_cons, List.map_nil]
          rw [List.find?_cons_of_pos _ (by simp), if_pos (by omega)]
          rfl
        · simp only [List.map_cons, List.map_nil]
          rw [List.find?_cons_of_neg _ (by simp; omega), if_neg (by omega)]
          rfl

/-- Lookup in an association list built by `map` with pairwise-distinct
keys finds the entry of any member. -/
theorem dget_map_of_mem {α β : Type} (f : α → Int × β) (l : List α) (x : α)
    (hx : x ∈ l) (hinj : l.Pairwise (fun a b => (f a).1 ≠ (f b).1)) :
    dget (l.map f) (f x).1 = some (f x).2 := by
  induction l with
  | nil => simp at hx
  | cons y l ih =>
      rcases List.mem_cons.mp hx with he | hm
      · subst he
        unfold dget
        rw [List.map_cons, List.find?_cons_of_pos _ (by simp)]
        rfl
      · have hne : (f y).1 ≠ (f x).1 :=
          (List.pairwise_cons.mp hinj).1 x hm
        unfold dget
        rw [List.map_cons, List.find?_cons_of_neg _ (by simpa using hne)]
        exact ih hm (List.pairwise_cons.mp hinj).2

/-- Assignment with a fresh key appends. -/
theorem dset_fresh {α : Type} (d : List (Int × α)) (k : Int) (v : α)
    (h : ∀ kv ∈ d, kv.1 ≠ k) : dset d k v = d ++ [(k, v)] := by
  unfold dset
  rw [if_neg ?_]
  intro hany
  rw [List.any_eq_true] at hany
  obtain ⟨kv, hkv, he⟩ := hany
  exact h kv hkv (by simpa using he)

/-! ### `getBonds` membership facts -/

theorem mem_getBondsV {s : Structure} {i k : Nat} {b : Bond} :
    (k, b) ∈ s.getBondsV i ↔ b ∈ s.bonds ∧
      ((b.a1 = i ∧ b.a2 = k) ∨ (b.a1 ≠ i ∧ b.a2 = i ∧ b.a1 = k)) := by
  unfold Structure.getBondsV
  rw [List.mem_filterMap]
  constructor
  · rintro ⟨b', hb', he⟩
    by_cases h1 : b'.a1 = i
    · rw [if_pos h1] at he
      injection he with he1
      injection he1 with hk hb
      subst hb
      exact ⟨hb', Or.inl ⟨h1, hk⟩⟩
    · rw [if_neg h1] at he
      by_cases h2 : b'.a2 = i
      · rw [if_pos h2] at he
        injection he with he1
        injection he1 with hk hb
        subst hb
        exact ⟨hb', Or.inr ⟨h1, h2, hk⟩⟩
      · rw [if_neg h2] at he
        exact absurd he (by simp)
  · rintro ⟨hb, ⟨h1, h2⟩ | ⟨h1, h2, h3⟩⟩
    · exact ⟨b, hb, by rw [if_pos h1, h2]⟩
    · exact ⟨b, hb, by rw [if_neg h1, if_pos h2, h3]⟩

theorem getBondsV_symm {s : Structure} {i k : Nat} {b : Bond}
    (h : (k, b) ∈ s.getBondsV i) : (i, b) ∈ s.getBondsV k := by
  rw [mem_getBondsV] at h ⊢
  obtain ⟨hb, hc⟩ := h
  refine ⟨hb, ?_⟩
  rcases hc with ⟨h1, h2⟩ | ⟨h1, h2, h3⟩
  · by_cases hik : b.a1 = k
    · exact Or.inl ⟨hik, by omega⟩
    · exact Or.inr ⟨hik, h2, h1⟩
  · exact Or.inl ⟨h3, h2⟩

/-- Under pairwise-distinct unordered endpoint pairs, each entry of a bond
fan determines its unordered pair. -/
theorem pairKey_of_mem_getBondsV {s : Structure} {i k : Nat} {b : Bond}
    (h : (k, b) ∈ s.getBondsV i) :
    Structure.pairKey b = (min i k, max i k) := by
  rw [mem_getBondsV] at h
  unfold Structure.pairKey
  rcases h.2 with ⟨h1, h2⟩ | ⟨h1, h2, h3⟩
  · rw [h1, h2]
  · rw [h2, h3, Nat.min_comm, Nat.max_comm]

theorem getBondsV_keys_nodup (s : Structure) (i : Nat)
    (h : s.bonds.Pairwise (fun b1 b2 =>
      Structure.pairKey b1 ≠ Structure.pairKey b2)) :
    (s.getBondsV i).Pairwise (fun x y => x.1 ≠ y.1) := by
  unfold Structure.getBondsV
  refine List.Pairwise.filterMap _ ?_ h
  intro b1 b2 hne kb1 hkb1 kb2 hkb2
  have key : ∀ (b : Bond) (kb : Nat × Bond),
      kb ∈ (if b.a1 = i then some (b.a2, b)
        else if b.a2 = i then some (b.a1, b) else none) →
      Structure.pairKey b = (min i kb.1, max i kb.1) := by
    intro b kb hkb
    by_cases h1 : b.a1 = i
    · rw [if_pos h1, Option.mem_def] at hkb
      injection hkb with he
      subst he
      unfold Structure.pairKey
      rw [h1]
    · rw [if_neg h1] at hkb
      by_cases h2 : b.a2 = i
      · rw [if_pos h2, Option.mem_def] at hkb
        injection hkb with he
        subst he
        unfold Structure.pairKey
        rw [h2, Nat.min_comm, Nat.max_comm]
      · rw [if_neg h2] at hkb
        simp at hkb
  intro hkeq
  exact hne (by rw [key b1 kb1 hkb1, key b2 kb2 hkb2, hkeq])

/-! ### The parser's state along the serialization of a structure -/

/-- The bonds materialized while parsing line `i` of the serialization of
`s`: one bond per descriptor whose neighbour id is already in `atomdict`,
i.e. whose other endpoint is at most `i`. -/
def matBonds (s : Structure) (i : Nat) : List Bond :=
  (s.getBondsV i).filterMap (fun kb =>
    if kb.1 ≤ i then some (Bond.mk i kb.1 kb.2.btype) else none)

/-- The per-atom bond dictionary recorded while parsing line `i`. -/
def innerOf (s : Structure) (i : Nat) : List (Int × List (List Char)) :=
  (s.getBondsV i).map (fun kb : Nat × Bond =>
    ((kb.1 : Int) + 1, kb.2.btype.map BondType.labelOf))

/-- The parser's local state after consuming the first `i` atom lines of
the serialization of `s`. -/
def stAt (s : Structure) (i : Nat) : ParseSt :=
  { atoms := s.atoms.take i,
    bonds := (List.range i).flatMap (matBonds s),
    atomdict := (List.range i).map (fun m : Nat => ((m : Int) + 1, m)),
    bonddict := (List.range i).map (fun m : Nat => ((m : Int) + 1, innerOf s m)) }

/-- The well-formedness the adjacency-list codec itself guarantees: bond
endpoints are atom handles and bond type sets are nonempty; distinct bonds
join distinct unordered endpoint pairs (`initialize` keys edges by that
pair); every atom has nonempty ambiguity sets and a label that is either
empty or a whitespace- and newline-free `*`-marker (the only labels
`fromAdjacencyList` ever stores). -/
def Structure.codecWF (s : Structure) : Prop :=
  (∀ b ∈ s.bonds, b.a1 < s.atoms.length ∧ b.a2 < s.atoms.length ∧
    b.btype ≠ []) ∧
  s.bonds.Pairwise (fun b1 b2 =>
    Structure.pairKey b1 ≠ Structure.pairKey b2) ∧
  (∀ a ∈ s.atoms, a.atomType ≠ [] ∧ a.electronState ≠ [] ∧
    (a.label = [] ∨ (a.label.head? = some '*' ∧
      ∀ c ∈ a.label, isWS c = false ∧ c ≠ '\n')))

/-- Line 418 writes a list-valued electron state with no trailing space, so
its token glues onto the first bond descriptor; the round trip therefore
needs every atom with an unresolved electron state to be isolated. -/
def Structure.scalarOrIsolated (s : Structure) : Prop :=
  ∀ ia ∈ s.atoms.enum,
    (ia.2 : Atom).electronState.length = 1 ∨ s.getBondsV ia.1 = []

theorem getBondsV_facts {s : Structure} (hWF : s.codecWF) {i k : Nat}
    {b : Bond} (h : (k, b) ∈ s.getBondsV i) :
    k < s.atoms.length ∧ i < s.atoms.length ∧ b.btype ≠ [] := by
  rw [mem_getBondsV] at h
  obtain ⟨hb, hc⟩ := h
  obtain ⟨h1, h2, h3⟩ := hWF.1 b hb
  rcases hc with ⟨ha, hk⟩ | ⟨_, ha, hk⟩
  · exact ⟨hk ▸ h2, ha ▸ h1, h3⟩
  · exact ⟨hk ▸ h1, ha ▸ h2, h3⟩

/-! ### Token splitting of a serialized line -/

theorem pySplit_blocks (ts : List (List Char))
    (h : ∀ t ∈ ts, t ≠ [] ∧ wsFree t) :
    pySplit ((ts.map (fun t => t ++ [' '])).flatten) = ts := by
  induction ts with
  | nil => rfl
  | cons t ts ih =>
      have e1 : (((t ++ [' ']) :: ts.map (fun t => t ++ [' '])).flatten)
          = t ++ ' ' :: (ts.map (fun t => t ++ [' '])).flatten := by
        simp
      rw [List.map_cons, e1,
        pySplit_token t _ (h t (List.mem_cons_self t ts)).1
          (h t (List.mem_cons_self t ts)).2,
        ih (fun x hx => h x (List.mem_cons_of_mem t hx))]

theorem pySplit_blocks_last (ts : List (List Char)) (last : List Char)
    (h : ∀ t ∈ ts, t ≠ [] ∧ wsFree t) (h1 : last ≠ []) (h2 : wsFree last) :
    pySplit ((ts.map (fun t => t ++ [' '])).flatten ++ last) = ts ++ [last] := by
  induction ts with
  | nil => simpa using pySplit_last last h1 h2
  | cons t ts ih =>
      have e1 : ((t ++ [' ']) :: ts.map (fun t => t ++ [' '])).flatten ++ last
          = t ++ ' ' :: ((ts.map (fun t => t ++ [' '])).flatten ++ last) := by
        simp
      rw [List.map_cons, e1,
        pySplit_token t _ (h t (List.mem_cons_self t ts)).1
          (h t (List.mem_cons_self t ts)).2,
        ih (fun x hx => h x (List.mem_cons_of_mem t hx))]
      rfl

/-- The `split()` tokens of one serialized atom line. -/
def lineToks (s : Structure) (i : Nat) (a : Atom) : List (List Char) :=
  natToChars (i + 1) ::
    ((if a.label = [] then [] else [a.label]) ++
      [typeCore a, stateCore a] ++ (s.getBondsV i).map bondBlock)

theorem natToChars_lineTokOK (n : Nat) (h : 0 < n) : lineTokOK (natToChars n) :=
  ⟨natToChars_ne_nil n h, fun c hc => (natToChars_charOK n c hc).1,
    fun hm => (natToChars_charOK n '\n' hm).2.2.2.2 rfl⟩

theorem bondBlock_facts (kb : Nat × Bond) (h : kb.2.btype ≠ []) :
    ∀ c ∈ bondBlock kb, isWS c = false ∧ c ≠ '\n' := by
  obtain ⟨⟨hbne, hbws, hbnl⟩, _⟩ := btTok_spec kb.2 h
  intro c hc
  unfold bondBlock at hc
  rcases List.mem_cons.mp hc with he | hm
  · subst he; exact ⟨by decide, by decide⟩
  · rw [List.mem_append] at hm
    rcases hm with hm | hm
    · rw [List.mem_append] at hm
      rcases hm with hm | hm
      · rw [List.mem_append] at hm
        rcases hm with hm | hm
        · obtain ⟨h0, h9⟩ := natToChars_digits _ c hm
          exact ⟨digit_not_ws c h0 h9,
            digit_ne c '\n' h0 h9 (Or.inl (by decide))⟩
        · have := List.mem_singleton.mp hm
          subst this; exact ⟨by decide, by decide⟩
      · exact ⟨hbws c hm, fun he => hbnl (he ▸ hm)⟩
    · have := List.mem_singleton.mp hm
      subst this; exact ⟨by decide, by decide⟩

theorem bondBlock_lineTokOK (kb : Nat × Bond) (h : kb.2.btype ≠ []) :
    lineTokOK (bondBlock kb) :=
  ⟨by simp [bondBlock], fun c hc => (bondBlock_facts kb h c hc).1,
    fun hm => (bondBlock_facts kb h '\n' hm).2 rfl⟩

/-- All tokens of a serialized line are nonempty, whitespace-free and
newline-free. -/
theorem lineToks_OK (s : Structure) (hWF : s.codecWF) (i : Nat) (a : Atom)
    (ha : s.atoms.get? i = some a) :
    ∀ t ∈ lineToks s i a, lineTokOK t := by
  obtain ⟨hT, hS, hL⟩ := hWF.2.2 a (List.get?_mem ha)
  intro t ht
  unfold lineToks at ht
  rcases List.mem_cons.mp ht with he | hm
  · subst he; exact natToChars_lineTokOK _ (by omega)
  · rw [List.mem_append] at hm
    rcases hm with hm | hm
    · rw [List.mem_append] at hm
      rcases hm with hm | hm
      · by_cases hl : a.label = []
        · rw [if_pos hl] at hm; simp at hm
        · rw [if_neg hl] at hm
          have := List.mem_singleton.mp hm
          subst this
          rcases hL with he | ⟨_, hlc⟩
          · exact absurd he hl
          · exact ⟨hl, fun c hc => (hlc c hc).1,
              fun hmn => (hlc '\n' hmn).2 rfl⟩
      · rcases List.mem_cons.mp hm with he | hm2
        · subst he; exact (typeCore_spec a hT).1
        · have := List.mem_singleton.mp hm2
          subst this; exact (stateCore_spec a hS).1
    · rw [List.mem_map] at hm
      obtain ⟨kb, hkb, rfl⟩ := hm
      refine bondBlock_lineTokOK kb ?_
      have : (kb.1, kb.2) ∈ s.getBondsV i := by
        rw [show ((kb.1, kb.2) : Nat × Bond) = kb from rfl]
        exact hkb
      exact (getBondsV_facts hWF this).2.2

theorem atomLine_eq_scalar (s : Structure) (i : Nat) (a : Atom) (e : EState)
    (hs : a.electronState = [e]) :
    Structure.atomLine s i a
      = ((lineToks s i a).map (fun t => t ++ [' '])).flatten := by
  unfold Structure.atomLine lineToks
  rw [typeTok_eq, stateTok_scalar hs, bondsTok_eq]
  by_cases hl : a.label = []
  · rw [if_pos hl, if_pos hl]
    simp [List.map_map, Function.comp]
    rfl
  · rw [if_neg hl, if_neg hl]
    simp [List.map_map, Function.comp]
    rfl

theorem atomLine_eq_list (s : Structure) (i : Nat) (a : Atom)
    (hs : ∀ e, a.electronState ≠ [e]) (hb : s.getBondsV i = []) :
    Structure.atomLine s i a
      = (((natToChars (i + 1) ::
            ((if a.label = [] then [] else [a.label]) ++ [typeCore a])).map
          (fun t => t ++ [' '])).flatten) ++ stateCore a := by
  unfold Structure.atomLine
  rw [typeTok_eq, stateTok_list a hs, bondsTok_eq, hb]
  by_cases hl : a.label = []
  · rw [if_pos hl, if_pos hl]
    simp
  · rw [if_neg hl, if_neg hl]
    simp

/-- `split()` recovers the serialized tokens of an atom line, provided the
atom's electron state is resolved or the atom is isolated (otherwise the
state token glues onto the first bond descriptor). -/
theorem pySplit_atomLine (s : Structure) (hWF : s.codecWF) (i : Nat)
    (a : Atom) (ha : s.atoms.get? i = some a)
    (hsc : a.electronState.length = 1 ∨ s.getBondsV i = []) :
    pySplit (Structure.atomLine s i a) = lineToks s i a := by
  have hOK : ∀ t ∈ lineToks s i a, t ≠ [] ∧ wsFree t :=
    fun t ht => ⟨(lineToks_OK s hWF i a ha t ht).1,
      (lineToks_OK s hWF i a ha t ht).2.1⟩
  by_cases hlen : a.electronState.length = 1
  · obtain ⟨e, he⟩ := List.length_eq_one.mp hlen
    rw [atomLine_eq_scalar s i a e he]
    exact pySplit_blocks _ hOK
  · have hb : s.getBondsV i = [] := hsc.resolve_left hlen
    have hs : ∀ e, a.electronState ≠ [e] := by
      intro e he
      exact hlen (by rw [he]; rfl)
    have hsub : ∀ t ∈ (natToChars (i + 1) ::
        ((if a.label = [] then [] else [a.label]) ++ [typeCore a])),
        t ∈ lineToks s i a := by
      intro t ht
      unfold lineToks
      rcases List.mem_cons.mp ht with he | hm
      · exact he ▸ List.mem_cons_self _ _
      · rw [List.mem_append] at hm
        refine List.mem_cons_of_mem _ ?_
        rw [List.mem_append]
        rcases hm with hm | hm
        · exact Or.inl (List.mem_append.mpr (Or.inl hm))
        · have := List.mem_singleton.mp hm
          subst this
          exact Or.inl (List.mem_append.mpr (Or.inr (by simp)))
    have hstc : stateCore a ∈ lineToks s i a := by
      unfold lineToks
      exact List.mem_cons_of_mem _
        (List.mem_append.mpr (Or.inl (List.mem_append.mpr (Or.inr (by simp)))))
    rw [atomLine_eq_list s i a hs hb,
      pySplit_blocks_last _ _ (fun t ht => hOK t (hsub t ht))
        (hOK _ hstc).1 (hOK _ hstc).2]
    unfold lineToks
    rw [hb]
    simp

/-! ### Evaluating the parser on a serialized line -/

/-- `parseBondDatum` on a serialized bond descriptor: the comma strip and
the `[1:-1]` slice undo the serializer's wrapping, the neighbour id and the
bond-type ambiguity set are recovered exactly, and a bond is materialized
precisely when the neighbour id is already in `atomdict`. -/
theorem parseBondDatum_block (ad : List (Int × Nat)) (selfIdx : Nat)
    (bs : List Bond) (inn : List (Int × List (List Char)))
    (k : Nat) (b : Bond) (hbt : b.btype ≠ []) :
    parseBondDatum ad selfIdx (bs, inn) (bondBlock (k, b)) =
      .ok ((match dget ad ((k : Int) + 1) with
            | some idx2 => bs ++ [Bond.mk selfIdx idx2 b.btype]
            | none => bs),
           dset inn ((k : Int) + 1) (b.btype.map BondType.labelOf)) := by
  obtain ⟨_, c, rest, hshape, hparse⟩ := btTok_spec b hbt
  have hstrip : pyStripChar ',' (bondBlock (k, b)) = bondBlock (k, b) :=
    pyStripChar_sandwich ',' obr cbr
      ((natToChars (k + 1) ++ [',']) ++ Structure.btTok b)
      (by decide) (by decide)
  have hinner : pyInner (bondBlock (k, b))
      = natToChars (k + 1) ++ [','] ++ Structure.btTok b :=
    pyInner_wrap obr cbr _
  have hpart : partComma (natToChars (k + 1) ++ [','] ++ Structure.btTok b)
      = (natToChars (k + 1), true, Structure.btTok b) := by
    rw [List.append_assoc]
    exact partComma_first _ _ (natToChars_no_comma (k + 1))
  have hint : parseIntPy (natToChars (k + 1)) = some ((k : Int) + 1) := by
    rw [parseIntPy_natToChars (k + 1) (by omega)]
    congr 1
  have hparse2 : (if c = obr then splitOnComma (pyInner (c :: rest))
      else [c :: rest]) = b.btype.map BondType.labelOf := by
    rw [← hshape]
    exact hparse
  unfold parseBondDatum
  (try simp only [])
  rw [hstrip, hinner, hpart]
  (try simp only [])
  rw [hint]
  rw [show optE (some ((k : Int) + 1)) = Except.ok ((k : Int) + 1) from rfl,
    ok_bind]
  (try simp only [])
  rw [hshape]
  (try simp only [])
  rw [hparse2]
  rw [show (pure (b.btype.map BondType.labelOf) :
      Except Unit (List (List Char)))
    = Except.ok (b.btype.map BondType.labelOf) from rfl, ok_bind]
  (try simp only [])
  cases hd : dget ad ((k : Int) + 1) with
  | none =>
      (try simp only [])
      rfl
  | some idx2 =>
      (try simp only [])
      rw [mapM_inv bondTypeOfLabel BondType.labelOf bondTypeOfLabel_labelOf
        b.btype]
      rfl

/-- The inner loop over a line's bond descriptors, for pairwise-distinct
neighbour ids that are fresh for the accumulated per-atom dictionary. -/
theorem bondFold (ad : List (Int × Nat)) (selfIdx : Nat) :
    ∀ (kbs : List (Nat × Bond)) (bs : List Bond)
      (inn : List (Int × List (List Char))),
      (∀ kb ∈ kbs, (kb.2 : Bond).btype ≠ []) →
      (∀ kb ∈ kbs, ∀ e ∈ inn,
        (e : Int × List (List Char)).1 ≠ ((kb.1 : Nat) : Int) + 1) →
      kbs.Pairwise (fun x y => x.1 ≠ y.1) →
      (kbs.map bondBlock).foldlM (parseBondDatum ad selfIdx) (bs, inn) =
        .ok (bs ++ kbs.filterMap (fun kb =>
              (dget ad ((kb.1 : Int) + 1)).map
                (fun idx2 => Bond.mk selfIdx idx2 kb.2.btype)),
          inn ++ kbs.map (fun kb : Nat × Bond =>
            ((kb.1 : Int) + 1, kb.2.btype.map BondType.labelOf))) := by
  intro kbs
  induction kbs with
  | nil =>
      intro bs inn _ _ _
      simp [List.foldlM_nil]
      rfl
  | cons kb kbs ih =>
      intro bs inn hbt hfresh hpw
      obtain ⟨k, b⟩ := kb
      rw [List.map_cons, List.foldlM_cons,
        parseBondDatum_block ad selfIdx bs inn k b
          (hbt (k, b) (List.mem_cons_self _ _)),
        ok_bind]
      rw [dset_fresh inn ((k : Int) + 1) _
        (fun kv hkv => hfresh (k, b) (List.mem_cons_self _ _) kv hkv)]
      have hne : ∀ kb2 ∈ kbs, k ≠ kb2.1 :=
        fun kb2 hm => (List.pairwise_cons.mp hpw).1 kb2 hm
      have hfresh2 : ∀ kb2 ∈ kbs, ∀ e ∈ inn ++ [((k : Int) + 1,
          b.btype.map BondType.labelOf)],
          (e : Int × List (List Char)).1 ≠ ((kb2.1 : Nat) : Int) + 1 := by
        intro kb2 hm e he
        rw [List.mem_append] at he
        rcases he with he | he
        · exact hfresh kb2 (List.mem_cons_of_mem _ hm) e he
        · have := List.mem_singleton.mp he
          subst this
          intro hcon
          exact hne kb2 hm (by omega)
      cases hd : dget ad ((k : Int) + 1) with
      | none =>
          (try simp only [])
          rw [ih _ _ (fun kb2 hm => hbt kb2 (List.mem_cons_of_mem _ hm))
            hfresh2 (List.pairwise_cons.mp hpw).2]
          simp [List.filterMap_cons, hd]
      | some idx2 =>
          (try simp only [])
          rw [ih _ _ (fun kb2 hm => hbt kb2 (List.mem_cons_of_mem _ hm))
            hfresh2 (List.pairwise_cons.mp hpw).2]
          simp [List.filterMap_cons, hd]

/-- Refreshing the range-indexed dictionary with the next sequential key
appends the next entry. -/
theorem rangeMap_dset_step {α : Type} (g : Nat → α) (i : Nat) :
    dset ((List.range i).map (fun m : Nat => ((m : Int) + 1, g m)))
        ((i : Int) + 1) (g i)
      = (List.range (i + 1)).map (fun m : Nat => ((m : Int) + 1, g m)) := by
  rw [dset_fresh]
  · rw [List.range_succ, List.map_append]
    rfl
  · intro kv hkv
    rw [List.mem_map] at hkv
    obtain ⟨m, hm, rfl⟩ := hkv
    rw [List.mem_range] at hm
    intro hcon
    have hcon2 : (m : Int) + 1 = (i : Int) + 1 := hcon
    omega

/-- With the `atomdict` present while parsing line `i`, the materialized
descriptors of the line are exactly `matBonds`. -/
theorem filterMap_dget_eq_matBonds (s : Structure) (i : Nat) :
    (s.getBondsV i).filterMap (fun kb =>
        (dget ((List.range (i + 1)).map (fun m : Nat => ((m : Int) + 1, m)))
          ((kb.1 : Int) + 1)).map
          (fun idx2 => Bond.mk i idx2 kb.2.btype))
      = matBonds s i := by
  unfold matBonds
  refine List.filterMap_congr ?_
  intro kb _
  rw [dget_rangeMap (fun m => m) (i + 1) kb.1]
  by_cases hk : kb.1 ≤ i
  · rw [if_pos (by omega), if_pos hk]
    rfl
  · rw [if_neg (by omega), if_neg hk]
    rfl

/-- `processLine` on the `i`-th serialized atom line advances the parser
state by exactly one atom. -/
theorem processLine_serialized (s : Structure) (hWF : s.codecWF) (i : Nat)
    (a : Atom) (ha : s.atoms.get? i = some a)
    (hsc : a.electronState.length = 1 ∨ s.getBondsV i = []) :
    processLine (stAt s i) (Structure.atomLine s i a)
      = .ok (stAt s (i + 1)) := by
  obtain ⟨hT, hS, hL⟩ := hWF.2.2 a (List.get?_mem ha)
  have hilt : i < s.atoms.length := (List.get?_eq_some.mp ha).1
  have hsplit := pySplit_atomLine s hWF i a ha hsc
  obtain ⟨hTok1, cT, rT, hTshape, hTstar, hTparse⟩ := typeCore_spec a hT
  obtain ⟨hTok2, hSup, cS, rS, hSshape, hSstar, hSparse⟩ := stateCore_spec a hS
  have hTparse2 : (if cT = obr then splitOnComma (pyInner (cT :: rT))
      else [cT :: rT]) = a.atomType.map AtomType.labelOf := by
    rw [← hTshape]; exact hTparse
  have hSparse2 : (if cS = obr then splitOnComma (pyInner (cS :: rS))
      else [cS :: rS]) = a.electronState.map EState.labelOf := by
    rw [← hSshape]; exact hSparse
  have hstripd : pyStripChar '.' (natToChars (i + 1)) = natToChars (i + 1) :=
    pyStripChar_of_not_mem '.' _ (natToChars_no_dot (i + 1))
  have hint : parseIntPy (natToChars (i + 1)) = some ((i : Int) + 1) := by
    rw [parseIntPy_natToChars (i + 1) (by omega)]
    congr 1
  have htakelen : (s.atoms.take i).length = i := by
    rw [List.length_take]
    omega
  have htypes : (a.atomType.map AtomType.labelOf).mapM atomTypeOfLabel
      = some a.atomType := mapM_inv _ _ atomTypeOfLabel_labelOf _
  have hstates : (a.electronState.map EState.labelOf).mapM eStateOfLabel
      = some a.electronState := mapM_inv _ _ eStateOfLabel_labelOf _
  have hpw := getBondsV_keys_nodup s i hWF.2.1
  have hbt : ∀ kb ∈ s.getBondsV i, (kb.2 : Bond).btype ≠ [] := by
    intro kb hkb
    have hm : (kb.1, kb.2) ∈ s.getBondsV i := by
      rw [show ((kb.1, kb.2) : Nat × Bond) = kb from rfl]
      exact hkb
    exact (getBondsV_facts hWF hm).2.2
  have hfold := bondFold
    ((List.range (i + 1)).map (fun m : Nat => ((m : Int) + 1, m))) i
    (s.getBondsV i) ((List.range i).flatMap (matBonds s)) [] hbt
    (by simp) hpw
  rw [filterMap_dget_eq_matBonds s i] at hfold
  rw [show (List.range i).flatMap (matBonds s) ++ matBonds s i
      = (List.range (i + 1)).flatMap (matBonds s) from by
    rw [List.range_succ, List.flatMap_append]; simp] at hfold
  simp only [List.nil_append] at hfold
  rw [show (s.getBondsV i).map (fun kb : Nat × Bond =>
      ((kb.1 : Int) + 1, kb.2.btype.map BondType.labelOf)) = innerOf s i
    from rfl] at hfold
  have hgetElem : s.atoms[i]? = some a := by
    rw [← List.get?_eq_getElem?]
    exact ha
  have hatoms : s.atoms.take i ++ [a] = s.atoms.take (i + 1) := by
    rw [List.take_succ, hgetElem]
    rfl
  have hadict := rangeMap_dset_step (fun m : Nat => m) i
  have hbdict := rangeMap_dset_step (innerOf s) i
  unfold processLine stAt
  rw [hsplit]
  unfold lineToks
  (try simp only [List.nil_append, List.cons_append])
  rw [hstripd, hint,
    show optE (some ((i : Int) + 1)) = Except.ok ((i : Int) + 1) from rfl,
    ok_bind]
  (try simp only [List.nil_append, List.cons_append])
  by_cases hlab : a.label = []
  · rw [if_pos hlab]
    (try simp only [List.nil_append, List.cons_append])
    rw [hTshape]
    (try simp only [])
    rw [if_neg hTstar,
      show (pure ((([] : List Char), (cT :: rT) :: stateCore a ::
          (s.getBondsV i).map bondBlock)) :
        Except Unit (List Char × List (List Char)))
        = Except.ok (([] : List Char), (cT :: rT) :: stateCore a ::
          (s.getBondsV i).map bondBlock) from rfl, ok_bind]
    (try simp only [])
    rw [show (pure ((cT :: rT), stateCore a :: (s.getBondsV i).map bondBlock) :
        Except Unit (List Char × List (List Char)))
        = Except.ok ((cT :: rT), stateCore a :: (s.getBondsV i).map bondBlock)
      from rfl, ok_bind]
    (try simp only [])
    rw [hTparse2,
      show (pure (a.atomType.map AtomType.labelOf) :
        Except Unit (List (List Char)))
        = Except.ok (a.atomType.map AtomType.labelOf) from rfl, ok_bind]
    (try simp only [])
    rw [show (pure (stateCore a, (s.getBondsV i).map bondBlock) :
        Except Unit (List Char × List (List Char)))
        = Except.ok (stateCore a, (s.getBondsV i).map bondBlock)
      from rfl, ok_bind]
    (try simp only [])
    rw [hSup, hSshape]
    (try simp only [])
    rw [hSparse2,
      show (pure (a.electronState.map EState.labelOf) :
        Except Unit (List (List Char)))
        = Except.ok (a.electronState.map EState.labelOf) from rfl, ok_bind]
    (try simp only [])
    rw [htypes,
      show optE (some a.atomType) = Except.ok a.atomType from rfl, ok_bind]
    (try simp only [])
    rw [hstates,
      show optE (some a.electronState) = Except.ok a.electronState from rfl,
      ok_bind]
    (try simp only [])
    rw [htakelen, hadict, hfold, ok_bind]
    (try simp only [])
    rw [show (Atom.mk a.atomType a.electronState []) = a from by
      rw [← hlab]]
    rw [hatoms, hbdict]
    rfl
  · rw [if_neg hlab]
    obtain ⟨lrest, hlabshape⟩ : ∃ lrest, a.label = '*' :: lrest := by
      rcases hL with he | ⟨hhead, _⟩
      · exact absurd he hlab
      · cases hx : a.label with
        | nil => rw [hx] at hhead; simp at hhead
        | cons c lr =>
            rw [hx] at hhead
            injection hhead with hc
            exact ⟨lr, by rw [hc]⟩
    (try simp only [List.nil_append, List.cons_append])
    rw [hlabshape]
    (try simp only [])
    rw [if_true,
      show (pure (('*' :: lrest), typeCore a :: stateCore a ::
          (s.getBondsV i).map bondBlock) :
        Except Unit (List Char × List (List Char)))
        = Except.ok (('*' :: lrest), typeCore a :: stateCore a ::
          (s.getBondsV i).map bondBlock) from rfl, ok_bind]
    (try simp only [])
    rw [show (pure (typeCore a, stateCore a :: (s.getBondsV i).map bondBlock) :
        Except Unit (List Char × List (List Char)))
        = Except.ok (typeCore a, stateCore a :: (s.getBondsV i).map bondBlock)
      from rfl, ok_bind]
    (try simp only [])
    rw [hTshape]
    (try simp only [])
    rw [hTparse2,
      show (pure (a.atomType.map AtomType.labelOf) :
        Except Unit (List (List Char)))
        = Except.ok (a.atomType.map AtomType.labelOf) from rfl, ok_bind]
    (try simp only [])
    rw [show (pure (stateCore a, (s.getBondsV i).map bondBlock) :
        Except Unit (List Char × List (List Char)))
        = Except.ok (stateCore a, (s.getBondsV i).map bondBlock)
      from rfl, ok_bind]
    (try simp only [])
    rw [hSup, hSshape]
    (try simp only [])
    rw [hSparse2,
      show (pure (a.electronState.map EState.labelOf) :
        Except Unit (List (List Char)))
        = Except.ok (a.electronState.map EState.labelOf) from rfl, ok_bind]
    (try simp only [])
    rw [htypes,
      show optE (some a.atomType) = Except.ok a.atomType from rfl, ok_bind]
    (try simp only [])
    rw [hstates,
      show optE (some a.electronState) = Except.ok a.electronState from rfl,
      ok_bind]
    (try simp only [])
    rw [htakelen, hadict, hfold, ok_bind]
    (try simp only [])
    rw [show (Atom.mk a.atomType a.electronState ('*' :: lrest)) = a from by
      rw [← hlabshape]]
    rw [hatoms, hbdict]
    rfl

/-- Folding `processLine` over the serialized atom lines from line `i`
onwards reaches the final parser state. -/
theorem lines_fold (s : Structure) (hWF : s.codecWF)
    (hsc : s.scalarOrIsolated) :
    ∀ (k i : Nat), i + k = s.atoms.length →
      ((s.atoms.enum.drop i).map
          (fun ia => Structure.atomLine s ia.1 ia.2)).foldlM
        processLine (stAt s i) = .ok (stAt s (i + k)) := by
  intro k
  induction k with
  | zero =>
      intro i hi
      rw [show s.atoms.enum.drop i = [] from
        List.drop_eq_nil_of_le (by rw [List.enum_length]; omega)]
      rfl
  | succ k ih =>
      intro i hi
      have hilt : i < s.atoms.length := by omega
      obtain ⟨a, ha⟩ : ∃ a, s.atoms.get? i = some a := by
        cases hx : s.atoms.get? i with
        | none => rw [List.get?_eq_none] at hx; omega
        | some a => exact ⟨a, rfl⟩
      have henum : s.atoms.enum.get? i = some (i, a) := by
        rw [List.get?_eq_getElem?, List.getElem?_enum,
          ← List.get?_eq_getElem?, ha]
        rfl
      obtain ⟨hlt2, hget⟩ := List.get?_eq_some.mp henum
      have hdrop : s.atoms.enum.drop i
          = (i, a) :: s.atoms.enum.drop (i + 1) := by
        rw [List.drop_eq_get_cons hlt2, hget]
      have hmem : (i, a) ∈ s.atoms.enum :=
        List.mk_mem_enum_iff_getElem?.mpr
          (by rw [← List.get?_eq_getElem?]; exact ha)
      rw [hdrop, List.map_cons, List.foldlM_cons,
        processLine_serialized s hWF i a ha (hsc (i, a) hmem), ok_bind,
        show i + (k + 1) = (i + 1) + k from by omega]
      exact ih (i + 1) (by omega)

/-- The serialized electron-state token never contains a newline. -/
theorem stateTok_no_nl (a : Atom) (hS : a.electronState ≠ []) :
    '\n' ∉ Structure.stateTok a := by
  obtain ⟨⟨_, _, hnl⟩, _, _⟩ := stateCore_spec a hS
  by_cases h : ∃ e, a.electronState = [e]
  · obtain ⟨e, he⟩ := h
    rw [stateTok_scalar he]
    intro hm
    rw [List.mem_append] at hm
    rcases hm with hm | hm
    · exact hnl hm
    · exact absurd (List.mem_singleton.mp hm) (by decide)
  · rw [stateTok_list a (fun e he => h ⟨e, he⟩)]
    exact hnl

/-- A serialized atom line never contains a newline. -/
theorem atomLine_no_nl (s : Structure) (hWF : s.codecWF) (i : Nat) (a : Atom)
    (ha : s.atoms.get? i = some a) : '\n' ∉ Structure.atomLine s i a := by
  obtain ⟨hT, hS, hL⟩ := hWF.2.2 a (List.get?_mem ha)
  obtain ⟨⟨_, _, hTnl⟩, _⟩ := typeCore_spec a hT
  unfold Structure.atomLine
  intro hm
  simp only [List.mem_append] at hm
  rcases hm with ((((hm | hm) | hm) | hm) | hm) | hm
  · exact (natToChars_charOK _ '\n' hm).2.2.2.2 rfl
  · exact absurd (List.mem_singleton.mp hm) (by decide)
  · by_cases hl : a.label = []
    · rw [if_pos hl] at hm
      simp at hm
    · rw [if_neg hl] at hm
      rcases hL with he | ⟨_, hlc⟩
      · exact absurd he hl
      · rw [List.mem_append] at hm
        rcases hm with hm | hm
        · exact (hlc '\n' hm).2 rfl
        · exact absurd (List.mem_singleton.mp hm) (by decide)
  · rw [typeTok_eq, List.mem_append] at hm
    rcases hm with hm | hm
    · exact hTnl hm
    · exact absurd (List.mem_singleton.mp hm) (by decide)
  · exact stateTok_no_nl a hS hm
  · rw [bondsTok_eq, List.mem_flatten] at hm
    obtain ⟨l, hl, hcl⟩ := hm
    rw [List.mem_map] at hl
    obtain ⟨kb, hkb, rfl⟩ := hl
    have hmm : (kb.1, kb.2) ∈ s.getBondsV i := by
      rw [show ((kb.1, kb.2) : Nat × Bond) = kb from rfl]
      exact hkb
    rw [List.mem_append] at hcl
    rcases hcl with hcl | hcl
    · exact (bondBlock_facts kb (getBondsV_facts hWF hmm).2.2 '\n' hcl).2 rfl
    · exact absurd (List.mem_singleton.mp hcl) (by decide)

/-- `splitlines` recovers the label line and one line per atom from a
serialization. -/
theorem pySplitlines_serialized (s : Structure) (lbl : List Char)
    (hWF : s.codecWF) (hlbl1 : lbl ≠ []) (hlbl2 : '\n' ∉ lbl) :
    pySplitlines (Structure.toAdjacencyList lbl s)
      = lbl :: s.atoms.enum.map (fun ia => Structure.atomLine s ia.1 ia.2) := by
  unfold Structure.toAdjacencyList
  rw [if_neg hlbl1, List.append_assoc,
    show (['\n'] : List Char) ++
        ((s.atoms.enum.map (fun ia =>
          Structure.atomLine s ia.1 ia.2 ++ ['\n'])).flatten)
      = '\n' :: ((s.atoms.enum.map (fun ia =>
          Structure.atomLine s ia.1 ia.2 ++ ['\n'])).flatten) from rfl,
    pySplitlines_append lbl _ hlbl2]
  congr 1
  rw [show s.atoms.enum.map (fun ia => Structure.atomLine s ia.1 ia.2 ++ ['\n'])
      = (s.atoms.enum.map (fun ia => Structure.atomLine s ia.1 ia.2)).map
          (fun b => b ++ ['\n']) from by rw [List.map_map]; rfl]
  refine pySplitlines_blocks _ ?_
  intro b hb
  rw [List.mem_map] at hb
  obtain ⟨ia, hia, rfl⟩ := hb
  refine atomLine_no_nl s hWF ia.1 ia.2 ?_
  rw [List.get?_eq_getElem?]
  refine List.mk_mem_enum_iff_getElem?.mp ?_
  rw [show ((ia.1, ia.2) : Nat × Atom) = ia from rfl]
  exact hia

/-- The final bond dictionary passes the mirror-consistency check: every
`(a, b)` entry has a `(b, a)` mirror with the identical label list, because
`getBonds` is symmetric. -/
theorem bddOK_stAt (s : Structure) (hWF : s.codecWF) :
    bddOK (stAt s s.atoms.length).bonddict = true := by
  unfold bddOK stAt
  rw [List.all_eq_true]
  intro entry hentry
  rw [List.mem_map] at hentry
  obtain ⟨m, hm, rfl⟩ := hentry
  rw [List.mem_range] at hm
  rw [List.all_eq_true]
  intro e2 he2
  unfold innerOf at he2
  rw [List.mem_map] at he2
  obtain ⟨kb, hkb, rfl⟩ := he2
  obtain ⟨k, b⟩ := kb
  have hmm : ((k, b) : Nat × Bond) ∈ s.getBondsV m := hkb
  have hkn : k < s.atoms.length := (getBondsV_facts hWF hmm).1
  have h1 : dget ((List.range s.atoms.length).map
      (fun m2 : Nat => ((m2 : Int) + 1, innerOf s m2))) ((k : Int) + 1)
      = some (innerOf s k) := by
    rw [dget_rangeMap (innerOf s) _ k, if_pos hkn]
  have hsym : ((m, b) : Nat × Bond) ∈ s.getBondsV k := getBondsV_symm hmm
  have hnd : (s.getBondsV k).Pairwise (fun x y =>
      (((x.1 : Nat) : Int) + 1) ≠ (((y.1 : Nat) : Int) + 1)) := by
    refine (getBondsV_keys_nodup s k hWF.2.1).imp ?_
    intro x y hxy hcon
    exact hxy (by omega)
  have h2 : dget (innerOf s k) ((m : Int) + 1)
      = some (b.btype.map BondType.labelOf) := by
    unfold innerOf
    have := dget_map_of_mem (fun kb2 : Nat × Bond =>
      ((kb2.1 : Int) + 1, kb2.2.btype.map BondType.labelOf))
      (s.getBondsV k) (m, b) hsym (by
        refine hnd.imp ?_
        intro x y hxy
        exact hxy)
    simpa using this
  (try simp only [])
  rw [h1]
  (try simp only [])
  rw [h2]
  simp

/-! ### The materialized bonds are a reorientation of the original bonds -/

/-- The contribution of one original bond to the bonds materialized at
line `i`. -/
def bondAt (i : Nat) (b : Bond) : Option Bond :=
  if b.a1 = i then
    (if b.a2 ≤ i then some (Bond.mk i b.a2 b.btype) else none)
  else if b.a2 = i then
    (if b.a1 ≤ i then some (Bond.mk i b.a1 b.btype) else none)
  else none

/-- A bond reoriented the way the parser materializes it: later endpoint
first. -/
def canon (b : Bond) : Bond :=
  Bond.mk (max b.a1 b.a2) (min b.a1 b.a2) b.btype

theorem matBonds_eq_filterMap (s : Structure) (i : Nat) :
    matBonds s i = s.bonds.filterMap (bondAt i) := by
  unfold matBonds Structure.getBondsV bondAt
  rw [List.filterMap_filterMap]
  refine List.filterMap_congr ?_
  intro b _
  by_cases h1 : b.a1 = i
  · rw [if_pos h1, if_pos h1]
    by_cases h2 : b.a2 ≤ i <;> simp [h2]
  · rw [if_neg h1, if_neg h1]
    by_cases h2 : b.a2 = i
    · rw [if_pos h2, if_pos h2]
      by_cases h3 : b.a1 ≤ i <;> simp [h3]
    · rw [if_neg h2, if_neg h2]
      rfl

theorem bondAt_char (b : Bond) (i : Nat) :
    bondAt i b = if i = max b.a1 b.a2 then some (canon b) else none := by
  unfold bondAt canon
  by_cases h1 : b.a1 = i
  · by_cases h2 : b.a2 ≤ i
    · have e1 : i = max b.a1 b.a2 := by omega
      have e2 : b.a2 = min b.a1 b.a2 := by omega
      rw [if_pos h1, if_pos h2, if_pos e1, ← e1, ← e2]
    · rw [if_pos h1, if_neg h2, if_neg (by omega)]
  · by_cases h2 : b.a2 = i
    · by_cases h3 : b.a1 ≤ i
      · have e1 : i = max b.a1 b.a2 := by omega
        have e2 : b.a1 = min b.a1 b.a2 := by omega
        rw [if_neg h1, if_pos h2, if_pos h3, if_pos e1, ← e1, ← e2]
      · rw [if_neg h1, if_pos h2, if_neg h3, if_neg (by omega)]
    · rw [if_neg h1, if_neg h2, if_neg (by omega)]

theorem flatMap_nil_of {α β : Type} (l : List α) (f : α → List β)
    (h : ∀ a ∈ l, f a = []) : l.flatMap f = [] := by
  induction l with
  | nil => rfl
  | cons x l ih =>
      rw [List.flatMap_cons, h x (List.mem_cons_self _ _),
        ih (fun a ha => h a (List.mem_cons_of_mem _ ha))]
      rfl

/-- `flatMap` of a pointwise append is a permutation of the appended
`flatMap`s. -/
theorem flatMap_append_perm {α β : Type} (l : List α) (f g : α → List β) :
    (l.flatMap (fun x => f x ++ g x)).Perm (l.flatMap f ++ l.flatMap g) := by
  induction l with
  | nil => simp
  | cons x l ih =>
      simp only [List.flatMap_cons]
      calc ((f x ++ g x) ++ l.flatMap (fun y => f y ++ g y)).Perm
            ((f x ++ g x) ++ (l.flatMap f ++ l.flatMap g)) := ih.append_left _
        _ = f x ++ ((g x ++ l.flatMap f) ++ l.flatMap g) := by simp
        _ |>.Perm (f x ++ ((l.flatMap f ++ g x) ++ l.flatMap g)) :=
            ((List.perm_append_comm).append_right _).append_left _
        _ = (f x ++ l.flatMap f) ++ (g x ++ l.flatMap g) := by simp

/-- A `flatMap` whose function hits exactly at one index yields the single
value. -/
theorem flatMap_single {β : Type} (j : Nat) (x : β) :
    ∀ n, j < n →
      (List.range n).flatMap
          (fun i => (if i = j then some x else none).toList) = [x] := by
  intro n
  induction n with
  | zero => omega
  | succ n ih =>
      intro hj
      rw [List.range_succ, List.flatMap_append]
      by_cases hjn : j < n
      · rw [ih hjn]
        have hne : n ≠ j := by omega
        simp [hne]
      · have he : j = n := by omega
        subst he
        rw [flatMap_nil_of _ _ ?_]
        · simp
        · intro a ha
          rw [List.mem_range] at ha
          have : a ≠ j := by omega
          simp [this]

/-- All materialized bonds, over all lines, are exactly the original bonds
reoriented: a permutation of `map canon`. -/
theorem flatMap_matBonds_perm (s : Structure) (hWF : s.codecWF) :
    ((List.range s.atoms.length).flatMap (matBonds s)).Perm
      (s.bonds.map canon) := by
  rw [show matBonds s = fun i => s.bonds.filterMap (bondAt i) from
    funext (matBonds_eq_filterMap s)]
  have key : ∀ (bonds : List Bond),
      (∀ b ∈ bonds, b.a1 < s.atoms.length ∧ b.a2 < s.atoms.length) →
      ((List.range s.atoms.length).flatMap
        (fun i => bonds.filterMap (bondAt i))).Perm (bonds.map canon) := by
    intro bonds
    induction bonds with
    | nil =>
        intro _
        rw [show ((List.range s.atoms.length).flatMap
            (fun i => List.filterMap (bondAt i) ([] : List Bond))) = [] from
          flatMap_nil_of _ _ (fun a ha => rfl)]
        rfl
    | cons b bs ih =>
        intro hin
        rw [show (fun i => (b :: bs).filterMap (bondAt i))
            = (fun i => (bondAt i b).toList ++ bs.filterMap (bondAt i)) from
          funext (fun i => by
            cases h : bondAt i b <;> simp [List.filterMap_cons, h])]
        refine (flatMap_append_perm _ _ _).trans ?_
        rw [List.map_cons]
        rw [show (fun i => ((bondAt i b).toList : List Bond))
            = (fun i => (if i = max b.a1 b.a2 then some (canon b)
                else none).toList) from
          funext (fun i => by rw [bondAt_char b i])]
        rw [flatMap_single (max b.a1 b.a2) (canon b) _ (by
          obtain ⟨h1, h2⟩ := hin b (List.mem_cons_self _ _)
          omega)]
        exact (ih (fun b2 hm => hin b2 (List.mem_cons_of_mem _ hm))).cons _
  exact key s.bonds (fun b hb => ⟨(hWF.1 b hb).1, (hWF.1 b hb).2.1⟩)

theorem pairKey_canon (b : Bond) :
    Structure.pairKey (canon b) = Structure.pairKey b := by
  unfold canon Structure.pairKey
  have e1 : min (max b.a1 b.a2) (min b.a1 b.a2) = min b.a1 b.a2 := by omega
  have e2 : max (max b.a1 b.a2) (min b.a1 b.a2) = max b.a1 b.a2 := by omega
  rw [e1, e2]

/-- `initialize` keeps a bond list with pairwise-distinct unordered
endpoint pairs intact. -/
theorem initFrom_distinct (atoms : List Atom) :
    ∀ (bonds acc : List Bond),
      (acc ++ bonds).Pairwise (fun b1 b2 =>
        Structure.pairKey b1 ≠ Structure.pairKey b2) →
      bonds.foldl Structure.addBondS ⟨atoms, acc⟩ = ⟨atoms, acc ++ bonds⟩ := by
  intro bonds
  induction bonds with
  | nil =>
      intro acc _
      rw [List.foldl_nil, List.append_nil]
  | cons b bs ih =>
      intro acc hpw
      rw [List.foldl_cons]
      have hstep : Structure.addBondS ⟨atoms, acc⟩ b = ⟨atoms, acc ++ [b]⟩ := by
        unfold Structure.addBondS
        rw [if_neg ?_]
        intro hany
        rw [List.any_eq_true] at hany
        obtain ⟨b', hb', he⟩ := hany
        exact (List.pairwise_append.mp hpw).2.2 b' hb' b
          (List.mem_cons_self _ _) (by simpa using he)
      rw [hstep, ih (acc ++ [b]) (by
        rw [List.append_assoc]
        exact hpw)]
      rw [List.append_assoc]
      rfl

/-! ### Isomorphism of codec structures -/

/-- Atom-level equivalence: same atom-type multiset, same electron-state
multiset, same label. -/
def atomEquiv (a b : Atom) : Prop :=
  (a.atomType : Multiset AtomType) = (b.atomType : Multiset AtomType) ∧
  (a.electronState : Multiset EState) = (b.electronState : Multiset EState) ∧
  a.label = b.label

/-- The unordered endpoint pair and bond-type multiset of a bond, under an
index correspondence. -/
def bondKeyM (σ : Nat → Nat) (b : Bond) : Multiset Nat × Multiset BondType :=
  ({σ b.a1, σ b.a2}, (b.btype : Multiset BondType))

/-- Isomorphism in the round-trip sense of the spec: an index
correspondence preserving atom count, per-atom type/state sets and labels,
and the multiset of bonds between corresponding atoms (ids need not be
preserved). -/
def Structure.iso (s t : Structure) : Prop :=
  ∃ σ : Nat → Nat,
    s.atoms.length = t.atoms.length ∧
    (∀ i, i < s.atoms.length → σ i < t.atoms.length) ∧
    (∀ i j, i < s.atoms.length → j < s.atoms.length → σ i = σ j → i = j) ∧
    (∀ i a, s.atoms.get? i = some a →
      ∃ b, t.atoms.get? (σ i) = some b ∧ atomEquiv a b) ∧
    Multiset.map (bondKeyM σ) (s.bonds : Multiset Bond)
      = Multiset.map (bondKeyM id) (t.bonds : Multiset Bond)

theorem bondKeyM_canon (b : Bond) : bondKeyM id (canon b) = bondKeyM id b := by
  unfold bondKeyM canon
  simp only [id]
  by_cases h : b.a1 ≤ b.a2
  · rw [show max b.a1 b.a2 = b.a2 from by omega,
      show min b.a1 b.a2 = b.a1 from by omega,
      Multiset.pair_comm]
  · rw [show max b.a1 b.a2 = b.a1 from by omega,
      show min b.a1 b.a2 = b.a2 from by omega]

/-- The fully assembled round trip, under the codec's well-formedness, the
scalar-state-or-isolated condition and a usable label line. -/
theorem roundTrip (s : Structure) (lbl : List Char)
    (hWF : s.codecWF) (hsc : s.scalarOrIsolated)
    (hlbl1 : lbl ≠ []) (hlbl2 : '\n' ∉ lbl) :
    fromAdjacencyList (Structure.toAdjacencyList lbl s)
      = .ok ⟨s.atoms, (List.range s.atoms.length).flatMap (matBonds s)⟩ ∧
    ((List.range s.atoms.length).flatMap (matBonds s)).Perm
      (s.bonds.map canon) := by
  have hperm := flatMap_matBonds_perm s hWF
  have hpw2 : ((List.range s.atoms.length).flatMap (matBonds s)).Pairwise
      (fun b1 b2 => Structure.pairKey b1 ≠ Structure.pairKey b2) := by
    rw [hperm.pairwise_iff (fun hab he => hab he.symm)]
    rw [List.pairwise_map]
    refine hWF.2.1.imp ?_
    intro b1 b2 hne
    rw [pairKey_canon, pairKey_canon]
    exact hne
  have hinit : Structure.initFrom s.atoms
      ((List.range s.atoms.length).flatMap (matBonds s))
      = ⟨s.atoms, (List.range s.atoms.length).flatMap (matBonds s)⟩ := by
    unfold Structure.initFrom
    exact initFrom_distinct s.atoms _ [] (by simpa using hpw2)
  have hfold := lines_fold s hWF hsc s.atoms.length 0 (by omega)
  rw [List.drop_zero] at hfold
  rw [show (0 : Nat) + s.atoms.length = s.atoms.length from by omega] at hfold
  refine ⟨?_, hperm⟩
  rw [fromAdjacencyList_cons _ lbl _
    (pySplitlines_serialized s lbl hWF hlbl1 hlbl2)]
  rw [show stAt s 0 = ParseSt.mk [] [] [] [] from rfl] at hfold
  rw [hfold]
  (try simp only [])
  rw [show (stAt s s.atoms.length).bonddict
    = (List.range s.atoms.length).map
        (fun m : Nat => ((m : Int) + 1, innerOf s m)) from rfl]
  rw [show ((List.range s.atoms.length).map
        (fun m : Nat => ((m : Int) + 1, innerOf s m)))
      = (stAt s s.atoms.length).bonddict from rfl, bddOK_stAt s hWF]
  (try simp only [])
  rw [if_true]
  unfold stAt
  (try simp only [])
  rw [List.take_length, hinit]

instance (s : Structure) : Decidable s.codecWF := by
  unfold Structure.codecWF; infer_instance

instance (s : Structure) : Decidable s.scalarOrIsolated := by
  unfold Structure.scalarOrIsolated; infer_instance

/-- C2 (corrected): for every Structure satisfying the well-formedness the
codec itself guarantees (`codecWF`), in which every atom with an
unresolved, list-valued electron state is isolated
(`scalarOrIsolated`), and for every nonempty newline-free label line,
parsing the serialization succeeds and yields a Structure isomorphic to
the original: same atom count, same per-atom type and electron-state
sets and labels, and the same bond multiset between corresponding atoms.
Without the isolation condition the round trip can fail outright, because
line 418 appends no space after a list-valued electron-state token, gluing
it to the first bond descriptor (see the counterexample); an empty label
also breaks the round trip by making the first atom line the label line. -/
theorem claim_C2 (s : Structure) (lbl : List Char)
    (hWF : s.codecWF) (hsc : s.scalarOrIsolated)
    (hlbl1 : lbl ≠ []) (hlbl2 : '\n' ∉ lbl) :
    ∃ t, fromAdjacencyList (Structure.toAdjacencyList lbl s) = .ok t ∧
      Structure.iso s t := by
  obtain ⟨hok, hperm⟩ := roundTrip s lbl hWF hsc hlbl1 hlbl2
  refine ⟨_, hok, id, rfl, fun i hi => hi, fun i j _ _ h => h, ?_, ?_⟩
  · intro i a ha
    exact ⟨a, ha, rfl, rfl, rfl⟩
  · have hco : (((List.range s.atoms.length).flatMap (matBonds s) : List Bond)
        : Multiset Bond)
        = ((s.bonds.map canon : List Bond) : Multiset Bond) :=
      Quot.sound hperm
    show Multiset.map (bondKeyM id) (s.bonds : Multiset Bond)
      = Multiset.map (bondKeyM id)
          (((List.range s.atoms.length).flatMap (matBonds s) : List Bond)
            : Multiset Bond)
    rw [hco, Multiset.map_coe, Multiset.map_coe, List.map_map]
    exact congrArg _ (List.map_congr_left
      (fun b _ => (bondKeyM_canon b).symm))

/-- The adjacency list producing the counterexample structure: atom 1 has
the electron-state ambiguity set `{0,1}` and a bond to atom 2. -/
def exC2 : List Char :=
  ['L', '\n',
   '1', ' ', 'C', ' ', '\x7b', '0', ',', '1', '\x7d', ' ',
   '\x7b', '2', ',', 'S', '\x7d', '\n',
   '2', ' ', 'C', ' ', '0', ' ', '\x7b', '1', ',', 'S', '\x7d', '\n']

/-- The structure the codec builds from `exC2`. -/
def exC2S : Structure :=
  ⟨[⟨[.C], [.s0, .s1], []⟩, ⟨[.C], [.s0], []⟩], [⟨1, 0, [.S]⟩]⟩

/-- C2 counterexample to the unconditional round-trip claim: `exC2S` is
produced purely by the codec (it is parsed from `exC2`), yet parsing its
own serialization fails — line 418 writes atom 1's list-valued
electron-state token without a trailing space, gluing it onto the first
bond descriptor, so re-parsing raises the invalid-adjacency-list error
instead of returning an isomorphic structure. -/
theorem claim_C2_counterexample :
    fromAdjacencyList exC2 = .ok exC2S ∧
    fromAdjacencyList (Structure.toAdjacencyList ['L'] exC2S)
      = .error (.invalid ['L']) := ⟨rfl, rfl⟩

/-- A concrete codec-well-formed structure with resolved electron states
and one bond, for instantiating the round-trip theorem. -/
def exC2w : Structure :=
  ⟨[⟨[.C], [.s0], []⟩, ⟨[.C], [.s1], []⟩], [⟨0, 1, [.S]⟩]⟩

theorem claim_C2_witness :
    (exC2w.codecWF ∧ exC2w.scalarOrIsolated ∧ (['L'] : List Char) ≠ [] ∧
      '\n' ∉ (['L'] : List Char)) ∧
    ∃ t, fromAdjacencyList (Structure.toAdjacencyList ['L'] exC2w) = .ok t ∧
      Structure.iso exC2w t :=
  ⟨⟨by decide, by decide, by decide, by decide⟩,
    claim_C2 exC2w ['L'] (by decide) (by decide) (by decide) (by decide)⟩

end RMG